import Mathlib

/-!
# Verification of `rkhapov/hashmap`

A shallow embedding of `src/PrimesHelper.cpp` (the capacity sizing policy) and of
`src/HashMap.hpp` (an index-linked chaining hash table), followed by theorems about
the embedded operations.

Modelling conventions.

* `size_t` values are natural numbers; the product `n * 2` of `ExpandPrime` is reduced
  modulo `2 ^ 64` and the scan of `GetPrime` stops at `SIZE_MAX = 2 ^ 64 - 1`.
* `int` values (bucket heads, `next` links, `deletedList`, iterator fields) are integers
  with the sentinel `-1`; the casts between `size_t` and `int` are exact, which is the
  case for the source as long as the capacity is below `2 ^ 31`.
* The arrays `buckets` and `entries` are lists (`nullptr` is the empty list); a read
  outside of an array yields the value of a freshly allocated cell and a write outside
  of it is dropped.  The well-formedness invariant keeps every access inside the arrays.
* A payload pointer `kvp` is an `Option`; dereferencing `nullptr` makes the operation
  produce `none`.
* Loops that follow `next` links or scan the bucket array carry a fuel argument; running
  out of fuel produces `none`.  An operation returns `none` exactly when it does not
  return normally (`PrimesError`, a null dereference or an exhausted loop).
* The hasher and the equality comparer stored in the table are explicit arguments.
-/

namespace PrimesHelper

/-- The curated table `Primes` of `PrimesHelper.cpp`. -/
def Primes : List Nat :=
  [3, 7, 17, 23, 29, 37, 47, 59, 71, 89, 107, 131, 163, 197, 239, 293, 353, 431, 521, 631,
   761, 919, 1103, 1327, 1597, 1931, 2333, 2801, 3371, 4049, 4861, 5839, 7013, 8419, 10103,
   12143, 14591, 17519, 21023, 25229, 30293, 36353, 43627, 52361, 62851, 75431, 90523,
   108631, 130363, 156437, 187751, 225307, 270371, 324449, 389357, 467237, 560689, 672827,
   807403, 968897, 1162687, 1395263, 1674319, 2009191, 2411033, 2893249, 3471899, 4166287,
   4999559, 5999471, 7199369]

/-- The last entry of the curated table: `Primes[sizeof(Primes) / sizeof(size_t) - 1]`. -/
def MaxPrimeFromList : Nat := Primes.getLastD 0

/-- The constant `MaxPrime`. -/
def MaxPrime : Nat := 2146435069

/-- The value `std::numeric_limits<size_t>::max()` on a 64-bit platform. -/
def SIZE_MAX : Nat := 2 ^ 64 - 1

/-- The function `IsPrime`: even numbers are prime only when equal to 2; an odd number is
tested against the odd divisors `i = 3, 5, ...` with `i <= bound`, where `bound` is the
square root (modelled as the integer square root).  The `j`-th round of the loop tests
`i = 2 * j + 3`, and there are `(bound - 1) / 2` rounds. -/
def IsPrime (n : Nat) : Bool :=
  if (n &&& 1) = 0 then
    n == 2
  else
    let bound := Nat.sqrt n
    (List.range ((bound - 1) / 2)).all (fun j => n % (2 * j + 3) != 0)

/-- The fallback loop of `GetPrime`:
`for (num = min | 1; num < SIZE_MAX; num += 2) if (IsPrime(num)) return num;`
followed by `throw PrimesError`, which is the result `none`. -/
def GetPrime.scan (num : Nat) : Option Nat :=
  if num < SIZE_MAX then
    if IsPrime num then some num else GetPrime.scan (num + 2)
  else
    none
termination_by SIZE_MAX - num
decreasing_by
  simp only [SIZE_MAX] at *
  omega

/-- The function `PrimesHelper::GetPrime`; `none` stands for the thrown `PrimesError`. -/
def GetPrime (min : Nat) : Option Nat :=
  match (if min ≤ MaxPrimeFromList then Primes.find? (fun prime => decide (prime ≥ min))
         else none) with
  | some prime => some prime
  | none => GetPrime.scan (min ||| 1)

/-- The function `PrimesHelper::ExpandPrime`. -/
def ExpandPrime (n : Nat) : Option Nat :=
  let min := (n * 2) % 2 ^ 64
  if n < MaxPrime ∧ MaxPrime < min then some MaxPrime else GetPrime min

end PrimesHelper

/-- The struct `HashMap::Entry`: cached hash, payload pointer and `next` link. -/
structure Entry (K V : Type) where
  hash : Nat
  kvp : Option (K × V)
  next : Int
deriving DecidableEq

/-- The class `HashMap::Iterator` without its back pointer to the table. -/
structure Iterator where
  currentBucketIndex : Int
  currentEntryIndex : Int
deriving DecidableEq

/-- The data members of `HashMap` (hasher and comparer are passed separately). -/
structure HashMap (K V : Type) where
  buckets : List Int
  entries : List (Entry K V)
  capacity : Nat
  usedEntriesAmount : Nat
  deletedEntriesAmount : Nat
  deletedList : Int
deriving DecidableEq

namespace HashMap

variable {K V : Type}

/-- The default constructor `Entry()`. -/
def emptyEntry : Entry K V := ⟨0, none, -1⟩

/-- The read `entries[i]`. -/
def entryAt (entries : List (Entry K V)) (i : Nat) : Entry K V :=
  entries.getD i emptyEntry

/-- The read `buckets[b]`. -/
def bucketAt (buckets : List Int) (b : Nat) : Int :=
  buckets.getD b (-1)

/-- The default constructor `HashMap()`, also the state left by `clear()`. -/
def empty : HashMap K V :=
  { buckets := [], entries := [], capacity := 0, usedEntriesAmount := 0,
    deletedEntriesAmount := 0, deletedList := -1 }

/-- The method `size()`.  The subtraction is the `size_t` one as long as
`deletedEntriesAmount` does not exceed `usedEntriesAmount`, which well-formed tables
guarantee. -/
def size (m : HashMap K V) : Nat :=
  m.usedEntriesAmount - m.deletedEntriesAmount

/-- The constructor `Iterator(map, entry)`. -/
def mkIterator (m : HashMap K V) (entry : Int) : Iterator :=
  if entry ≠ -1 then
    { currentBucketIndex := ((entryAt m.entries entry.toNat).hash % m.capacity : Nat),
      currentEntryIndex := entry }
  else
    { currentBucketIndex := -1, currentEntryIndex := entry }

/-- The method `end()`. -/
def end_ (m : HashMap K V) : Iterator :=
  mkIterator m (-1)

/-- The comparison `Iterator::operator==`, which looks at the entry index only. -/
def iterEq (a b : Iterator) : Bool :=
  a.currentEntryIndex == b.currentEntryIndex

/-- The dereference `Iterator::operator*` (and `operator->`). -/
def deref (m : HashMap K V) (it : Iterator) : Option (K × V) :=
  (entryAt m.entries it.currentEntryIndex.toNat).kvp

/-- The loop `while (b < capacity && buckets[b] == -1) b++` shared by `begin()`,
`Iterator::operator++` and the tail of `erase`; the result is the final `b`. -/
def scanBuckets (buckets : List Int) (capacity : Nat) : Nat → Int → Option Int
  | 0, _ => none
  | fuel + 1, b =>
    if b < (capacity : Int) ∧ bucketAt buckets b.toNat = -1 then
      scanBuckets buckets capacity fuel (b + 1)
    else
      some b

/-- The method `begin()`. -/
def begin (m : HashMap K V) : Option Iterator := do
  let firstBucket ← scanBuckets m.buckets m.capacity (m.capacity + 1) 0
  some (mkIterator m
    (if firstBucket < (m.capacity : Int) then bucketAt m.buckets firstBucket.toNat else -1))

/-- The pre-increment `Iterator::operator++`. -/
def incr (m : HashMap K V) (it : Iterator) : Option Iterator :=
  if it.currentEntryIndex = -1 then
    some it
  else if (entryAt m.entries it.currentEntryIndex.toNat).next ≠ -1 then
    some { it with currentEntryIndex := (entryAt m.entries it.currentEntryIndex.toNat).next }
  else do
    let bucket ← scanBuckets m.buckets m.capacity (m.capacity + 1) (it.currentBucketIndex + 1)
    if bucket < (m.capacity : Int) then
      some { currentBucketIndex := bucket,
             currentEntryIndex := bucketAt m.buckets bucket.toNat }
    else
      some { currentBucketIndex := bucket, currentEntryIndex := -1 }

/-- The loop of `TryFindEntryIndex`. -/
def TryFindEntryIndex.loop (eq : K → K → Bool) (entries : List (Entry K V)) (key : K)
    (hash : Nat) : Nat → Int → Option Int
  | 0, _ => none
  | fuel + 1, current =>
    if current ≥ 0 then
      let entry := entryAt entries current.toNat
      if hash = entry.hash then
        match entry.kvp with
        | none => none
        | some kv =>
          if eq key kv.1 then some current
          else TryFindEntryIndex.loop eq entries key hash fuel entry.next
      else
        TryFindEntryIndex.loop eq entries key hash fuel entry.next
    else
      some current

/-- The method `TryFindEntryIndex`. -/
def TryFindEntryIndex (eq : K → K → Bool) (m : HashMap K V) (key : K) (hash : Nat) :
    Option Int :=
  if m.capacity = 0 then
    some (-1)
  else
    TryFindEntryIndex.loop eq m.entries key hash (m.capacity + 1)
      (bucketAt m.buckets (hash % m.capacity))

/-- The method `Initialize`. -/
def Initialize (m : HashMap K V) (size : Nat) : Option (HashMap K V) := do
  let capacity ← PrimesHelper.GetPrime size
  some { m with
    capacity := capacity
    buckets := List.replicate capacity (-1)
    entries := List.replicate capacity emptyEntry }

/-- One round of the loop of `Enlarge`: `newEntries[i] = std::move(entries[i])`, and an
occupied entry becomes the head of its new bucket. -/
def Enlarge.step (capacity : Nat) (entries : List (Entry K V))
    (acc : List Int × List (Entry K V)) (i : Nat) : List Int × List (Entry K V) :=
  let moved := entryAt entries i
  match moved.kvp with
  | some _ =>
    let newBucket := moved.hash % capacity
    (acc.1.set newBucket (i : Int),
     acc.2.set i { moved with next := bucketAt acc.1 newBucket })
  | none => (acc.1, acc.2.set i moved)

/-- The method `Enlarge`.  The branch marked unreachable in the source returns with the
new capacity already stored and the arrays untouched. -/
def Enlarge (m : HashMap K V) : Option (HashMap K V) := do
  let oldCapacity := m.capacity
  let capacity ← PrimesHelper.ExpandPrime m.capacity
  if capacity ≤ oldCapacity then
    some { m with capacity := capacity }
  else
    let arrays := (List.range oldCapacity).foldl (Enlarge.step capacity m.entries)
      (List.replicate capacity (-1), List.replicate capacity emptyEntry)
    some { m with capacity := capacity, buckets := arrays.1, entries := arrays.2 }

/-- The method `GetNextCreationBucketAndIndex`; the result is `(bucket, index)` together
with the updated table. -/
def GetNextCreationBucketAndIndex (m : HashMap K V) (hash : Nat) :
    Option (Int × Int × HashMap K V) := do
  let m ← if m.capacity = 0 then Initialize m 0 else some m
  let bucket : Int := ((hash % m.capacity : Nat) : Int)
  if m.deletedEntriesAmount > 0 then
    let index := m.deletedList
    some (bucket, index,
      { m with
        deletedList := (entryAt m.entries m.deletedList.toNat).next
        deletedEntriesAmount := m.deletedEntriesAmount - 1 })
  else if m.usedEntriesAmount = m.capacity then do
    let m ← Enlarge m
    let bucket : Int := ((hash % m.capacity : Nat) : Int)
    some (bucket, (m.usedEntriesAmount : Int),
      { m with usedEntriesAmount := m.usedEntriesAmount + 1 })
  else
    some (bucket, (m.usedEntriesAmount : Int),
      { m with usedEntriesAmount := m.usedEntriesAmount + 1 })

/-- The overload `CreateAndGetEntryIndex(KeyValuePair &&pair, size_t hash)`. -/
def CreateAndGetEntryIndexPair (m : HashMap K V) (pair : K × V) (hash : Nat) :
    Option (Int × HashMap K V) := do
  let (bucket, index, m) ← GetNextCreationBucketAndIndex m hash
  let entries := m.entries.set index.toNat
    { hash := hash, kvp := some pair, next := bucketAt m.buckets bucket.toNat }
  some (index, { m with entries := entries, buckets := m.buckets.set bucket.toNat index })

/-- The overload `CreateAndGetEntryIndex(size_t hash, TKey &&key, Args&&... args)`; the
value is built in place by `ctor` from `args`. -/
def CreateAndGetEntryIndex {A : Type} (m : HashMap K V) (hash : Nat) (key : K)
    (ctor : A → V) (args : A) : Option (Int × HashMap K V) := do
  let (bucket, index, m) ← GetNextCreationBucketAndIndex m hash
  let entries := m.entries.set index.toNat
    { hash := hash, kvp := some (key, ctor args), next := bucketAt m.buckets bucket.toNat }
  some (index, { m with entries := entries, buckets := m.buckets.set bucket.toNat index })

/-- The overload `insert(KeyValuePair &&item)`; `insert(const KeyValuePair &)` forwards
to it. -/
def insertPair (hasher : K → Nat) (eq : K → K → Bool) (m : HashMap K V) (item : K × V) :
    Option (Bool × Iterator × HashMap K V) := do
  let hash := hasher item.1
  let existing ← TryFindEntryIndex eq m item.1 hash
  if existing ≠ -1 then
    some (false, end_ m, m)
  else do
    let (createdEntryIndex, m) ← CreateAndGetEntryIndexPair m item hash
    some (true, mkIterator m createdEntryIndex, m)

/-- The overload `insert(TKey &&key, TValue &&value)`. -/
def insert (hasher : K → Nat) (eq : K → K → Bool) (m : HashMap K V) (key : K) (value : V) :
    Option (Bool × Iterator × HashMap K V) := do
  let hash := hasher key
  let existing ← TryFindEntryIndex eq m key hash
  if existing ≠ -1 then
    some (false, end_ m, m)
  else do
    let (createdEntryIndex, m) ← CreateAndGetEntryIndex m hash key id value
    some (true, mkIterator m createdEntryIndex, m)

/-- The method `try_emplace(key, args...)`. -/
def try_emplace {A : Type} (hasher : K → Nat) (eq : K → K → Bool) (m : HashMap K V)
    (key : K) (ctor : A → V) (args : A) : Option (Bool × Iterator × HashMap K V) := do
  let hash := hasher key
  let existing ← TryFindEntryIndex eq m key hash
  if existing ≠ -1 then
    some (false, end_ m, m)
  else do
    let (createdEntryIndex, m) ← CreateAndGetEntryIndex m hash key ctor args
    some (true, mkIterator m createdEntryIndex, m)

/-- The indexing operator `operator[]`; the result is the referenced value together with
the updated table. -/
def operatorIndex [Inhabited V] (hasher : K → Nat) (eq : K → K → Bool) (m : HashMap K V)
    (key : K) : Option (V × HashMap K V) := do
  let hash := hasher key
  let existingIndex ← TryFindEntryIndex eq m key hash
  if existingIndex ≠ -1 then do
    let kv ← (entryAt m.entries existingIndex.toNat).kvp
    some (kv.2, m)
  else do
    let (createdIndex, m) ← CreateAndGetEntryIndex m hash key (fun (_ : Unit) => default) ()
    let kv ← (entryAt m.entries createdIndex.toNat).kvp
    some (kv.2, m)

/-- The method `find`. -/
def find (hasher : K → Nat) (eq : K → K → Bool) (m : HashMap K V) (key : K) :
    Option Iterator := do
  let index ← TryFindEntryIndex eq m key (hasher key)
  some (if index ≠ -1 then mkIterator m index else end_ m)

/-- The loop of `FindPreviousIndexOf`.  The test `current < capacity` compares an `int`
with a `size_t`, so a negative `current` fails it. -/
def FindPreviousIndexOf.loop (eq : K → K → Bool) (entries : List (Entry K V))
    (capacity : Nat) (key : K) (keyHash : Nat) : Nat → Int → Int → Option Int
  | 0, _, _ => none
  | fuel + 1, current, previous =>
    if 0 ≤ current ∧ current < (capacity : Int) then
      let entry := entryAt entries current.toNat
      if entry.hash = keyHash then
        match entry.kvp with
        | none => none
        | some kv =>
          if eq kv.1 key then some previous
          else FindPreviousIndexOf.loop eq entries capacity key keyHash fuel entry.next current
      else
        FindPreviousIndexOf.loop eq entries capacity key keyHash fuel entry.next current
    else
      some previous

/-- The method `FindPreviousIndexOf`. -/
def FindPreviousIndexOf (eq : K → K → Bool) (m : HashMap K V) (bucket : Int)
    (entryIndex : Int) : Option Int :=
  if m.capacity = 0 then
    some (-1)
  else do
    let kv ← (entryAt m.entries entryIndex.toNat).kvp
    let keyHash := (entryAt m.entries entryIndex.toNat).hash
    FindPreviousIndexOf.loop eq m.entries m.capacity kv.1 keyHash (m.capacity + 1)
      (bucketAt m.buckets bucket.toNat) (-1)

/-- The relinking step of `erase`: the link that led to the erased entry (the `next`
field of its predecessor, or the bucket head) now leads to its successor. -/
def erase.unlink (m : HashMap K V) (bucket previousIndex entryIndex : Int) : HashMap K V :=
  let erased := entryAt m.entries entryIndex.toNat
  if previousIndex ≠ -1 then
    let previous := entryAt m.entries previousIndex.toNat
    let patched : Entry K V := { previous with next := erased.next }
    { m with entries := m.entries.set previousIndex.toNat patched }
  else
    { m with buckets := m.buckets.set bucket.toNat erased.next }

/-- The release step of `erase`: the payload is destroyed and the slot is pushed onto
the free list. -/
def erase.release (m : HashMap K V) (entryIndex : Int) : HashMap K V :=
  let current := entryAt m.entries entryIndex.toNat
  let freed : Entry K V := { current with kvp := none, next := m.deletedList }
  { m with
    entries := m.entries.set entryIndex.toNat freed
    deletedList := entryIndex
    deletedEntriesAmount := m.deletedEntriesAmount + 1 }

/-- The tail of `erase`: the iterator to return, given the old successor `next` of the
erased entry and its bucket. -/
def erase.successor (m : HashMap K V) (bucket next : Int) : Option Iterator :=
  if next ≠ -1 then
    some (mkIterator m next)
  else do
    let bucket ← scanBuckets m.buckets m.capacity (m.capacity + 1) (bucket + 1)
    if bucket < (m.capacity : Int) then
      some (mkIterator m (bucketAt m.buckets bucket.toNat))
    else
      some (end_ m)

/-- The method `erase`; the result is the returned iterator and the updated table.  The
remainder `hash % capacity` with capacity zero is undefined and produces `none`. -/
def erase (eq : K → K → Bool) (m : HashMap K V) (position : Iterator) :
    Option (Iterator × HashMap K V) := do
  let entryIndex := position.currentEntryIndex
  if m.capacity = 0 then none
  let bucket : Int := (((entryAt m.entries entryIndex.toNat).hash % m.capacity : Nat) : Int)
  let previousIndex ← FindPreviousIndexOf eq m bucket entryIndex
  let m1 := erase.unlink m bucket previousIndex entryIndex
  let next := (entryAt m1.entries entryIndex.toNat).next
  let m2 := erase.release m1 entryIndex
  let result ← erase.successor m2 bucket next
  some (result, m2)

/-- The constructor from an initializer list: every pair is inserted in order. -/
def ofList (hasher : K → Nat) (eq : K → K → Bool) (values : List (K × V)) :
    Option (HashMap K V) :=
  values.foldlM (fun m kvp => (fun r => r.2.2) <$> insertPair hasher eq m kvp) empty

/-- The traversal `for (it = start; it != end(); ++it)`, collecting the iterators seen. -/
def iterateFrom (m : HashMap K V) : Nat → Iterator → Option (List Iterator)
  | 0, _ => none
  | fuel + 1, it =>
    if it.currentEntryIndex = -1 then
      some []
    else do
      let it' ← incr m it
      let rest ← iterateFrom m fuel it'
      some (it :: rest)

/-- The range-based traversal from `begin()` to `end()`. -/
def iterate (m : HashMap K V) : Option (List Iterator) := do
  let start ← begin m
  iterateFrom m (m.capacity + 1) start

/-- The loop `while (map.size() != 0) current = map.erase(current);`.  The result lists
the erasures performed, each as the table before the erasure and the erased iterator,
and gives the final iterator and the final table. -/
def eraseLoop (eq : K → K → Bool) :
    Nat → HashMap K V → Iterator → Option (List (HashMap K V × Iterator) × Iterator × HashMap K V)
  | 0, _, _ => none
  | fuel + 1, m, current =>
    if size m ≠ 0 then do
      let (next, m') ← erase eq m current
      let (trace, last, final) ← eraseLoop eq fuel m' next
      some ((m, current) :: trace, last, final)
    else
      some ([], current, m)

/-- The drain `current = map.begin(); while (map.size() != 0) current = map.erase(current);`
of the test `EraseCanClearMap`. -/
def eraseAll (eq : K → K → Bool) (m : HashMap K V) :
    Option (List (HashMap K V × Iterator) × Iterator × HashMap K V) := do
  let current ← begin m
  eraseLoop eq (size m + 1) m current

/-! ## The well-formedness invariant -/

/-- The assumptions on the collaborators: the comparer is an equivalence relation and
equal keys have equal hashes. -/
structure LawfulKeys (hasher : K → Nat) (eq : K → K → Bool) : Prop where
  refl : ∀ a, eq a a = true
  symm : ∀ a b, eq a b = true → eq b a = true
  trans : ∀ a b c, eq a b = true → eq b c = true → eq a c = true
  hash_eq : ∀ a b, eq a b = true → hasher a = hasher b

/-- The links `next` lead from `start` through exactly the indices of the list and then
to the sentinel `-1`. -/
def IsChain (entries : List (Entry K V)) : Int → List Nat → Prop
  | start, [] => start = -1
  | start, i :: rest => start = (i : Int) ∧ IsChain entries (entryAt entries i).next rest

/-- The chains described by `chain` are the collision chains of the table: the chain of
every bucket is a linked list without duplicates that starts at the bucket head and holds
exactly the occupied entries whose cached hash selects the bucket. -/
def ChainsOk (m : HashMap K V) (chain : Nat → List Nat) : Prop :=
  ∀ b, b < m.capacity →
    IsChain m.entries (bucketAt m.buckets b) (chain b) ∧ (chain b).Nodup ∧
    ∀ i, i ∈ chain b ↔
      ((entryAt m.entries i).kvp ≠ none ∧ (entryAt m.entries i).hash % m.capacity = b)

/-- The well-formed tables: both arrays have `capacity` cells, occupied slots lie below
`usedEntriesAmount`, every cached hash is the hash of the stored key, stored keys are
pairwise different under the comparer, every occupied entry lies on the chain of the
bucket selected by its cached hash (and on no other), and the free list is a linked list
without duplicates of length `deletedEntriesAmount` that holds exactly the unoccupied
slots below `usedEntriesAmount`. -/
structure WF (hasher : K → Nat) (eq : K → K → Bool) (m : HashMap K V) : Prop where
  buckets_length : m.buckets.length = m.capacity
  entries_length : m.entries.length = m.capacity
  used_le : m.usedEntriesAmount ≤ m.capacity
  occupied_lt : ∀ i, (entryAt m.entries i).kvp ≠ none → i < m.usedEntriesAmount
  hash_cached : ∀ i kv, (entryAt m.entries i).kvp = some kv →
    (entryAt m.entries i).hash = hasher kv.1
  keys_unique : ∀ i j kvi kvj, (entryAt m.entries i).kvp = some kvi →
    (entryAt m.entries j).kvp = some kvj → eq kvi.1 kvj.1 = true → i = j
  chains : ∃ chain : Nat → List Nat, ChainsOk m chain
  free_list : ∃ free : List Nat, IsChain m.entries m.deletedList free ∧ free.Nodup ∧
    free.length = m.deletedEntriesAmount ∧
    ∀ i, i ∈ free ↔ (i < m.usedEntriesAmount ∧ (entryAt m.entries i).kvp = none)

/-- The state between `GetNextCreationBucketAndIndex` and the write of the new entry:
the table is well formed except that the unoccupied slot `x` below `usedEntriesAmount`
has been taken off the free list (or was never on it). -/
structure Reserved (hasher : K → Nat) (eq : K → K → Bool) (m : HashMap K V) (x : Nat) :
    Prop where
  buckets_length : m.buckets.length = m.capacity
  entries_length : m.entries.length = m.capacity
  used_le : m.usedEntriesAmount ≤ m.capacity
  occupied_lt : ∀ i, (entryAt m.entries i).kvp ≠ none → i < m.usedEntriesAmount
  hash_cached : ∀ i kv, (entryAt m.entries i).kvp = some kv →
    (entryAt m.entries i).hash = hasher kv.1
  keys_unique : ∀ i j kvi kvj, (entryAt m.entries i).kvp = some kvi →
    (entryAt m.entries j).kvp = some kvj → eq kvi.1 kvj.1 = true → i = j
  chains : ∃ chain : Nat → List Nat, ChainsOk m chain
  slot_lt : x < m.usedEntriesAmount
  slot_free : (entryAt m.entries x).kvp = none
  free_list : ∃ free : List Nat, IsChain m.entries m.deletedList free ∧ free.Nodup ∧
    free.length = m.deletedEntriesAmount ∧
    ∀ i, i ∈ free ↔ (i < m.usedEntriesAmount ∧ (entryAt m.entries i).kvp = none ∧ i ≠ x)

/-- The tables with fewer than `MaxPrime` slots in use.  Growth happens only when
`usedEntriesAmount` has reached the capacity, and for every capacity up to `MaxPrime`
the sizing policy is proved to return a larger capacity; `MaxPrime` is below `2 ^ 31`,
so the slot indices of such a table fit the type `int` of the source. -/
def InRange (m : HashMap K V) : Prop :=
  m.usedEntriesAmount < PrimesHelper.MaxPrime

/-- The observable outcome of `find(key)`: `some none` when the end iterator comes back,
`some (some kv)` when the iterator references the pair `kv`, and `none` when `find`
does not return. -/
def findEntry (hasher : K → Nat) (eq : K → K → Bool) (m : HashMap K V) (key : K) :
    Option (Option (K × V)) :=
  (find hasher eq m key).map (fun it => if iterEq it (end_ m) then none else deref m it)

/-- The chain that `Enlarge` builds for bucket `b` from the first `t` slots of the old
entry array: occupied entries are pushed in index order, so the chain lists them in
decreasing index order. -/
def rehashChain (entries : List (Entry K V)) (capacity t b : Nat) : List Nat :=
  ((List.range t).filter
    (fun i => (entryAt entries i).kvp.isSome && (entryAt entries i).hash % capacity == b)).reverse

/-- The iterators of one bucket, in chain order. -/
def chainIterators (chain : Nat → List Nat) (b : Nat) : List Iterator :=
  (chain b).map (fun (i : Nat) => Iterator.mk (b : Int) (i : Int))

/-- The iteration order from bucket `b` on: buckets in ascending order, every chain from
head to tail. -/
def orderFrom (capacity : Nat) (chain : Nat → List Nat) (b : Nat) : List Iterator :=
  (List.range' b (capacity - b)).flatMap (chainIterators chain)

/-- The number of distinct keys of a list of pairs, given the keys seen before. -/
def distinctKeysAux (eq : K → K → Bool) : List K → List (K × V) → Nat
  | _, [] => 0
  | seen, p :: rest =>
    if seen.any (fun k => eq p.1 k) then distinctKeysAux eq seen rest
    else distinctKeysAux eq (p.1 :: seen) rest + 1

/-- The number of distinct keys of a list of pairs. -/
def distinctKeys (eq : K → K → Bool) (values : List (K × V)) : Nat :=
  distinctKeysAux eq [] values

/-! ## Sample collaborators and tables -/

/-- The identity hash on natural numbers. -/
def natHash : Nat → Nat := fun n => n

/-- The comparer `==` on natural numbers. -/
def natEq : Nat → Nat → Bool := fun a b => a == b

/-- The table built from `(1, 2), (4, 3), (7, 6)`: capacity 3, all three keys in
bucket 1, no free slot. -/
def sampleFull : HashMap Nat Nat :=
  { buckets := [-1, 2, -1]
    entries := [⟨1, some (1, 2), -1⟩, ⟨4, some (4, 3), 0⟩, ⟨7, some (7, 6), 1⟩]
    capacity := 3
    usedEntriesAmount := 3
    deletedEntriesAmount := 0
    deletedList := -1 }

end HashMap

/-! ## Clearing and copying -/

namespace HashMap

variable {K V : Type}

/-- The method `clear()`: both arrays are released and every counter is reset. -/
def clear (_m : HashMap K V) : HashMap K V :=
  empty

/-- The loop `for (const auto &kvp : other) insert(kvp);` from the iterator `it` of
`other` on; `self` is the table being filled. -/
def copyLoop (hasher : K → Nat) (eq : K → K → Bool) (other : HashMap K V) :
    Nat → Iterator → HashMap K V → Option (HashMap K V)
  | 0, _, _ => none
  | fuel + 1, it, self =>
    if it.currentEntryIndex = -1 then
      some self
    else do
      let kvp ← deref other it
      let r ← insertPair hasher eq self kvp
      let it' ← incr other it
      copyLoop hasher eq other fuel it' r.2.2

/-- The range-based loop shared by the copy constructor and the copy assignment. -/
def copyFrom (hasher : K → Nat) (eq : K → K → Bool) (self other : HashMap K V) :
    Option (HashMap K V) := do
  let start ← begin other
  copyLoop hasher eq other (other.capacity + 1) start self

/-- The copy constructor `HashMap(const HashMap &other)`; the result is the new table
together with `other`, which is only read. -/
def copyConstruct (hasher : K → Nat) (eq : K → K → Bool) (other : HashMap K V) :
    Option (HashMap K V × HashMap K V) := do
  let self ← copyFrom hasher eq empty other
  some (self, other)

/-- The copy assignment `operator=(const HashMap &other)`.  The argument `none` stands
for `other` being `*this` (the test `&other != this` fails), `some other` for another
object.  The result is `*this` and `other` after the call. -/
def copyAssign (hasher : K → Nat) (eq : K → K → Bool) (self : HashMap K V) :
    Option (HashMap K V) → Option (HashMap K V × HashMap K V)
  | some other => do
    let self ← copyFrom hasher eq (clear self) other
    some (self, other)
  | none => some (self, self)

/-- A table with one pair, as left by `insert(std::make_pair(1, 4))` on the empty
table. -/
def sampleOne : HashMap Nat Nat :=
  HashMap.mk [-1, 0, -1] [⟨1, some (1, 4), -1⟩, emptyEntry, emptyEntry] 3 1 0 (-1)

/-- The table left by erasing the entry in slot 1 of `sampleFull`. -/
def sampleErased : HashMap Nat Nat :=
  HashMap.mk [-1, 2, -1] [⟨1, some (1, 2), -1⟩, ⟨4, none, -1⟩, ⟨7, some (7, 6), 0⟩] 3 3 1 1

/-- A comparer that never reports two keys as equal, as `operator==` of the key type
`MyNonCopyable` of the tests. -/
def neverEq : Nat → Nat → Bool := fun _ _ => false

/-- The table left by `erase` on the entry in slot 1 of `sampleFull` when the comparer is
`neverEq`: the search for the predecessor runs to the end of the chain and returns slot
0, so slot 0 is relinked to itself and the freed slot 1 stays behind slot 2. -/
def sampleBroken : HashMap Nat Nat :=
  HashMap.mk [-1, 2, -1] [⟨1, some (1, 2), 0⟩, ⟨4, none, -1⟩, ⟨7, some (7, 6), 1⟩] 3 3 1 1

/-- The table left by `erase` on the entry in slot 2 of `sampleBroken` when the comparer
is `neverEq`: the freed slot 1 is relinked to itself. -/
def sampleCyclic : HashMap Nat Nat :=
  HashMap.mk [-1, 2, -1] [⟨1, some (1, 2), 0⟩, ⟨4, none, 1⟩, ⟨7, none, 1⟩] 3 3 2 2

/-- The table after the first erasure of the drain loop on `sampleFull` when the comparer
is `neverEq`. -/
def sampleDrain1 : HashMap Nat Nat :=
  HashMap.mk [-1, 2, -1] [⟨1, some (1, 2), 1⟩, ⟨4, some (4, 3), 0⟩, ⟨7, none, -1⟩] 3 3 1 2

/-- The table after the second erasure of that drain loop: the `next` links form the
cycle 2, 0, 1. -/
def sampleDrain2 : HashMap Nat Nat :=
  HashMap.mk [-1, 2, -1] [⟨1, some (1, 2), 1⟩, ⟨4, none, 2⟩, ⟨7, none, 0⟩] 3 3 2 1

/-! ## Reachable states -/

/-- The slots from `usedEntriesAmount` on have never been handed out: they still hold
the default-constructed entry. -/
def Fresh (m : HashMap K V) : Prop :=
  ∀ i, m.usedEntriesAmount ≤ i → entryAt m.entries i = emptyEntry

/-- The states reachable from the empty table by `insert`, `try_emplace`, `operator[]`,
`erase` and growth.  Creation and growth start from tables with fewer than `MaxPrime`
slots in use, `erase` takes an iterator that references a stored pair, and growth
happens where `GetNextCreationBucketAndIndex` calls `Enlarge`: on a full table without
free slots. -/
inductive Reachable (hasher : K → Nat) (eq : K → K → Bool) : HashMap K V → Prop where
  | start : Reachable hasher eq empty
  | insertPair {m : HashMap K V} (item : K × V) {r : Bool × Iterator × HashMap K V} :
    Reachable hasher eq m → InRange m → insertPair hasher eq m item = some r →
    Reachable hasher eq r.2.2
  | insert {m : HashMap K V} (key : K) (value : V) {r : Bool × Iterator × HashMap K V} :
    Reachable hasher eq m → InRange m → insert hasher eq m key value = some r →
    Reachable hasher eq r.2.2
  | try_emplace {A : Type} {m : HashMap K V} (key : K) (ctor : A → V) (args : A)
    {r : Bool × Iterator × HashMap K V} :
    Reachable hasher eq m → InRange m → try_emplace hasher eq m key ctor args = some r →
    Reachable hasher eq r.2.2
  | operatorIndex [Inhabited V] {m : HashMap K V} (key : K) {r : V × HashMap K V} :
    Reachable hasher eq m → InRange m → operatorIndex hasher eq m key = some r →
    Reachable hasher eq r.2
  | erase {m : HashMap K V} (position : Iterator) {r : Iterator × HashMap K V} :
    Reachable hasher eq m → 0 ≤ position.currentEntryIndex → deref m position ≠ none →
    erase eq m position = some r → Reachable hasher eq r.2
  | growth {m m' : HashMap K V} :
    Reachable hasher eq m → InRange m → m.usedEntriesAmount = m.capacity →
    m.deletedEntriesAmount = 0 → Enlarge m = some m' → Reachable hasher eq m'

/-! ## Collaborators that may throw -/

/-- The ways a call on a table can end: it returns a value, a collaborator throws, or
the call does not return normally for another reason (`PrimesError`, a null dereference
or an exhausted loop).  The first two carry the table as the call leaves it. -/
inductive Outcome (E A K V : Type) where
  | returned (value : A) (m : HashMap K V) : Outcome E A K V
  | threw (error : E) (m : HashMap K V) : Outcome E A K V
  | undefined : Outcome E A K V
deriving DecidableEq

/-- A member function of the table whose collaborators may throw: from the table before
the call to the outcome. -/
def Op (E K V A : Type) : Type :=
  HashMap K V → Outcome E A K V

namespace Op

variable {E A B : Type}

/-- Returning a value leaves the table alone. -/
def ret (a : A) : Op E K V A :=
  fun m => Outcome.returned a m

/-- Sequencing of two statements: the second one runs on the table left by the first;
an exception of the first one ends the call with the table as it is at that moment. -/
def andThen (x : Op E K V A) (f : A → Op E K V B) : Op E K V B :=
  fun m =>
    match x m with
    | Outcome.returned a m' => f a m'
    | Outcome.threw e m' => Outcome.threw e m'
    | Outcome.undefined => Outcome.undefined

instance : Monad (Op E K V) where
  pure := ret
  bind := andThen

/-- The call `std::invoke(collaborator, ...)`, given what the collaborator answers. -/
def call (answer : Except E A) : Op E K V A :=
  fun m =>
    match answer with
    | Except.ok a => Outcome.returned a m
    | Except.error e => Outcome.threw e m

/-- A computation that only reads the table and calls collaborators. -/
def look (f : HashMap K V → Except E (Option A)) : Op E K V A :=
  fun m =>
    match f m with
    | Except.ok (some a) => Outcome.returned a m
    | Except.ok none => Outcome.undefined
    | Except.error e => Outcome.threw e m

/-- A computation that only reads the table and calls no collaborator. -/
def read (f : HashMap K V → Option A) : Op E K V A :=
  fun m =>
    match f m with
    | some a => Outcome.returned a m
    | none => Outcome.undefined

/-- A sequence of writes that calls no collaborator. -/
def write (f : HashMap K V → HashMap K V) : Op E K V Unit :=
  fun m => Outcome.returned () (f m)

/-- A computation on the table that calls no collaborator, writes included. -/
def update (f : HashMap K V → Option (A × HashMap K V)) : Op E K V A :=
  fun m =>
    match f m with
    | some (a, m') => Outcome.returned a m'
    | none => Outcome.undefined

end Op

variable {E : Type}

/-- The loop of `TryFindEntryIndex` with a comparer that may throw. -/
def TryFindEntryIndexE.loop (eqE : K → K → Except E Bool) (entries : List (Entry K V))
    (key : K) (hash : Nat) : Nat → Int → Except E (Option Int)
  | 0, _ => Except.ok none
  | fuel + 1, current =>
    if current ≥ 0 then
      let entry := entryAt entries current.toNat
      if hash = entry.hash then
        match entry.kvp with
        | none => Except.ok none
        | some kv =>
          match eqE key kv.1 with
          | Except.error e => Except.error e
          | Except.ok true => Except.ok (some current)
          | Except.ok false => TryFindEntryIndexE.loop eqE entries key hash fuel entry.next
      else
        TryFindEntryIndexE.loop eqE entries key hash fuel entry.next
    else
      Except.ok (some current)

/-- The method `TryFindEntryIndex` with a comparer that may throw. -/
def TryFindEntryIndexE (eqE : K → K → Except E Bool) (key : K) (hash : Nat) :
    Op E K V Int :=
  Op.look fun m =>
    if m.capacity = 0 then
      Except.ok (some (-1))
    else
      TryFindEntryIndexE.loop eqE m.entries key hash (m.capacity + 1)
        (bucketAt m.buckets (hash % m.capacity))

/-- The loop of `FindPreviousIndexOf` with a comparer that may throw. -/
def FindPreviousIndexOfE.loop (eqE : K → K → Except E Bool) (entries : List (Entry K V))
    (capacity : Nat) (key : K) (keyHash : Nat) : Nat → Int → Int → Except E (Option Int)
  | 0, _, _ => Except.ok none
  | fuel + 1, current, previous =>
    if 0 ≤ current ∧ current < (capacity : Int) then
      let entry := entryAt entries current.toNat
      if entry.hash = keyHash then
        match entry.kvp with
        | none => Except.ok none
        | some kv =>
          match eqE kv.1 key with
          | Except.error e => Except.error e
          | Except.ok true => Except.ok (some previous)
          | Except.ok false =>
            FindPreviousIndexOfE.loop eqE entries capacity key keyHash fuel entry.next current
      else
        FindPreviousIndexOfE.loop eqE entries capacity key keyHash fuel entry.next current
    else
      Except.ok (some previous)

/-- The method `FindPreviousIndexOf` with a comparer that may throw. -/
def FindPreviousIndexOfE (eqE : K → K → Except E Bool) (bucket : Int) (entryIndex : Int) :
    Op E K V Int :=
  Op.look fun m =>
    if m.capacity = 0 then
      Except.ok (some (-1))
    else
      match (entryAt m.entries entryIndex.toNat).kvp with
      | none => Except.ok none
      | some kv =>
        FindPreviousIndexOfE.loop eqE m.entries m.capacity kv.1
          (entryAt m.entries entryIndex.toNat).hash (m.capacity + 1)
          (bucketAt m.buckets bucket.toNat) (-1)

/-- The method `find` with collaborators that may throw. -/
def findE (hasherE : K → Except E Nat) (eqE : K → K → Except E Bool) (key : K) :
    Op E K V Iterator := do
  let hash ← Op.call (hasherE key)
  let index ← TryFindEntryIndexE eqE key hash
  Op.read fun m => some (if index ≠ -1 then mkIterator m index else end_ m)

/-- The overload `insert(KeyValuePair &&item)` with collaborators that may throw. -/
def insertPairE (hasherE : K → Except E Nat) (eqE : K → K → Except E Bool) (item : K × V) :
    Op E K V (Bool × Iterator) := do
  let hash ← Op.call (hasherE item.1)
  let existing ← TryFindEntryIndexE eqE item.1 hash
  if existing ≠ -1 then
    Op.read fun m => some (false, end_ m)
  else do
    let createdEntryIndex ← Op.update fun m => CreateAndGetEntryIndexPair m item hash
    Op.read fun m => some (true, mkIterator m createdEntryIndex)

/-- The overload `insert(TKey &&key, TValue &&value)` with collaborators that may
throw. -/
def insertE (hasherE : K → Except E Nat) (eqE : K → K → Except E Bool) (key : K)
    (value : V) : Op E K V (Bool × Iterator) := do
  let hash ← Op.call (hasherE key)
  let existing ← TryFindEntryIndexE eqE key hash
  if existing ≠ -1 then
    Op.read fun m => some (false, end_ m)
  else do
    let createdEntryIndex ← Op.update fun m => CreateAndGetEntryIndex m hash key id value
    Op.read fun m => some (true, mkIterator m createdEntryIndex)

/-- The method `try_emplace` with collaborators that may throw. -/
def try_emplaceE {A : Type} (hasherE : K → Except E Nat) (eqE : K → K → Except E Bool)
    (key : K) (ctor : A → V) (args : A) : Op E K V (Bool × Iterator) := do
  let hash ← Op.call (hasherE key)
  let existing ← TryFindEntryIndexE eqE key hash
  if existing ≠ -1 then
    Op.read fun m => some (false, end_ m)
  else do
    let createdEntryIndex ← Op.update fun m => CreateAndGetEntryIndex m hash key ctor args
    Op.read fun m => some (true, mkIterator m createdEntryIndex)

/-- The indexing operator `operator[]` with collaborators that may throw. -/
def operatorIndexE [Inhabited V] (hasherE : K → Except E Nat)
    (eqE : K → K → Except E Bool) (key : K) : Op E K V V := do
  let hash ← Op.call (hasherE key)
  let existingIndex ← TryFindEntryIndexE eqE key hash
  if existingIndex ≠ -1 then
    Op.read fun m => (entryAt m.entries existingIndex.toNat).kvp.map fun kv => kv.2
  else do
    let createdIndex ← Op.update fun m =>
      CreateAndGetEntryIndex m hash key (fun (_ : Unit) => default) ()
    Op.read fun m => (entryAt m.entries createdIndex.toNat).kvp.map fun kv => kv.2

/-- The method `erase` with a comparer that may throw. -/
def eraseE (eqE : K → K → Except E Bool) (position : Iterator) : Op E K V Iterator := do
  let entryIndex := position.currentEntryIndex
  let bucket ← Op.read fun m =>
    if m.capacity = 0 then none
    else some (((entryAt m.entries entryIndex.toNat).hash % m.capacity : Nat) : Int)
  let previousIndex ← FindPreviousIndexOfE eqE bucket entryIndex
  Op.write fun m => erase.unlink m bucket previousIndex entryIndex
  let next ← Op.read fun m => some (entryAt m.entries entryIndex.toNat).next
  Op.write fun m => erase.release m entryIndex
  Op.read fun m => erase.successor m bucket next

/-- The outcome that corresponds to the result of an operation of the model whose
collaborators are total functions. -/
def Outcome.ofOption {A : Type} : Option (A × HashMap K V) → Outcome E A K V
  | some (a, m) => Outcome.returned a m
  | none => Outcome.undefined

/-- A hasher that throws on every call, as `MyHash` of the test `MapUsesGivenHasher`. -/
def throwingHasher : Nat → Except Unit Nat :=
  fun _ => Except.error ()

/-- A comparer that throws on every call, as `MyComparer` of the test
`MapUsesGivenComparer`. -/
def throwingComparer : Nat → Nat → Except Unit Bool :=
  fun _ _ => Except.error ()

/-! ## The capacities of the sizing policy -/

/-- The capacities that the sizing policy hands to a table within the supported range:
a prime number from 3 to `MaxPrime` that `GetPrime` or `ExpandPrime` returns. -/
def PolicyCapacity (c : Nat) : Prop :=
  3 ≤ c ∧ Nat.Prime c ∧ c ≤ PrimesHelper.MaxPrime ∧
    ((∃ n, PrimesHelper.GetPrime n = some c) ∨ ∃ n, PrimesHelper.ExpandPrime n = some c)

end HashMap

/-! ## The sizing policy: growth always succeeds within the supported range -/

namespace PrimesHelper

theorem or_one_eq (n : Nat) : n ||| 1 = 2 * (n / 2) + 1 := by
  have h1 : (n ||| 1) / 2 = n / 2 := by
    rw [Nat.or_div_two]; simp
  have h2 : (n ||| 1) % 2 = 1 := by
    rw [Nat.or_mod_two_eq_one]; simp
  omega

theorem MaxPrimeFromList_eq : MaxPrimeFromList = 7199369 := by decide

theorem Primes_ge_three : ∀ p ∈ Primes, 3 ≤ p := by decide

/-- Trial division accepts every odd prime. -/
theorem IsPrime_of_prime {p : Nat} (hp : p.Prime) (hodd : p % 2 = 1) : IsPrime p = true := by
  unfold IsPrime
  rw [Nat.and_one_is_mod]
  have hne : ¬ (p % 2 = 0) := by omega
  simp only [hne, if_false, List.all_eq_true, List.mem_range, bne_iff_ne, ne_eq]
  intro j hj h0
  have hd : (2 * j + 3) ∣ p := Nat.dvd_of_mod_eq_zero h0
  have hsq : Nat.sqrt p ^ 2 ≤ p := Nat.sqrt_le' p
  have h3 : 2 * j + 3 ≤ Nat.sqrt p := by omega
  rcases (Nat.dvd_prime hp).1 hd with h | h
  · omega
  · have : (2 * j + 3) ^ 2 ≤ p := le_trans (Nat.pow_le_pow_left h3 2) hsq
    nlinarith

/-- The scan reaches the first accepted candidate. -/
theorem scan_finds (k : Nat) : ∀ num, IsPrime (num + 2 * k) = true → num + 2 * k < SIZE_MAX →
    ∃ r, GetPrime.scan num = some r ∧ num ≤ r ∧ r ≤ num + 2 * k ∧ IsPrime r = true := by
  induction k with
  | zero =>
    intro num hp hlt
    rw [GetPrime.scan]
    simp only [Nat.mul_zero, Nat.add_zero] at hp hlt
    simp [hp, hlt]
  | succ k ih =>
    intro num hp hlt
    rw [GetPrime.scan]
    have hlt1 : num < SIZE_MAX := by omega
    by_cases hn : IsPrime num = true
    · simp [hn, hlt1]
    · have e : num + 2 + 2 * k = num + 2 * (k + 1) := by ring
      obtain ⟨r, hr, h1, h2, h3⟩ := ih (num + 2) (by rw [e]; exact hp) (by rw [e]; exact hlt)
      refine ⟨r, ?_, by omega, by omega, h3⟩
      simp [hn, hlt1, hr]

theorem GetPrime_table {min : Nat} (h : min ≤ MaxPrimeFromList) :
    ∃ p, GetPrime min = some p ∧ min ≤ p ∧ 3 ≤ p := by
  unfold GetPrime
  simp only [h, if_true]
  cases hf : Primes.find? (fun prime => decide (prime ≥ min)) with
  | none =>
    have := List.find?_eq_none.1 hf 7199369 (by decide)
    rw [MaxPrimeFromList_eq] at h
    simp at this
    omega
  | some p =>
    have h1 := List.find?_some hf
    have h2 : p ∈ Primes := List.mem_of_find?_eq_some hf
    simp only [ge_iff_le, decide_eq_true_eq] at h1
    exact ⟨p, rfl, h1, Primes_ge_three p h2⟩

theorem GetPrime_scan {min : Nat} (h : MaxPrimeFromList < min) (hmax : 2 * min + 1 < SIZE_MAX) :
    ∃ p, GetPrime min = some p ∧ min ≤ p := by
  have hne : ¬ (min ≤ MaxPrimeFromList) := by omega
  unfold GetPrime
  simp only [hne, if_false]
  rw [MaxPrimeFromList_eq] at h
  obtain ⟨p, hp, hlt, hle⟩ := Nat.exists_prime_lt_and_le_two_mul min (by omega)
  have hodd : p % 2 = 1 := by
    rcases hp.eq_two_or_odd with h2 | h2
    · omega
    · exact h2
  have hor := or_one_eq min
  obtain ⟨r, hr, h1, _, _⟩ := scan_finds ((p - (min ||| 1)) / 2) (min ||| 1)
    (by
      have : (min ||| 1) + 2 * ((p - (min ||| 1)) / 2) = p := by omega
      rw [this]; exact IsPrime_of_prime hp hodd)
    (by omega)
  exact ⟨r, hr, by omega⟩

/-- Within the supported range `ExpandPrime` returns, and returns a larger capacity. -/
theorem ExpandPrime_gt {n : Nat} (hn : n ≤ MaxPrime) : ∃ c, ExpandPrime n = some c ∧ n < c := by
  unfold ExpandPrime
  have hM : MaxPrime = 2146435069 := rfl
  have hmod : (n * 2) % 2 ^ 64 = n * 2 := Nat.mod_eq_of_lt (by omega)
  simp only [hmod]
  by_cases hc : n < MaxPrime ∧ MaxPrime < n * 2
  · simp only [hc, and_self, if_true]
    exact ⟨MaxPrime, rfl, hc.1⟩
  · simp only [hc, if_false]
    by_cases ht : n * 2 ≤ MaxPrimeFromList
    · obtain ⟨p, hp, h1, h2⟩ := GetPrime_table ht
      exact ⟨p, hp, by omega⟩
    · have hS : SIZE_MAX = 2 ^ 64 - 1 := rfl
      obtain ⟨p, hp, h1⟩ := GetPrime_scan (not_le.1 ht) (by omega)
      rw [MaxPrimeFromList_eq] at ht
      exact ⟨p, hp, by omega⟩

theorem GetPrime_zero : GetPrime 0 = some 3 := by decide

end PrimesHelper

/-! ## Array reads and writes -/

namespace HashMap

variable {K V : Type}

theorem entryAt_set (es : List (Entry K V)) (i j : Nat) (e : Entry K V) :
    entryAt (es.set i e) j = if i = j ∧ i < es.length then e else entryAt es j := by
  unfold entryAt
  rw [List.getD_eq_getElem?_getD, List.getD_eq_getElem?_getD, List.getElem?_set]
  by_cases h : i = j
  · subst h
    by_cases h2 : i < es.length
    · simp [h2]
    · simp [h2, List.getElem?_eq_none (not_lt.1 h2)]
  · simp [h]

theorem entryAt_set_eq {es : List (Entry K V)} {i : Nat} (e : Entry K V) (h : i < es.length) :
    entryAt (es.set i e) i = e := by
  rw [entryAt_set]; simp [h]

theorem entryAt_set_ne {es : List (Entry K V)} {i j : Nat} (e : Entry K V) (h : i ≠ j) :
    entryAt (es.set i e) j = entryAt es j := by
  rw [entryAt_set]; simp [h]

theorem entryAt_replicate (n i : Nat) :
    entryAt (List.replicate n (emptyEntry : Entry K V)) i = emptyEntry := by
  unfold entryAt
  rw [List.getD_eq_getElem?_getD, List.getElem?_replicate]
  by_cases h : i < n <;> simp [h]

theorem entryAt_nil (i : Nat) : entryAt ([] : List (Entry K V)) i = emptyEntry := by
  simp [entryAt]

theorem bucketAt_set (bs : List Int) (i j : Nat) (v : Int) :
    bucketAt (bs.set i v) j = if i = j ∧ i < bs.length then v else bucketAt bs j := by
  unfold bucketAt
  rw [List.getD_eq_getElem?_getD, List.getD_eq_getElem?_getD, List.getElem?_set]
  by_cases h : i = j
  · subst h
    by_cases h2 : i < bs.length
    · simp [h2]
    · simp [h2, List.getElem?_eq_none (not_lt.1 h2)]
  · simp [h]

theorem bucketAt_set_eq {bs : List Int} {i : Nat} (v : Int) (h : i < bs.length) :
    bucketAt (bs.set i v) i = v := by
  rw [bucketAt_set]; simp [h]

theorem bucketAt_set_ne {bs : List Int} {i j : Nat} (v : Int) (h : i ≠ j) :
    bucketAt (bs.set i v) j = bucketAt bs j := by
  rw [bucketAt_set]; simp [h]

theorem bucketAt_replicate (n i : Nat) : bucketAt (List.replicate n (-1)) i = -1 := by
  unfold bucketAt
  rw [List.getD_eq_getElem?_getD, List.getElem?_replicate]
  by_cases h : i < n <;> simp [h]

/-! ## Linked chains -/

theorem IsChain.congr {es es' : List (Entry K V)} : ∀ (l : List Nat) (s : Int),
    (∀ i ∈ l, (entryAt es' i).next = (entryAt es i).next) → IsChain es s l → IsChain es' s l
  | [], _, _, h => h
  | i :: l, s, hagree, h => by
    simp only [IsChain] at h ⊢
    refine ⟨h.1, ?_⟩
    rw [hagree i (List.mem_cons_self _ _)]
    exact IsChain.congr l _ (fun j hj => hagree j (List.mem_cons_of_mem _ hj)) h.2

theorem IsChain.unique {es : List (Entry K V)} : ∀ (l l' : List Nat) (s : Int),
    IsChain es s l → IsChain es s l' → l = l'
  | [], [], _, _, _ => rfl
  | [], j :: l', s, h, h' => by
    simp only [IsChain] at h h'
    omega
  | i :: l, [], s, h, h' => by
    simp only [IsChain] at h h'
    omega
  | i :: l, j :: l', s, h, h' => by
    simp only [IsChain] at h h'
    have e : i = j := by omega
    subst e
    rw [IsChain.unique l l' _ h.2 h'.2]

theorem IsChain.head_eq_neg_one {es : List (Entry K V)} {l : List Nat} {s : Int}
    (h : IsChain es s l) : s = -1 ↔ l = [] := by
  cases l with
  | nil => simpa [IsChain] using h
  | cons i l =>
    simp only [IsChain] at h
    constructor
    · intro h1; omega
    · intro h1; cases h1

/-- The link out of the entry in front of `post` inside a chain. -/
theorem IsChain.suffix {es : List (Entry K V)} : ∀ (pre : List Nat) (s : Int) (x : Nat)
    (post : List Nat), IsChain es s (pre ++ x :: post) →
    IsChain es (entryAt es x).next post
  | [], _, _, _, h => by
    simp only [List.nil_append, IsChain] at h
    exact h.2
  | a :: pre, _, x, post, h => by
    simp only [List.cons_append, IsChain] at h
    exact IsChain.suffix pre _ x post h.2

theorem length_le_of_nodup_lt {l : List Nat} {n : Nat} (hnd : l.Nodup) (hlt : ∀ i ∈ l, i < n) :
    l.length ≤ n := by
  have hsub : l ⊆ List.range n := fun i hi => List.mem_range.2 (hlt i hi)
  have := (List.subperm_of_subset hnd hsub).length_le
  simpa using this

/-! ## The loops that follow chains -/

theorem TryFindEntryIndex.loop_found (eq : K → K → Bool) (es : List (Entry K V)) (key : K)
    (hash : Nat) : ∀ (pre : List Nat) (fuel : Nat) (s : Int) (i : Nat) (post : List Nat)
    (kv : K × V), IsChain es s (pre ++ i :: post) →
    (∀ j ∈ pre, ∃ kvj, (entryAt es j).kvp = some kvj ∧
      ¬ (hash = (entryAt es j).hash ∧ eq key kvj.1 = true)) →
    (entryAt es i).kvp = some kv → hash = (entryAt es i).hash → eq key kv.1 = true →
    pre.length + 1 ≤ fuel →
    TryFindEntryIndex.loop eq es key hash fuel s = some (i : Int)
  | [], fuel, s, i, post, kv, hc, _, hkv, hh, he, hf => by
    obtain ⟨f, rfl⟩ : ∃ f, fuel = f + 1 := ⟨fuel - 1, by simp at hf; omega⟩
    simp only [List.nil_append, IsChain] at hc
    obtain ⟨rfl, _⟩ := hc
    unfold TryFindEntryIndex.loop
    simp only [Int.toNat_ofNat, hkv, ← hh, he, if_true]
    simp
  | a :: pre, fuel, s, i, post, kv, hc, hpre, hkv, hh, he, hf => by
    obtain ⟨f, rfl⟩ : ∃ f, fuel = f + 1 := ⟨fuel - 1, by simp at hf; omega⟩
    simp only [List.cons_append, IsChain] at hc
    obtain ⟨rfl, hc2⟩ := hc
    obtain ⟨kva, hkva, hna⟩ := hpre a (List.mem_cons_self _ _)
    have ih := TryFindEntryIndex.loop_found eq es key hash pre f _ i post kv hc2
      (fun j hj => hpre j (List.mem_cons_of_mem _ hj)) hkv hh he
      (by simp at hf; omega)
    unfold TryFindEntryIndex.loop
    have ha0 : (a : Int) ≥ 0 := Int.natCast_nonneg a
    simp only [ha0, if_true, Int.toNat_ofNat, hkva]
    by_cases h1 : hash = (entryAt es a).hash
    · have h2 : ¬ (eq key kva.1 = true) := fun h => hna ⟨h1, h⟩
      rw [if_pos h1, if_neg h2]
      exact ih
    · rw [if_neg h1]
      exact ih

theorem TryFindEntryIndex.loop_none (eq : K → K → Bool) (es : List (Entry K V)) (key : K)
    (hash : Nat) : ∀ (l : List Nat) (fuel : Nat) (s : Int), IsChain es s l →
    (∀ j ∈ l, ∃ kvj, (entryAt es j).kvp = some kvj ∧
      ¬ (hash = (entryAt es j).hash ∧ eq key kvj.1 = true)) →
    l.length + 1 ≤ fuel →
    TryFindEntryIndex.loop eq es key hash fuel s = some (-1)
  | [], fuel, s, hc, _, hf => by
    obtain ⟨f, rfl⟩ : ∃ f, fuel = f + 1 := ⟨fuel - 1, by simp at hf; omega⟩
    simp only [IsChain] at hc
    subst hc
    unfold TryFindEntryIndex.loop
    simp
  | a :: l, fuel, s, hc, hl, hf => by
    obtain ⟨f, rfl⟩ : ∃ f, fuel = f + 1 := ⟨fuel - 1, by simp at hf; omega⟩
    simp only [IsChain] at hc
    obtain ⟨rfl, hc2⟩ := hc
    obtain ⟨kva, hkva, hna⟩ := hl a (List.mem_cons_self _ _)
    have ih := TryFindEntryIndex.loop_none eq es key hash l f _ hc2
      (fun j hj => hl j (List.mem_cons_of_mem _ hj)) (by simp at hf; omega)
    unfold TryFindEntryIndex.loop
    have ha0 : (a : Int) ≥ 0 := Int.natCast_nonneg a
    simp only [ha0, if_true, Int.toNat_ofNat, hkva]
    by_cases h1 : hash = (entryAt es a).hash
    · have h2 : ¬ (eq key kva.1 = true) := fun h => hna ⟨h1, h⟩
      rw [if_pos h1, if_neg h2]
      exact ih
    · rw [if_neg h1]
      exact ih

theorem FindPreviousIndexOf.loop_spec (eq : K → K → Bool) (es : List (Entry K V))
    (capacity : Nat) (key : K) (keyHash : Nat) : ∀ (pre : List Nat) (fuel : Nat) (s prev : Int)
    (x : Nat) (post : List Nat) (kv : K × V), IsChain es s (pre ++ x :: post) →
    (∀ j ∈ pre, j < capacity ∧ ∃ kvj, (entryAt es j).kvp = some kvj ∧
      ¬ ((entryAt es j).hash = keyHash ∧ eq kvj.1 key = true)) →
    x < capacity → (entryAt es x).kvp = some kv → (entryAt es x).hash = keyHash →
    eq kv.1 key = true → pre.length + 1 ≤ fuel →
    FindPreviousIndexOf.loop eq es capacity key keyHash fuel s prev =
      some ((pre.map Int.ofNat).getLastD prev)
  | [], fuel, s, prev, x, post, kv, hc, _, hx, hkv, hh, he, hf => by
    obtain ⟨f, rfl⟩ : ∃ f, fuel = f + 1 := ⟨fuel - 1, by simp at hf; omega⟩
    simp only [List.nil_append, IsChain] at hc
    obtain ⟨rfl, _⟩ := hc
    unfold FindPreviousIndexOf.loop
    have hx2 : (0 : Int) ≤ (x : Int) ∧ (x : Int) < (capacity : Int) := by omega
    simp only [hx2, and_self, if_true, Int.toNat_ofNat, hkv, hh, he]
    simp
  | a :: pre, fuel, s, prev, x, post, kv, hc, hpre, hx, hkv, hh, he, hf => by
    obtain ⟨f, rfl⟩ : ∃ f, fuel = f + 1 := ⟨fuel - 1, by simp at hf; omega⟩
    simp only [List.cons_append, IsChain] at hc
    obtain ⟨rfl, hc2⟩ := hc
    obtain ⟨ha, kva, hkva, hna⟩ := hpre a (List.mem_cons_self _ _)
    have ih := FindPreviousIndexOf.loop_spec eq es capacity key keyHash pre f _ (a : Int) x
      post kv hc2 (fun j hj => hpre j (List.mem_cons_of_mem _ hj)) hx hkv hh he
      (by simp at hf; omega)
    unfold FindPreviousIndexOf.loop
    have ha2 : (0 : Int) ≤ (a : Int) ∧ (a : Int) < (capacity : Int) := by omega
    simp only [ha2, and_self, if_true, Int.toNat_ofNat, hkva]
    rw [List.map_cons, List.getLastD_cons]
    by_cases h1 : (entryAt es a).hash = keyHash
    · have h2 : ¬ (eq kva.1 key = true) := fun h => hna ⟨h1, h⟩
      rw [if_pos h1, if_neg h2]
      exact ih
    · rw [if_neg h1]
      exact ih

end HashMap

/-! ## Lookup in a well-formed table -/

namespace HashMap

variable {K V : Type} {hasher : K → Nat} {eq : K → K → Bool}

theorem WF.capacity_pos {m : HashMap K V} (hwf : WF hasher eq m) {i : Nat}
    (h : (entryAt m.entries i).kvp ≠ none) : 0 < m.capacity :=
  lt_of_le_of_lt (Nat.zero_le _) (lt_of_lt_of_le (hwf.occupied_lt i h) hwf.used_le)

theorem ChainsOk.length_le {m : HashMap K V} (hwf : WF hasher eq m) {chain : Nat → List Nat}
    (hch : ChainsOk m chain) {b : Nat} (hb : b < m.capacity) :
    (chain b).length ≤ m.capacity :=
  length_le_of_nodup_lt (hch b hb).2.1
    (fun i hi => lt_of_lt_of_le (hwf.occupied_lt i (((hch b hb).2.2 i).1 hi).1) hwf.used_le)

/-- A key that compares equal to a stored key is found at the slot of that key. -/
theorem TryFindEntryIndex_present (hk : LawfulKeys hasher eq) {m : HashMap K V}
    (hwf : WF hasher eq m) {key : K} {i : Nat} {kv : K × V}
    (hkv : (entryAt m.entries i).kvp = some kv) (he : eq key kv.1 = true) :
    TryFindEntryIndex eq m key (hasher key) = some (i : Int) := by
  have hocc : (entryAt m.entries i).kvp ≠ none := by rw [hkv]; simp
  have hcap : 0 < m.capacity := hwf.capacity_pos hocc
  obtain ⟨chain, hch⟩ := hwf.chains
  have hb : hasher key % m.capacity < m.capacity := Nat.mod_lt _ hcap
  obtain ⟨hic, hnd, hmem⟩ := hch _ hb
  have hhash : hasher key = (entryAt m.entries i).hash := by
    rw [hwf.hash_cached i kv hkv]; exact hk.hash_eq _ _ he
  have hi : i ∈ chain (hasher key % m.capacity) := (hmem i).2 ⟨hocc, by rw [← hhash]⟩
  obtain ⟨pre, post, hsplit⟩ := List.append_of_mem hi
  rw [hsplit] at hic hnd
  have hnotin : i ∉ pre := by
    intro hin
    have := (List.nodup_append.1 hnd).2.2
    exact this hin (List.mem_cons_self _ _)
  unfold TryFindEntryIndex
  rw [if_neg (by omega)]
  apply TryFindEntryIndex.loop_found eq m.entries key (hasher key) pre _ _ i post kv hic _ hkv
    hhash he
  · have hlen := ChainsOk.length_le hwf hch hb
    rw [hsplit] at hlen
    simp at hlen
    omega
  · intro j hj
    have hjc : j ∈ chain (hasher key % m.capacity) := by
      rw [hsplit]; exact List.mem_append_left _ hj
    have hjo := ((hmem j).1 hjc).1
    obtain ⟨kvj, hkvj⟩ := Option.ne_none_iff_exists'.1 hjo
    refine ⟨kvj, hkvj, ?_⟩
    rintro ⟨_, hej⟩
    have h1 : eq kvj.1 kv.1 = true := hk.trans _ _ _ (hk.symm _ _ hej) he
    have h2 : j = i := hwf.keys_unique j i kvj kv hkvj hkv h1
    exact hnotin (h2 ▸ hj)

/-- A key that compares equal to no stored key is not found. -/
theorem TryFindEntryIndex_absent {m : HashMap K V} (hwf : WF hasher eq m) {key : K}
    (habs : ∀ i kv, (entryAt m.entries i).kvp = some kv → eq key kv.1 = false) :
    TryFindEntryIndex eq m key (hasher key) = some (-1) := by
  unfold TryFindEntryIndex
  by_cases hcap : m.capacity = 0
  · rw [if_pos hcap]
  · rw [if_neg hcap]
    obtain ⟨chain, hch⟩ := hwf.chains
    have hb : hasher key % m.capacity < m.capacity := Nat.mod_lt _ (Nat.pos_of_ne_zero hcap)
    obtain ⟨hic, hnd, hmem⟩ := hch _ hb
    apply TryFindEntryIndex.loop_none eq m.entries key (hasher key) _ _ _ hic
    · intro j hj
      have hjo := ((hmem j).1 hj).1
      obtain ⟨kvj, hkvj⟩ := Option.ne_none_iff_exists'.1 hjo
      refine ⟨kvj, hkvj, ?_⟩
      rintro ⟨_, hej⟩
      rw [habs j kvj hkvj] at hej
      cases hej
    · have := ChainsOk.length_le hwf hch hb
      omega

/-- The index returned by `TryFindEntryIndex` on a well-formed table is `-1` or the slot
of a stored key equal to the searched one. -/
theorem TryFindEntryIndex_cases (hk : LawfulKeys hasher eq) {m : HashMap K V}
    (hwf : WF hasher eq m) (key : K) :
    (TryFindEntryIndex eq m key (hasher key) = some (-1) ∧
      ∀ i kv, (entryAt m.entries i).kvp = some kv → eq key kv.1 = false) ∨
    ∃ (i : Nat) (kv : K × V), TryFindEntryIndex eq m key (hasher key) = some (i : Int) ∧
      (entryAt m.entries i).kvp = some kv ∧ eq key kv.1 = true := by
  by_cases h : ∃ (i : Nat) (kv : K × V), (entryAt m.entries i).kvp = some kv ∧ eq key kv.1 = true
  · obtain ⟨i, kv, hkv, he⟩ := h
    exact Or.inr ⟨i, kv, TryFindEntryIndex_present hk hwf hkv he, hkv, he⟩
  · have habs : ∀ i kv, (entryAt m.entries i).kvp = some kv → eq key kv.1 = false := by
      intro i kv hkv
      cases hb : eq key kv.1 with
      | false => rfl
      | true => exact absurd ⟨i, kv, hkv, hb⟩ h
    exact Or.inl ⟨TryFindEntryIndex_absent hwf habs, habs⟩

theorem mkIterator_natCast (m : HashMap K V) (i : Nat) :
    mkIterator m (i : Int) =
      { currentBucketIndex := (((entryAt m.entries i).hash % m.capacity : Nat) : Int),
        currentEntryIndex := (i : Int) } := by
  unfold mkIterator
  have : (i : Int) ≠ -1 := by omega
  rw [if_pos this, Int.toNat_ofNat]

theorem end_eq (m : HashMap K V) :
    end_ m = { currentBucketIndex := -1, currentEntryIndex := -1 } := by
  simp [end_, mkIterator]

theorem find_present (hk : LawfulKeys hasher eq) {m : HashMap K V}
    (hwf : WF hasher eq m) {key : K} {i : Nat} {kv : K × V}
    (hkv : (entryAt m.entries i).kvp = some kv) (he : eq key kv.1 = true) :
    find hasher eq m key = some (mkIterator m (i : Int)) := by
  unfold find
  rw [TryFindEntryIndex_present hk hwf hkv he]
  have : (i : Int) ≠ -1 := by omega
  simp [this]

theorem find_absent {m : HashMap K V} (hwf : WF hasher eq m) {key : K}
    (habs : ∀ i kv, (entryAt m.entries i).kvp = some kv → eq key kv.1 = false) :
    find hasher eq m key = some (end_ m) := by
  unfold find
  rw [TryFindEntryIndex_absent hwf habs]
  simp

theorem findEntry_present (hk : LawfulKeys hasher eq) {m : HashMap K V}
    (hwf : WF hasher eq m) {key : K} {i : Nat} {kv : K × V}
    (hkv : (entryAt m.entries i).kvp = some kv) (he : eq key kv.1 = true) :
    findEntry hasher eq m key = some (some kv) := by
  unfold findEntry
  rw [find_present hk hwf hkv he, mkIterator_natCast, end_eq]
  have : ¬ ((i : Int) = -1) := by omega
  simp [iterEq, deref, hkv, this]

theorem findEntry_absent {m : HashMap K V} (hwf : WF hasher eq m) {key : K}
    (habs : ∀ i kv, (entryAt m.entries i).kvp = some kv → eq key kv.1 = false) :
    findEntry hasher eq m key = some none := by
  unfold findEntry
  rw [find_absent hwf habs]
  simp [iterEq]

/-- On well-formed tables the outcome of `find` depends on the stored pairs only. -/
theorem findEntry_congr (hk : LawfulKeys hasher eq) {m m' : HashMap K V}
    (hwf : WF hasher eq m) (hwf' : WF hasher eq m') (key : K)
    (hsame : ∀ kv, eq key kv.1 = true →
      ((∃ i, (entryAt m'.entries i).kvp = some kv) ↔ ∃ i, (entryAt m.entries i).kvp = some kv)) :
    findEntry hasher eq m' key = findEntry hasher eq m key := by
  by_cases h : ∃ (i : Nat) (kv : K × V), (entryAt m.entries i).kvp = some kv ∧ eq key kv.1 = true
  · obtain ⟨i, kv, hkv, he⟩ := h
    obtain ⟨i', hkv'⟩ := (hsame kv he).2 ⟨i, hkv⟩
    rw [findEntry_present hk hwf hkv he, findEntry_present hk hwf' hkv' he]
  · have habs : ∀ i kv, (entryAt m.entries i).kvp = some kv → eq key kv.1 = false := by
      intro i kv hkv
      cases hb : eq key kv.1 with
      | false => rfl
      | true => exact absurd ⟨i, kv, hkv, hb⟩ h
    have habs' : ∀ i kv, (entryAt m'.entries i).kvp = some kv → eq key kv.1 = false := by
      intro i kv hkv
      cases hb : eq key kv.1 with
      | false => rfl
      | true =>
        obtain ⟨j, hj⟩ := (hsame kv hb).1 ⟨i, hkv⟩
        exact absurd ⟨j, kv, hj, hb⟩ h
    rw [findEntry_absent hwf habs, findEntry_absent hwf' habs']

end HashMap

/-! ## Allocation and growth -/

namespace HashMap

variable {K V : Type} {hasher : K → Nat} {eq : K → K → Bool}

/-- A well-formed table with capacity zero is the empty table. -/
theorem WF.eq_empty_of_capacity_zero {m : HashMap K V} (hwf : WF hasher eq m)
    (hcap : m.capacity = 0) : m = empty := by
  obtain ⟨free, hfc, _, hlen, hmem⟩ := hwf.free_list
  have hused : m.usedEntriesAmount = 0 := by have := hwf.used_le; omega
  have hfree : free = [] := by
    cases free with
    | nil => rfl
    | cons a l =>
      have := ((hmem a).1 (List.mem_cons_self _ _)).1
      omega
  subst hfree
  simp only [IsChain] at hfc
  have hb : m.buckets = [] := List.eq_nil_of_length_eq_zero (by rw [hwf.buckets_length, hcap])
  have he : m.entries = [] := List.eq_nil_of_length_eq_zero (by rw [hwf.entries_length, hcap])
  cases m
  simp only [List.length_nil] at hlen
  simp_all [empty]

theorem WF_empty : WF hasher eq (empty : HashMap K V) where
  buckets_length := rfl
  entries_length := rfl
  used_le := Nat.le_refl _
  occupied_lt := by
    intro i h
    simp [empty, entryAt_nil, emptyEntry] at h
  hash_cached := by
    intro i kv h
    simp [empty, entryAt_nil, emptyEntry] at h
  keys_unique := by
    intro i j kvi kvj h
    simp [empty, entryAt_nil, emptyEntry] at h
  chains := ⟨fun _ => [], by
    intro b hb
    simp [empty] at hb⟩
  free_list := ⟨[], by simp [empty, IsChain]⟩

theorem kvp_replicate (n i : Nat) :
    (entryAt (List.replicate n (emptyEntry : Entry K V)) i).kvp = none := by
  rw [entryAt_replicate]; rfl

/-- The table after `Initialize(0)`. -/
theorem WF_initial :
    WF hasher eq (HashMap.mk (List.replicate 3 (-1)) (List.replicate 3 (emptyEntry : Entry K V))
      3 0 0 (-1)) where
  buckets_length := by simp
  entries_length := by simp
  used_le := by simp
  occupied_lt := fun i h => absurd (kvp_replicate 3 i) h
  hash_cached := by
    intro i kv h
    have h2 := (kvp_replicate 3 i).symm.trans h
    cases h2
  keys_unique := by
    intro i j kvi kvj h
    have h2 := (kvp_replicate 3 i).symm.trans h
    cases h2
  chains := ⟨fun _ => [], by
    intro b hb
    refine ⟨?_, List.nodup_nil, ?_⟩
    · simp only [IsChain, bucketAt_replicate]
    · intro i
      have h2 : (entryAt (List.replicate 3 (emptyEntry : Entry K V)) i).kvp = none :=
        kvp_replicate 3 i
      simp only [List.not_mem_nil, false_iff, not_and]
      intro h
      exact absurd h2 h⟩
  free_list := ⟨[], by
    refine ⟨by simp [IsChain], List.nodup_nil, rfl, ?_⟩
    intro i
    simp⟩

theorem Initialize_empty :
    Initialize (empty : HashMap K V) 0 =
      some (HashMap.mk (List.replicate 3 (-1)) (List.replicate 3 (emptyEntry : Entry K V))
        3 0 0 (-1)) := by
  unfold Initialize
  rw [PrimesHelper.GetPrime_zero]
  rfl

theorem rehashChain_succ (es : List (Entry K V)) (c t b : Nat) :
    rehashChain es c (t + 1) b =
      if (entryAt es t).kvp.isSome && (entryAt es t).hash % c == b
      then t :: rehashChain es c t b else rehashChain es c t b := by
  unfold rehashChain
  rw [List.range_succ, List.filter_append, List.reverse_append]
  by_cases h : ((entryAt es t).kvp.isSome && (entryAt es t).hash % c == b) = true
  · simp [List.filter_cons, h]
  · simp [List.filter_cons, h]

theorem mem_rehashChain (es : List (Entry K V)) (c t b i : Nat) :
    i ∈ rehashChain es c t b ↔
      i < t ∧ (entryAt es i).kvp ≠ none ∧ (entryAt es i).hash % c = b := by
  unfold rehashChain
  simp [List.mem_filter, Option.isSome_iff_ne_none]

theorem nodup_rehashChain (es : List (Entry K V)) (c t b : Nat) :
    (rehashChain es c t b).Nodup := by
  unfold rehashChain
  exact List.nodup_reverse.2 ((List.nodup_range t).filter _)

/-- One round of the loop of `Enlarge` extends the rebuilt chains by slot `t`. -/
theorem Enlarge.step_inv (es : List (Entry K V)) (c t : Nat) (ht : t < c)
    (acc : List Int × List (Entry K V))
    (hlenB : acc.1.length = c) (hlenE : acc.2.length = c)
    (hsame : ∀ i, i < t → (entryAt acc.2 i).kvp = (entryAt es i).kvp ∧
      (entryAt acc.2 i).hash = (entryAt es i).hash)
    (hfresh : ∀ i, t ≤ i → entryAt acc.2 i = emptyEntry)
    (hchain : ∀ b, b < c → IsChain acc.2 (bucketAt acc.1 b) (rehashChain es c t b)) :
    (Enlarge.step c es acc t).1.length = c ∧ (Enlarge.step c es acc t).2.length = c ∧
    (∀ i, i < t + 1 → (entryAt (Enlarge.step c es acc t).2 i).kvp = (entryAt es i).kvp ∧
      (entryAt (Enlarge.step c es acc t).2 i).hash = (entryAt es i).hash) ∧
    (∀ i, t + 1 ≤ i → entryAt (Enlarge.step c es acc t).2 i = emptyEntry) ∧
    (∀ b, b < c → IsChain (Enlarge.step c es acc t).2
      (bucketAt (Enlarge.step c es acc t).1 b) (rehashChain es c (t + 1) b)) := by
  have hmemlt : ∀ b i, i ∈ rehashChain es c t b → i ≠ t := by
    intro b i hi
    have := ((mem_rehashChain es c t b i).1 hi).1
    omega
  have htE : t < acc.2.length := by omega
  cases hkv : (entryAt es t).kvp with
  | none =>
    have hstep : Enlarge.step c es acc t = (acc.1, acc.2.set t (entryAt es t)) := by
      unfold Enlarge.step
      simp only [hkv]
    rw [hstep]
    refine ⟨hlenB, by simp [hlenE], ?_, ?_, ?_⟩
    · intro i hi
      by_cases hit : i = t
      · subst hit
        simp [entryAt_set_eq _ htE]
      · rw [entryAt_set_ne _ (Ne.symm hit)]
        exact hsame i (by omega)
    · intro i hi
      rw [entryAt_set_ne _ (by omega)]
      exact hfresh i (by omega)
    · intro b hb
      rw [rehashChain_succ]
      simp only [hkv, Option.isSome_none, Bool.false_and, Bool.false_eq_true, if_false]
      apply IsChain.congr _ _ _ (hchain b hb)
      intro i hi
      rw [entryAt_set_ne _ (Ne.symm (hmemlt b i hi))]
  | some kv =>
    have hstep : Enlarge.step c es acc t =
        (acc.1.set ((entryAt es t).hash % c) (t : Int),
         acc.2.set t { entryAt es t with next := bucketAt acc.1 ((entryAt es t).hash % c) }) := by
      unfold Enlarge.step
      simp only [hkv]
    rw [hstep]
    have hbt : (entryAt es t).hash % c < acc.1.length := by
      rw [hlenB]; exact Nat.mod_lt _ (by omega)
    refine ⟨by simp [hlenB], by simp [hlenE], ?_, ?_, ?_⟩
    · intro i hi
      by_cases hit : i = t
      · subst hit
        simp [entryAt_set_eq _ htE]
      · rw [entryAt_set_ne _ (Ne.symm hit)]
        exact hsame i (by omega)
    · intro i hi
      rw [entryAt_set_ne _ (by omega)]
      exact hfresh i (by omega)
    · intro b hb
      rw [rehashChain_succ]
      by_cases hbb : (entryAt es t).hash % c = b
      · subst hbb
        simp only [hkv, Option.isSome_some, Bool.true_and, beq_self_eq_true, if_true, IsChain]
        refine ⟨bucketAt_set_eq _ hbt, ?_⟩
        rw [entryAt_set_eq _ htE]
        apply IsChain.congr _ _ _ (hchain _ hb)
        intro i hi
        rw [entryAt_set_ne _ (Ne.symm (hmemlt _ i hi))]
      · have hbeq : ((entryAt es t).hash % c == b) = false := by simpa using hbb
        simp only [hbeq, Bool.and_false, Bool.false_eq_true, if_false]
        rw [bucketAt_set_ne _ hbb]
        apply IsChain.congr _ _ _ (hchain b hb)
        intro i hi
        rw [entryAt_set_ne _ (Ne.symm (hmemlt b i hi))]

/-- The arrays after `t` rounds of the loop of `Enlarge`. -/
theorem Enlarge.fold_inv (es : List (Entry K V)) (c : Nat) : ∀ t, t ≤ c →
    ((List.range t).foldl (Enlarge.step c es)
      (List.replicate c (-1), List.replicate c emptyEntry)).1.length = c ∧
    ((List.range t).foldl (Enlarge.step c es)
      (List.replicate c (-1), List.replicate c emptyEntry)).2.length = c ∧
    (∀ i, i < t → (entryAt ((List.range t).foldl (Enlarge.step c es)
        (List.replicate c (-1), List.replicate c emptyEntry)).2 i).kvp = (entryAt es i).kvp ∧
      (entryAt ((List.range t).foldl (Enlarge.step c es)
        (List.replicate c (-1), List.replicate c emptyEntry)).2 i).hash = (entryAt es i).hash) ∧
    (∀ i, t ≤ i → entryAt ((List.range t).foldl (Enlarge.step c es)
        (List.replicate c (-1), List.replicate c emptyEntry)).2 i = emptyEntry) ∧
    (∀ b, b < c → IsChain ((List.range t).foldl (Enlarge.step c es)
        (List.replicate c (-1), List.replicate c emptyEntry)).2
      (bucketAt ((List.range t).foldl (Enlarge.step c es)
        (List.replicate c (-1), List.replicate c emptyEntry)).1 b) (rehashChain es c t b))
  | 0, _ => by
    refine ⟨by simp, by simp, by simp, ?_, ?_⟩
    · intro i _
      simp [entryAt_replicate]
    · intro b _
      simp [rehashChain, IsChain, bucketAt_replicate]
  | t + 1, ht => by
    obtain ⟨h1, h2, h3, h4, h5⟩ := Enlarge.fold_inv es c t (by omega)
    rw [List.range_succ, List.foldl_append]
    simp only [List.foldl_cons, List.foldl_nil]
    exact Enlarge.step_inv es c t (by omega) _ h1 h2 h3 h4 h5

/-- Growth of a full well-formed table: the result is well formed, has the proposed
capacity, and keeps every slot's cached hash and payload as well as the counters. -/
theorem Enlarge_spec {m : HashMap K V} (hwf : WF hasher eq m)
    (hfull : m.usedEntriesAmount = m.capacity) (hfree : m.deletedEntriesAmount = 0)
    {c : Nat} (hc : PrimesHelper.ExpandPrime m.capacity = some c) (hlt : m.capacity < c) :
    ∃ m', Enlarge m = some m' ∧ WF hasher eq m' ∧ m'.capacity = c ∧
      m'.usedEntriesAmount = m.usedEntriesAmount ∧
      m'.deletedEntriesAmount = m.deletedEntriesAmount ∧
      m'.deletedList = m.deletedList ∧
      (∀ i, (entryAt m'.entries i).kvp = (entryAt m.entries i).kvp) ∧
      (∀ i, (entryAt m'.entries i).hash = (entryAt m.entries i).hash) := by
  have hinv := Enlarge.fold_inv m.entries c m.capacity (le_of_lt hlt)
  have hE : Enlarge m = some (HashMap.mk
      ((List.range m.capacity).foldl (Enlarge.step c m.entries)
        (List.replicate c (-1), List.replicate c emptyEntry)).1
      ((List.range m.capacity).foldl (Enlarge.step c m.entries)
        (List.replicate c (-1), List.replicate c emptyEntry)).2
      c m.usedEntriesAmount m.deletedEntriesAmount m.deletedList) := by
    unfold Enlarge
    simp only [hc, Option.bind_eq_bind, Option.some_bind]
    rw [if_neg (by omega)]
  generalize (List.range m.capacity).foldl (Enlarge.step c m.entries)
        (List.replicate c (-1), List.replicate c emptyEntry) = arrays at hinv hE
  obtain ⟨h1, h2, h3, h4, h5⟩ := hinv
  obtain ⟨free, hfc, _, hflen, hfmem⟩ := hwf.free_list
  have hfnil : free = [] := List.eq_nil_of_length_eq_zero (by rw [hflen, hfree])
  subst hfnil
  simp only [IsChain] at hfc
  have hocc : ∀ i, i < m.capacity → (entryAt m.entries i).kvp ≠ none := by
    intro i hi hnone
    have := (hfmem i).2 ⟨by omega, hnone⟩
    simp at this
  have hout : ∀ i, m.capacity ≤ i → entryAt m.entries i = emptyEntry := by
    intro i hi
    unfold entryAt
    rw [List.getD_eq_getElem?_getD, List.getElem?_eq_none (by rw [hwf.entries_length]; exact hi)]
    rfl
  have hkvp : ∀ i, (entryAt arrays.2 i).kvp = (entryAt m.entries i).kvp := by
    intro i
    by_cases hi : i < m.capacity
    · exact (h3 i hi).1
    · rw [h4 i (by omega), hout i (by omega)]
  have hhash : ∀ i, (entryAt arrays.2 i).hash = (entryAt m.entries i).hash := by
    intro i
    by_cases hi : i < m.capacity
    · exact (h3 i hi).2
    · rw [h4 i (by omega), hout i (by omega)]
  refine ⟨_, hE, ?_, rfl, rfl, rfl, rfl, hkvp, hhash⟩
  · refine ⟨h1, h2, ?_, ?_, ?_, ?_, ?_, ?_⟩
    · show m.usedEntriesAmount ≤ c
      omega
    · intro i hi
      rw [hkvp i] at hi
      exact hwf.occupied_lt i hi
    · intro i kv hi
      rw [hkvp i] at hi
      rw [hhash i]
      exact hwf.hash_cached i kv hi
    · intro i j kvi kvj hi hj
      rw [hkvp i] at hi
      rw [hkvp j] at hj
      exact hwf.keys_unique i j kvi kvj hi hj
    · refine ⟨rehashChain m.entries c m.capacity, ?_⟩
      intro b hb
      refine ⟨h5 b hb, nodup_rehashChain _ _ _ _, ?_⟩
      intro i
      rw [mem_rehashChain, hkvp i, hhash i]
      constructor
      · rintro ⟨_, ho, hb⟩
        exact ⟨ho, hb⟩
      · rintro ⟨ho, hb⟩
        exact ⟨by have := hwf.occupied_lt i ho; omega, ho, hb⟩
    · refine ⟨[], ?_, List.nodup_nil, ?_, ?_⟩
      · simpa [IsChain] using hfc
      · simpa using hfree.symm
      · intro i
        simp only [List.not_mem_nil, false_iff, not_and]
        intro hi
        rw [hkvp i]
        exact hocc i (by
          have : i < m.usedEntriesAmount := hi
          omega)

end HashMap

/-! ## Creation of an entry -/

namespace HashMap

variable {K V : Type} {hasher : K → Nat} {eq : K → K → Bool}

theorem WF.deleted_le_used {m : HashMap K V} (hwf : WF hasher eq m) :
    m.deletedEntriesAmount ≤ m.usedEntriesAmount := by
  obtain ⟨free, _, hnd, hlen, hmem⟩ := hwf.free_list
  rw [← hlen]
  exact length_le_of_nodup_lt hnd (fun i hi => ((hmem i).1 hi).1)

/-- Extending `usedEntriesAmount` reserves the first never-used slot. -/
theorem Reserved_of_fresh {m : HashMap K V} (hwf : WF hasher eq m)
    (hfree : m.deletedEntriesAmount = 0) (hlt : m.usedEntriesAmount < m.capacity) :
    Reserved hasher eq (HashMap.mk m.buckets m.entries m.capacity (m.usedEntriesAmount + 1)
      m.deletedEntriesAmount m.deletedList) m.usedEntriesAmount where
  buckets_length := hwf.buckets_length
  entries_length := hwf.entries_length
  used_le := hlt
  occupied_lt := fun i h => Nat.lt_succ_of_lt (hwf.occupied_lt i h)
  hash_cached := hwf.hash_cached
  keys_unique := hwf.keys_unique
  chains := hwf.chains
  slot_lt := Nat.lt_succ_self _
  slot_free := by
    by_contra h
    exact absurd (hwf.occupied_lt _ h) (Nat.lt_irrefl _)
  free_list := by
    obtain ⟨free, hfc, hnd, hlen, hmem⟩ := hwf.free_list
    have hfnil : free = [] := List.eq_nil_of_length_eq_zero (by rw [hlen, hfree])
    subst hfnil
    refine ⟨[], hfc, hnd, hlen, ?_⟩
    intro i
    simp only [List.not_mem_nil, false_iff, not_and]
    intro hi hnone hne
    have hi' : i < m.usedEntriesAmount + 1 := hi
    have := (hmem i).2 ⟨by omega, hnone⟩
    simp at this

/-- Taking the head of the free list reserves that slot. -/
theorem Reserved_of_recycled {m : HashMap K V} (hwf : WF hasher eq m)
    (hfree : 0 < m.deletedEntriesAmount) :
    ∃ x : Nat, m.deletedList = (x : Int) ∧
      Reserved hasher eq (HashMap.mk m.buckets m.entries m.capacity m.usedEntriesAmount
        (m.deletedEntriesAmount - 1) (entryAt m.entries x).next) x := by
  obtain ⟨free, hfc, hnd, hlen, hmem⟩ := hwf.free_list
  cases free with
  | nil => simp at hlen; omega
  | cons x fl =>
    simp only [IsChain] at hfc
    have hx := (hmem x).1 (List.mem_cons_self _ _)
    have hnd' := List.nodup_cons.1 hnd
    refine ⟨x, hfc.1, ?_⟩
    exact {
      buckets_length := hwf.buckets_length
      entries_length := hwf.entries_length
      used_le := hwf.used_le
      occupied_lt := hwf.occupied_lt
      hash_cached := hwf.hash_cached
      keys_unique := hwf.keys_unique
      chains := hwf.chains
      slot_lt := hx.1
      slot_free := hx.2
      free_list := by
        refine ⟨fl, hfc.2, hnd'.2, ?_, ?_⟩
        · simp only [List.length_cons] at hlen
          show fl.length = m.deletedEntriesAmount - 1
          omega
        · intro i
          constructor
          · intro hi
            have := (hmem i).1 (List.mem_cons_of_mem _ hi)
            refine ⟨this.1, this.2, ?_⟩
            rintro rfl
            exact hnd'.1 hi
          · rintro ⟨h1, h2, h3⟩
            have := (hmem i).2 ⟨h1, h2⟩
            rcases List.mem_cons.1 this with h | h
            · exact absurd h h3
            · exact h }

/-- The method `GetNextCreationBucketAndIndex` on a well-formed table in range returns
the bucket of the hash under the final capacity and a reserved slot; payloads and
cached hashes stay where they are, and the number of live slots grows by one. -/
theorem GetNextCreationBucketAndIndex_spec {m : HashMap K V} (hwf : WF hasher eq m)
    (hr : InRange m) (hash : Nat) :
    ∃ (x : Nat) (m1 : HashMap K V),
      GetNextCreationBucketAndIndex m hash =
        some (((hash % m1.capacity : Nat) : Int), (x : Int), m1) ∧
      Reserved hasher eq m1 x ∧
      (∀ i, (entryAt m1.entries i).kvp = (entryAt m.entries i).kvp) ∧
      (∀ i, (entryAt m1.entries i).hash = (entryAt m.entries i).hash) ∧
      size m1 = size m + 1 ∧ m.capacity ≤ m1.capacity ∧
      m1.usedEntriesAmount ≤ m.usedEntriesAmount + 1 := by
  by_cases hcap : m.capacity = 0
  · have hm := hwf.eq_empty_of_capacity_zero hcap
    subst hm
    refine ⟨0, HashMap.mk (List.replicate 3 (-1)) (List.replicate 3 emptyEntry) 3 1 0 (-1),
      ?_, ?_, ?_, ?_, ?_, ?_, ?_⟩
    · unfold GetNextCreationBucketAndIndex
      simp only [hcap, if_true, Initialize_empty, Option.bind_eq_bind, Option.some_bind]
      simp
    · exact Reserved_of_fresh (WF_initial) rfl (by simp)
    · intro i
      rw [kvp_replicate]
      simp [empty, entryAt_nil, emptyEntry]
    · intro i
      show (entryAt (List.replicate 3 emptyEntry) i).hash = _
      rw [entryAt_replicate]
      simp [empty, entryAt_nil]
    · simp [size, empty]
    · simp [empty]
    · simp [empty]
  · by_cases hdel : 0 < m.deletedEntriesAmount
    · obtain ⟨x, hx, hres⟩ := Reserved_of_recycled hwf hdel
      refine ⟨x, _, ?_, hres, fun _ => rfl, fun _ => rfl, ?_, Nat.le_refl _, Nat.le_succ _⟩
      · unfold GetNextCreationBucketAndIndex
        simp only [hcap, if_false, Option.bind_eq_bind, Option.some_bind, gt_iff_lt, hdel,
          if_true, hx, Int.toNat_ofNat]
      · have := hwf.deleted_le_used
        simp only [size]
        omega
    · have hdel0 : m.deletedEntriesAmount = 0 := by omega
      by_cases hfull : m.usedEntriesAmount = m.capacity
      · have hr' : m.capacity ≤ PrimesHelper.MaxPrime := by
          have : m.usedEntriesAmount < PrimesHelper.MaxPrime := hr
          omega
        obtain ⟨c, hc, hlt⟩ := PrimesHelper.ExpandPrime_gt hr'
        obtain ⟨me, hme, hwfe, hcape, husede, hdele, hdle, hkvp, hhash⟩ :=
          Enlarge_spec hwf hfull hdel0 hc hlt
        refine ⟨me.usedEntriesAmount, HashMap.mk me.buckets me.entries me.capacity
          (me.usedEntriesAmount + 1) me.deletedEntriesAmount me.deletedList, ?_, ?_, hkvp, hhash,
          ?_, ?_, ?_⟩
        · unfold GetNextCreationBucketAndIndex
          simp only [hcap, if_false, Option.bind_eq_bind, Option.some_bind, gt_iff_lt, hdel,
            hfull, if_true, hme]
        · exact Reserved_of_fresh hwfe (by omega) (by omega)
        · simp only [size]
          omega
        · show m.capacity ≤ me.capacity
          omega
        · show me.usedEntriesAmount + 1 ≤ m.usedEntriesAmount + 1
          omega
      · refine ⟨m.usedEntriesAmount, HashMap.mk m.buckets m.entries m.capacity
          (m.usedEntriesAmount + 1) m.deletedEntriesAmount m.deletedList, ?_, ?_,
          fun _ => rfl, fun _ => rfl, ?_, Nat.le_refl _, Nat.le_refl _⟩
        · unfold GetNextCreationBucketAndIndex
          simp only [hcap, if_false, Option.bind_eq_bind, Option.some_bind, gt_iff_lt, hdel,
            hfull]
        · exact Reserved_of_fresh hwf hdel0 (by have := hwf.used_le; omega)
        · simp only [size]
          omega

/-- Writing a new pair into a reserved slot and making it the head of its bucket gives
a well-formed table. -/
theorem WF_link (hk : LawfulKeys hasher eq) {m1 : HashMap K V} {x : Nat}
    (hres : Reserved hasher eq m1 x) (key : K) (value : V)
    (habs : ∀ i kv, (entryAt m1.entries i).kvp = some kv → eq key kv.1 = false) :
    WF hasher eq (HashMap.mk
      (m1.buckets.set (hasher key % m1.capacity) (x : Int))
      (m1.entries.set x
        { hash := hasher key, kvp := some (key, value),
          next := bucketAt m1.buckets (hasher key % m1.capacity) })
      m1.capacity m1.usedEntriesAmount m1.deletedEntriesAmount m1.deletedList) := by
  have hxlen : x < m1.entries.length := by
    rw [hres.entries_length]; exact lt_of_lt_of_le hres.slot_lt hres.used_le
  have hcap : 0 < m1.capacity := lt_of_le_of_lt (Nat.zero_le _)
    (lt_of_lt_of_le hres.slot_lt hres.used_le)
  have hb : hasher key % m1.capacity < m1.buckets.length := by
    rw [hres.buckets_length]; exact Nat.mod_lt _ hcap
  have hE : ∀ i, i ≠ x → entryAt (m1.entries.set x
        { hash := hasher key, kvp := some (key, value),
          next := bucketAt m1.buckets (hasher key % m1.capacity) }) i = entryAt m1.entries i :=
    fun i hi => entryAt_set_ne _ (Ne.symm hi)
  have hEx : entryAt (m1.entries.set x
        { hash := hasher key, kvp := some (key, value),
          next := bucketAt m1.buckets (hasher key % m1.capacity) }) x =
        { hash := hasher key, kvp := some (key, value),
          next := bucketAt m1.buckets (hasher key % m1.capacity) } :=
    entryAt_set_eq _ hxlen
  have hlenE : (m1.entries.set x
        { hash := hasher key, kvp := some (key, value),
          next := bucketAt m1.buckets (hasher key % m1.capacity) }).length = m1.capacity := by
    rw [List.length_set]; exact hres.entries_length
  generalize m1.entries.set x
        { hash := hasher key, kvp := some (key, value),
          next := bucketAt m1.buckets (hasher key % m1.capacity) } = es' at hE hEx hlenE
  have hB : ∀ b, b ≠ hasher key % m1.capacity →
      bucketAt (m1.buckets.set (hasher key % m1.capacity) (x : Int)) b = bucketAt m1.buckets b :=
    fun b hne => bucketAt_set_ne _ (Ne.symm hne)
  have hBb : bucketAt (m1.buckets.set (hasher key % m1.capacity) (x : Int))
      (hasher key % m1.capacity) = (x : Int) := bucketAt_set_eq _ hb
  have hlenB : (m1.buckets.set (hasher key % m1.capacity) (x : Int)).length = m1.capacity := by
    rw [List.length_set]; exact hres.buckets_length
  generalize m1.buckets.set (hasher key % m1.capacity) (x : Int) = bs' at hB hBb hlenB
  obtain ⟨chain, hch⟩ := hres.chains
  have hxnot : ∀ b, b < m1.capacity → x ∉ chain b := by
    intro b hb hx
    exact (((hch b hb).2.2 x).1 hx).1 hres.slot_free
  have hkvp : ∀ i kv, (entryAt es' i).kvp = some kv →
      (i = x ∧ kv = (key, value)) ∨ (i ≠ x ∧ (entryAt m1.entries i).kvp = some kv) := by
    intro i kv h
    by_cases hi : i = x
    · subst hi
      rw [hEx] at h
      exact Or.inl ⟨rfl, (Option.some.inj h).symm⟩
    · rw [hE i hi] at h
      exact Or.inr ⟨hi, h⟩
  refine ⟨hlenB, hlenE, hres.used_le, ?_, ?_, ?_, ?_, ?_⟩
  · intro i h
    by_cases hi : i = x
    · subst hi; exact hres.slot_lt
    · rw [hE i hi] at h
      exact hres.occupied_lt i h
  · intro i kv h
    rcases hkvp i kv h with ⟨rfl, rfl⟩ | ⟨hi, h'⟩
    · rw [hEx]
    · rw [hE i hi]
      exact hres.hash_cached i kv h'
  · intro i j kvi kvj hi hj he
    rcases hkvp i kvi hi with ⟨rfl, rfl⟩ | ⟨hix, hi'⟩
    · rcases hkvp j kvj hj with ⟨rfl, rfl⟩ | ⟨hjx, hj'⟩
      · rfl
      · rw [habs j kvj hj'] at he
        cases he
    · rcases hkvp j kvj hj with ⟨rfl, rfl⟩ | ⟨hjx, hj'⟩
      · have := hk.symm _ _ he
        rw [habs i kvi hi'] at this
        cases this
      · exact hres.keys_unique i j kvi kvj hi' hj' he
  · refine ⟨fun b => if b = hasher key % m1.capacity then x :: chain b else chain b, ?_⟩
    intro b hbc
    have hbc' : b < m1.capacity := hbc
    obtain ⟨hic, hnd, hmem⟩ := hch b hbc'
    have hagree : ∀ i ∈ chain b, (entryAt es' i).next = (entryAt m1.entries i).next := by
      intro i hi
      have : i ≠ x := fun h => hxnot b hbc' (h ▸ hi)
      rw [hE i this]
    by_cases hbb : b = hasher key % m1.capacity
    · subst hbb
      simp only [if_true]
      refine ⟨?_, List.nodup_cons.2 ⟨hxnot _ hbc', hnd⟩, ?_⟩
      · show IsChain es' (bucketAt bs' _) _
        simp only [IsChain]
        refine ⟨hBb, ?_⟩
        rw [hEx]
        exact IsChain.congr _ _ hagree hic
      · intro i
        show i ∈ x :: chain _ ↔ ((entryAt es' i).kvp ≠ none ∧ (entryAt es' i).hash % m1.capacity = _)
        by_cases hi : i = x
        · subst hi
          rw [hEx]
          simp
        · rw [hE i hi, List.mem_cons, hmem i]
          simp [hi]
    · simp only [if_neg hbb]
      refine ⟨?_, hnd, ?_⟩
      · show IsChain es' (bucketAt bs' b) _
        rw [hB b hbb]
        exact IsChain.congr _ _ hagree hic
      · intro i
        show i ∈ chain b ↔ ((entryAt es' i).kvp ≠ none ∧ (entryAt es' i).hash % m1.capacity = b)
        by_cases hi : i = x
        · subst hi
          rw [hEx]
          simp only [ne_eq, reduceCtorEq, not_false_eq_true, true_and]
          constructor
          · intro h; exact absurd h (hxnot b hbc')
          · intro h; exact absurd h.symm hbb
        · rw [hE i hi]
          exact hmem i
  · obtain ⟨free, hfc, hnd, hlen, hmem⟩ := hres.free_list
    refine ⟨free, ?_, hnd, hlen, ?_⟩
    · apply IsChain.congr _ _ _ hfc
      intro i hi
      rw [hE i ((hmem i).1 hi).2.2]
    · intro i
      show i ∈ free ↔ (i < m1.usedEntriesAmount ∧ (entryAt es' i).kvp = none)
      by_cases hi : i = x
      · subst hi
        rw [hEx, hmem i]
        simp
      · rw [hE i hi, hmem i]
        simp [hi]

end HashMap

/-! ## Insertion -/

namespace HashMap

variable {K V : Type} {hasher : K → Nat} {eq : K → K → Bool}

theorem CreateAndGetEntryIndexPair_eq (m : HashMap K V) (pair : K × V) (hash : Nat) :
    CreateAndGetEntryIndexPair m pair hash = CreateAndGetEntryIndex m hash pair.1 id pair.2 :=
  rfl

/-- Creation of an entry for an absent key in a well-formed table in range. -/
theorem CreateAndGetEntryIndex_spec (hk : LawfulKeys hasher eq) {m : HashMap K V}
    (hwf : WF hasher eq m) (hr : InRange m) (key : K) {A : Type} (ctor : A → V) (args : A)
    (habs : ∀ i kv, (entryAt m.entries i).kvp = some kv → eq key kv.1 = false) :
    ∃ (x : Nat) (m' : HashMap K V),
      CreateAndGetEntryIndex m (hasher key) key ctor args = some ((x : Int), m') ∧
      WF hasher eq m' ∧
      (entryAt m.entries x).kvp = none ∧
      (entryAt m'.entries x).kvp = some (key, ctor args) ∧
      (entryAt m'.entries x).hash = hasher key ∧
      (∀ i, i ≠ x → (entryAt m'.entries i).kvp = (entryAt m.entries i).kvp ∧
        (entryAt m'.entries i).hash = (entryAt m.entries i).hash) ∧
      size m' = size m + 1 ∧ m.capacity ≤ m'.capacity ∧
      m'.usedEntriesAmount ≤ m.usedEntriesAmount + 1 := by
  obtain ⟨x, m1, hget, hres, hkvp, hhash, hsize, hcap, hused⟩ :=
    GetNextCreationBucketAndIndex_spec hwf hr (hasher key)
  have habs1 : ∀ i kv, (entryAt m1.entries i).kvp = some kv → eq key kv.1 = false := by
    intro i kv h
    rw [hkvp i] at h
    exact habs i kv h
  have hxlen : x < m1.entries.length := by
    rw [hres.entries_length]; exact lt_of_lt_of_le hres.slot_lt hres.used_le
  refine ⟨x, _, ?_, WF_link hk hres key (ctor args) habs1, ?_, ?_, ?_, ?_, ?_, hcap, hused⟩
  · unfold CreateAndGetEntryIndex
    simp only [hget, Option.bind_eq_bind, Option.some_bind, Int.toNat_ofNat]
  · rw [← hkvp x]; exact hres.slot_free
  · show (entryAt (m1.entries.set x _) x).kvp = _
    rw [entryAt_set_eq _ hxlen]
  · show (entryAt (m1.entries.set x _) x).hash = _
    rw [entryAt_set_eq _ hxlen]
  · intro i hi
    constructor
    · show (entryAt (m1.entries.set x _) i).kvp = _
      rw [entryAt_set_ne _ (Ne.symm hi)]
      exact hkvp i
    · show (entryAt (m1.entries.set x _) i).hash = _
      rw [entryAt_set_ne _ (Ne.symm hi)]
      exact hhash i
  · exact hsize

/-- On a well-formed table `find` returns the end iterator exactly for the keys that
compare equal to no stored key. -/
theorem find_eq_end_iff (hk : LawfulKeys hasher eq) {m : HashMap K V}
    (hwf : WF hasher eq m) (key : K) :
    find hasher eq m key = some (end_ m) ↔
      ∀ i kv, (entryAt m.entries i).kvp = some kv → eq key kv.1 = false := by
  constructor
  · intro h i kv hkv
    cases hb : eq key kv.1 with
    | false => rfl
    | true =>
      rw [find_present hk hwf hkv hb, mkIterator_natCast, end_eq] at h
      have := congrArg Iterator.currentEntryIndex (Option.some.inj h)
      simp only at this
      omega
  · exact find_absent hwf

theorem TryFindEntryIndex_of_find_end (hk : LawfulKeys hasher eq) {m : HashMap K V}
    (hwf : WF hasher eq m) {key : K} (h : find hasher eq m key = some (end_ m)) :
    TryFindEntryIndex eq m key (hasher key) = some (-1) :=
  TryFindEntryIndex_absent hwf ((find_eq_end_iff hk hwf key).1 h)

/-- The three creation paths on an absent key. -/
theorem try_emplace_absent (hk : LawfulKeys hasher eq) {m : HashMap K V}
    (hwf : WF hasher eq m) (hr : InRange m) (key : K) {A : Type} (ctor : A → V) (args : A)
    (habs : ∀ i kv, (entryAt m.entries i).kvp = some kv → eq key kv.1 = false) :
    ∃ (x : Nat) (m' : HashMap K V),
      try_emplace hasher eq m key ctor args = some (true, mkIterator m' (x : Int), m') ∧
      WF hasher eq m' ∧
      (entryAt m.entries x).kvp = none ∧
      (entryAt m'.entries x).kvp = some (key, ctor args) ∧
      (entryAt m'.entries x).hash = hasher key ∧
      (∀ i, i ≠ x → (entryAt m'.entries i).kvp = (entryAt m.entries i).kvp ∧
        (entryAt m'.entries i).hash = (entryAt m.entries i).hash) ∧
      size m' = size m + 1 ∧ m.capacity ≤ m'.capacity ∧
      m'.usedEntriesAmount ≤ m.usedEntriesAmount + 1 := by
  obtain ⟨x, m', hc, hrest⟩ := CreateAndGetEntryIndex_spec hk hwf hr key ctor args habs
  refine ⟨x, m', ?_, hrest⟩
  unfold try_emplace
  simp only [TryFindEntryIndex_absent hwf habs, Option.bind_eq_bind, Option.some_bind, hc]
  simp

theorem insert_eq_try_emplace (m : HashMap K V) (key : K) (value : V) :
    insert hasher eq m key value = try_emplace hasher eq m key id value :=
  rfl

theorem insertPair_eq_insert (m : HashMap K V) (item : K × V) :
    insertPair hasher eq m item = insert hasher eq m item.1 item.2 :=
  rfl

/-- The creation paths on a key that is present. -/
theorem try_emplace_present (hk : LawfulKeys hasher eq) {m : HashMap K V}
    (hwf : WF hasher eq m) (key : K) {A : Type} (ctor : A → V) (args : A)
    {i : Nat} {kv : K × V} (hkv : (entryAt m.entries i).kvp = some kv)
    (he : eq key kv.1 = true) :
    try_emplace hasher eq m key ctor args = some (false, end_ m, m) := by
  unfold try_emplace
  have : (i : Int) ≠ -1 := by omega
  simp only [TryFindEntryIndex_present hk hwf hkv he, Option.bind_eq_bind, Option.some_bind]
  simp [this]

end HashMap

/-! ## Unlinking an entry -/

namespace HashMap

variable {K V : Type} {hasher : K → Nat} {eq : K → K → Bool}

/-- Redirecting the link in front of `x` (or the start of the chain when `x` is the head)
to the successor of `x` removes `x` from the chain. -/
theorem IsChain.remove {es es' : List (Entry K V)} : ∀ (pre : List Nat) (s : Int) (x : Nat)
    (post : List Nat), (pre ++ x :: post).Nodup → IsChain es s (pre ++ x :: post) →
    (∀ i ∈ pre ++ post, pre.getLast? ≠ some i → (entryAt es' i).next = (entryAt es i).next) →
    (∀ p, pre.getLast? = some p → (entryAt es' p).next = (entryAt es x).next) →
    IsChain es' (if pre = [] then (entryAt es x).next else s) (pre ++ post)
  | [], s, x, post, _, hc, hag, _ => by
    simp only [List.nil_append, IsChain] at hc
    simp only [if_true, List.nil_append]
    apply IsChain.congr _ _ _ hc.2
    intro i hi
    exact hag i (by simpa using hi) (by simp)
  | [a], s, x, post, hnd, hc, hag, hlast => by
    simp only [List.cons_append, List.nil_append, IsChain] at hc
    have hne : ¬ ([a] = ([] : List Nat)) := by simp
    simp only [if_neg hne, List.cons_append, List.nil_append, IsChain]
    refine ⟨hc.1, ?_⟩
    rw [hlast a (by simp)]
    apply IsChain.congr _ _ _ hc.2.2
    intro i hi
    apply hag i (by simp [hi])
    simp only [List.getLast?_singleton, ne_eq, Option.some.injEq]
    rintro rfl
    simp only [List.cons_append, List.nil_append, List.nodup_cons, List.mem_cons] at hnd
    exact hnd.1 (Or.inr hi)
  | a :: a' :: pre, s, x, post, hnd, hc, hag, hlast => by
    simp only [List.cons_append, IsChain] at hc
    have hne : ¬ (a :: a' :: pre = ([] : List Nat)) := by simp
    have hne' : ¬ (a' :: pre = ([] : List Nat)) := by simp
    simp only [if_neg hne, List.cons_append, IsChain]
    have hnd' : (a' :: pre ++ x :: post).Nodup := by
      simp only [List.cons_append, List.nodup_cons] at hnd ⊢
      exact hnd.2
    have hanot : a ∉ a' :: pre := by
      simp only [List.cons_append, List.nodup_cons] at hnd
      intro h
      exact hnd.1 (by
        rcases List.mem_cons.1 h with h | h
        · exact List.mem_cons.2 (Or.inl h)
        · exact List.mem_cons.2 (Or.inr (List.mem_append_left _ h)))
    have ih := @IsChain.remove es es' (a' :: pre) (entryAt es a).next x post
      hnd' (by simpa only [List.cons_append, IsChain] using hc.2)
      (by
        intro i hi hl
        apply hag i
        · simp only [List.cons_append, List.mem_cons] at hi ⊢
          exact Or.inr hi
        · rw [List.getLast?_cons_cons]; exact hl)
      (by
        intro p hp
        apply hlast p
        rw [List.getLast?_cons_cons]; exact hp)
    rw [if_neg hne'] at ih
    refine ⟨hc.1, ?_⟩
    have hnext : (entryAt es' a).next = (entryAt es a).next := by
      apply hag a (by simp)
      rw [List.getLast?_cons_cons]
      intro h
      exact hanot (List.mem_of_getLast?_eq_some h)
    rw [hnext]
    simpa only [List.cons_append, IsChain] using ih

/-- The table state produced by `erase` is well formed, and its chains are the old
chains without the erased slot. -/
theorem WF_unlink {m : HashMap K V} (hwf : WF hasher eq m)
    {chain : Nat → List Nat} (hch : ChainsOk m chain) {x : Nat} {kv : K × V}
    (hkv : (entryAt m.entries x).kvp = some kv) {pre post : List Nat}
    (hsplit : chain ((entryAt m.entries x).hash % m.capacity) = pre ++ x :: post)
    (bs2 : List Int) (es2 : List (Entry K V))
    (hlenB : bs2.length = m.capacity) (hlenE : es2.length = m.capacity)
    (hx2 : entryAt es2 x =
      { hash := (entryAt m.entries x).hash, kvp := none, next := m.deletedList })
    (hsame : ∀ i, i ≠ x → (entryAt es2 i).kvp = (entryAt m.entries i).kvp ∧
      (entryAt es2 i).hash = (entryAt m.entries i).hash)
    (hnext : ∀ i, i ≠ x → pre.getLast? ≠ some i →
      (entryAt es2 i).next = (entryAt m.entries i).next)
    (hprev : ∀ p, pre.getLast? = some p → (entryAt es2 p).next = (entryAt m.entries x).next)
    (hbs : ∀ b, b ≠ (entryAt m.entries x).hash % m.capacity →
      bucketAt bs2 b = bucketAt m.buckets b)
    (hbx : bucketAt bs2 ((entryAt m.entries x).hash % m.capacity) =
      if pre = [] then (entryAt m.entries x).next
      else bucketAt m.buckets ((entryAt m.entries x).hash % m.capacity)) :
    WF hasher eq (HashMap.mk bs2 es2 m.capacity m.usedEntriesAmount
      (m.deletedEntriesAmount + 1) (x : Int)) ∧
    ChainsOk (HashMap.mk bs2 es2 m.capacity m.usedEntriesAmount
      (m.deletedEntriesAmount + 1) (x : Int))
      (fun b => (chain b).filter (fun i => decide (i ≠ x))) := by
  have hocc : (entryAt m.entries x).kvp ≠ none := by rw [hkv]; simp
  have hcap : 0 < m.capacity := hwf.capacity_pos hocc
  have hbxlt : (entryAt m.entries x).hash % m.capacity < m.capacity := Nat.mod_lt _ hcap
  have hkvp2x : (entryAt es2 x).kvp = none := by rw [hx2]
  have hndx := (hch _ hbxlt).2.1
  rw [hsplit] at hndx
  have hxpre : x ∉ pre := fun h =>
    (List.nodup_append.1 hndx).2.2 h (List.mem_cons_self _ _)
  have hxpost : x ∉ post := (List.nodup_cons.1 (List.nodup_append.1 hndx).2.1).1
  have hpre_occ : ∀ p, pre.getLast? = some p →
      (entryAt m.entries p).kvp ≠ none ∧
        (entryAt m.entries p).hash % m.capacity = (entryAt m.entries x).hash % m.capacity := by
    intro p hp
    have : p ∈ chain ((entryAt m.entries x).hash % m.capacity) := by
      rw [hsplit]; exact List.mem_append_left _ (List.mem_of_getLast?_eq_some hp)
    exact ((hch _ hbxlt).2.2 p).1 this
  have hchains : ChainsOk (HashMap.mk bs2 es2 m.capacity m.usedEntriesAmount
      (m.deletedEntriesAmount + 1) (x : Int))
      (fun b => (chain b).filter (fun i => decide (i ≠ x))) := by
    intro b hb
    have hb' : b < m.capacity := hb
    obtain ⟨hic, hnd, hmem⟩ := hch b hb'
    refine ⟨?_, hnd.filter _, ?_⟩
    · show IsChain es2 (bucketAt bs2 b) ((chain b).filter (fun i => decide (i ≠ x)))
      by_cases hbb : b = (entryAt m.entries x).hash % m.capacity
      · subst hbb
        rw [hbx, hsplit]
        have hfilter : (pre ++ x :: post).filter (fun i => decide (i ≠ x)) = pre ++ post := by
          rw [List.filter_append, List.filter_cons]
          simp only [ne_eq, not_true_eq_false, decide_False, Bool.false_eq_true, if_false]
          rw [List.filter_eq_self.2, List.filter_eq_self.2]
          · intro a ha
            have : a ≠ x := fun h => hxpost (h ▸ ha)
            simpa using this
          · intro a ha
            have : a ≠ x := fun h => hxpre (h ▸ ha)
            simpa using this
        rw [hfilter]
        rw [hsplit] at hic
        apply IsChain.remove pre _ x post hndx hic
        · intro i hi hl
          apply hnext i _ hl
          rintro rfl
          rcases List.mem_append.1 hi with h | h
          · exact hxpre h
          · exact hxpost h
        · exact hprev
      · have hxb : x ∉ chain b := fun h => hbb ((hmem x).1 h).2.symm
        have hfilter : (chain b).filter (fun i => decide (i ≠ x)) = chain b := by
          rw [List.filter_eq_self]
          intro a ha
          have : a ≠ x := fun h => hxb (h ▸ ha)
          simpa using this
        rw [hfilter, hbs b hbb]
        apply IsChain.congr _ _ _ hic
        intro i hi
        apply hnext i (fun h => hxb (h ▸ hi))
        intro hl
        exact hbb (((hmem i).1 hi).2.symm.trans (hpre_occ i hl).2)
    · intro i
      show i ∈ (chain b).filter (fun i => decide (i ≠ x)) ↔
        ((entryAt es2 i).kvp ≠ none ∧ (entryAt es2 i).hash % m.capacity = b)
      rw [List.mem_filter, hmem i]
      by_cases hi : i = x
      · subst hi
        simp [hkvp2x]
      · rw [(hsame i hi).1, (hsame i hi).2]
        simp [hi]
  refine ⟨⟨hlenB, hlenE, hwf.used_le, ?_, ?_, ?_, ⟨_, hchains⟩, ?_⟩, hchains⟩
  · intro i h
    have hi : i ≠ x := by
      rintro rfl
      exact h hkvp2x
    have h' : (entryAt es2 i).kvp ≠ none := h
    rw [(hsame i hi).1] at h'
    exact hwf.occupied_lt i h'
  · intro i kvi h
    have h' : (entryAt es2 i).kvp = some kvi := h
    have hi : i ≠ x := by
      rintro rfl
      rw [hkvp2x] at h'
      cases h'
    rw [(hsame i hi).1] at h'
    show (entryAt es2 i).hash = hasher kvi.1
    rw [(hsame i hi).2]
    exact hwf.hash_cached i kvi h'
  · intro i j kvi kvj hi hj he
    have hi' : (entryAt es2 i).kvp = some kvi := hi
    have hj' : (entryAt es2 j).kvp = some kvj := hj
    have hix : i ≠ x := by
      rintro rfl
      rw [hkvp2x] at hi'
      cases hi'
    have hjx : j ≠ x := by
      rintro rfl
      rw [hkvp2x] at hj'
      cases hj'
    rw [(hsame i hix).1] at hi'
    rw [(hsame j hjx).1] at hj'
    exact hwf.keys_unique i j kvi kvj hi' hj' he
  · obtain ⟨free, hfc, hnd, hlen, hmem⟩ := hwf.free_list
    have hxfree : x ∉ free := fun h => hocc ((hmem x).1 h).2
    refine ⟨x :: free, ?_, List.nodup_cons.2 ⟨hxfree, hnd⟩, ?_, ?_⟩
    · show IsChain es2 (x : Int) (x :: free)
      simp only [IsChain, true_and]
      rw [hx2]
      apply IsChain.congr _ _ _ hfc
      intro i hi
      apply hnext i (fun h => hxfree (h ▸ hi))
      intro hl
      exact (hpre_occ i hl).1 ((hmem i).1 hi).2
    · simp [hlen]
    · intro i
      show i ∈ x :: free ↔ (i < m.usedEntriesAmount ∧ (entryAt es2 i).kvp = none)
      by_cases hi : i = x
      · subst hi
        simp [hkvp2x, hwf.occupied_lt i hocc]
      · rw [(hsame i hi).1, List.mem_cons, hmem i]
        simp [hi]

end HashMap

/-! ## Iteration order -/

namespace HashMap

variable {K V : Type} {hasher : K → Nat} {eq : K → K → Bool}

theorem orderFrom_of_lt (capacity : Nat) (chain : Nat → List Nat) {b : Nat}
    (h : b < capacity) :
    orderFrom capacity chain b = chainIterators chain b ++ orderFrom capacity chain (b + 1) := by
  unfold orderFrom
  have e : capacity - b = (capacity - (b + 1)) + 1 := by omega
  rw [e, List.range'_succ, List.flatMap_cons]

theorem orderFrom_of_ge (capacity : Nat) (chain : Nat → List Nat) {b : Nat}
    (h : capacity ≤ b) : orderFrom capacity chain b = [] := by
  unfold orderFrom
  have e : capacity - b = 0 := by omega
  rw [e]
  rfl

theorem orderFrom_congr (capacity : Nat) {chain chain' : Nat → List Nat} (b0 : Nat)
    (h : ∀ b, b0 ≤ b → b < capacity → chain' b = chain b) :
    orderFrom capacity chain' b0 = orderFrom capacity chain b0 := by
  unfold orderFrom
  apply List.flatMap_congr
  intro b hb
  rw [List.mem_range'_1] at hb
  unfold chainIterators
  rw [h b hb.1 (by omega)]

/-- The elements still to be visited after an entry whose chain continues with `post`
in bucket `b`. -/
theorem ChainsOk.head {m : HashMap K V} {chain : Nat → List Nat} (hch : ChainsOk m chain)
    {b : Nat} (hb : b < m.capacity) (hne : bucketAt m.buckets b ≠ -1) :
    ∃ (j : Nat) (rest : List Nat), bucketAt m.buckets b = (j : Int) ∧ chain b = j :: rest := by
  obtain ⟨hic, _, _⟩ := hch b hb
  cases hc : chain b with
  | nil =>
    rw [hc] at hic
    simp only [IsChain] at hic
    exact absurd hic hne
  | cons j rest =>
    rw [hc] at hic
    simp only [IsChain] at hic
    exact ⟨j, rest, hic.1, rfl⟩

theorem ChainsOk.nil_of_empty {m : HashMap K V} {chain : Nat → List Nat}
    (hch : ChainsOk m chain) {b : Nat} (hb : b < m.capacity)
    (he : bucketAt m.buckets b = -1) : chain b = [] :=
  (IsChain.head_eq_neg_one (hch b hb).1).1 he

/-- The bucket scan stops at the first bucket with a non-empty chain, or at `capacity`. -/
theorem scanBuckets_spec {m : HashMap K V} {chain : Nat → List Nat} (hch : ChainsOk m chain) :
    ∀ (k b0 : Nat), b0 + k = m.capacity → ∀ fuel, k + 1 ≤ fuel →
    ∃ b1 : Nat, scanBuckets m.buckets m.capacity fuel (b0 : Int) = some (b1 : Int) ∧
      b0 ≤ b1 ∧ b1 ≤ m.capacity ∧
      orderFrom m.capacity chain b0 = orderFrom m.capacity chain b1 ∧
      (b1 < m.capacity → bucketAt m.buckets b1 ≠ -1)
  | 0, b0, hk, fuel, hf => by
    obtain ⟨f, rfl⟩ : ∃ f, fuel = f + 1 := ⟨fuel - 1, by omega⟩
    refine ⟨b0, ?_, Nat.le_refl _, by omega, rfl, fun h => by omega⟩
    unfold scanBuckets
    have : ¬ ((b0 : Int) < (m.capacity : Int)) := by omega
    simp [this]
  | k + 1, b0, hk, fuel, hf => by
    obtain ⟨f, rfl⟩ : ∃ f, fuel = f + 1 := ⟨fuel - 1, by omega⟩
    have hb0 : b0 < m.capacity := by omega
    unfold scanBuckets
    by_cases he : bucketAt m.buckets b0 = -1
    · obtain ⟨b1, h1, h2, h3, h4, h5⟩ := scanBuckets_spec hch k (b0 + 1) (by omega) f (by omega)
      refine ⟨b1, ?_, by omega, h3, ?_, h5⟩
      · have hlt : (b0 : Int) < (m.capacity : Int) := by omega
        simp only [Int.toNat_ofNat, he, hlt, and_self, if_true]
        exact h1
      · rw [orderFrom_of_lt _ _ hb0, ← h4]
        unfold chainIterators
        rw [hch.nil_of_empty hb0 he]
        rfl
    · refine ⟨b0, ?_, Nat.le_refl _, by omega, rfl, fun _ => he⟩
      simp only [Int.toNat_ofNat, he, and_false, if_false]

theorem ChainsOk.bucket_of_mem {m : HashMap K V} {chain : Nat → List Nat}
    (hch : ChainsOk m chain) {b : Nat} (hb : b < m.capacity) {i : Nat} (hi : i ∈ chain b) :
    (entryAt m.entries i).hash % m.capacity = b :=
  (((hch b hb).2.2 i).1 hi).2

/-- The outcome of the bucket scan, read through the iteration order. -/
theorem scanBuckets_order {m : HashMap K V} {chain : Nat → List Nat} (hch : ChainsOk m chain)
    (b0 : Nat) (hb0 : b0 ≤ m.capacity) :
    ∃ b1 : Nat, scanBuckets m.buckets m.capacity (m.capacity + 1) (b0 : Int) = some (b1 : Int) ∧
      b1 ≤ m.capacity ∧
      ((b1 = m.capacity ∧ orderFrom m.capacity chain b0 = []) ∨
       (b1 < m.capacity ∧ ∃ (j : Nat) (rest : List Nat), bucketAt m.buckets b1 = (j : Int) ∧ chain b1 = j :: rest ∧
          (entryAt m.entries j).hash % m.capacity = b1 ∧
          orderFrom m.capacity chain b0 =
            { currentBucketIndex := (b1 : Int), currentEntryIndex := (j : Int) } ::
              (chainIterators (fun _ => rest) b1 ++ orderFrom m.capacity chain (b1 + 1)))) := by
  obtain ⟨b1, h1, _, h3, h4, h5⟩ :=
    scanBuckets_spec hch (m.capacity - b0) b0 (by omega) (m.capacity + 1) (by omega)
  refine ⟨b1, h1, h3, ?_⟩
  by_cases hlt : b1 < m.capacity
  · right
    obtain ⟨j, rest, hj, hc⟩ := hch.head hlt (h5 hlt)
    refine ⟨hlt, j, rest, hj, hc, hch.bucket_of_mem hlt (by rw [hc]; exact List.mem_cons_self _ _), ?_⟩
    rw [h4, orderFrom_of_lt _ _ hlt]
    unfold chainIterators
    rw [hc]
    rfl
  · left
    refine ⟨by omega, ?_⟩
    rw [h4]
    exact orderFrom_of_ge _ _ (by omega)

/-- The method `begin()` returns the first element of the iteration order, or the end
iterator when there is none. -/
theorem begin_spec {m : HashMap K V} {chain : Nat → List Nat} (hch : ChainsOk m chain) :
    ∃ r, begin m = some r ∧
      ((orderFrom m.capacity chain 0 = [] ∧ r = end_ m) ∨
       (∃ (b i : Nat) (post : List Nat), r = { currentBucketIndex := (b : Int), currentEntryIndex := (i : Int) } ∧
          b < m.capacity ∧ chain b = i :: post ∧
          orderFrom m.capacity chain 0 = r ::
            (chainIterators (fun _ => post) b ++ orderFrom m.capacity chain (b + 1)))) := by
  obtain ⟨b1, h1, h2, h3⟩ := scanBuckets_order hch 0 (Nat.zero_le _)
  unfold begin
  have h1' : scanBuckets m.buckets m.capacity (m.capacity + 1) 0 = some (b1 : Int) := h1
  simp only [h1', Option.bind_eq_bind, Option.some_bind, Int.toNat_ofNat]
  rcases h3 with ⟨hb, ho⟩ | ⟨hb, j, rest, hj, hc, hh, ho⟩
  · refine ⟨_, rfl, Or.inl ⟨ho, ?_⟩⟩
    have : ¬ ((b1 : Int) < (m.capacity : Int)) := by omega
    rw [if_neg this]
    rfl
  · refine ⟨_, rfl, Or.inr ⟨b1, j, rest, ?_, hb, hc, ?_⟩⟩
    · have : (b1 : Int) < (m.capacity : Int) := by omega
      rw [if_pos this, hj, mkIterator_natCast, hh]
    · have : (b1 : Int) < (m.capacity : Int) := by omega
      rw [if_pos this, hj, mkIterator_natCast, hh]
      exact ho

/-- The increment moves to the next element of the iteration order, or to an iterator
equal to the end iterator when there is none. -/
theorem incr_spec {m : HashMap K V} {chain : Nat → List Nat} (hch : ChainsOk m chain)
    {b i : Nat} {pre post : List Nat} (hb : b < m.capacity) (hc : chain b = pre ++ i :: post) :
    ∃ r, incr m { currentBucketIndex := (b : Int), currentEntryIndex := (i : Int) } = some r ∧
      ((chainIterators (fun _ => post) b ++ orderFrom m.capacity chain (b + 1) = [] ∧
          r.currentEntryIndex = -1) ∨
       (∃ (b' i' : Nat) (pre' post' : List Nat), r = Iterator.mk (b' : Int) (i' : Int) ∧
          b' < m.capacity ∧ chain b' = pre' ++ i' :: post' ∧
          chainIterators (fun _ => post) b ++ orderFrom m.capacity chain (b + 1) = r ::
            (chainIterators (fun _ => post') b' ++ orderFrom m.capacity chain (b' + 1)))) := by
  have hic := (hch b hb).1
  rw [hc] at hic
  have hsuf := IsChain.suffix pre _ i post hic
  unfold incr
  have hi1 : ¬ ((i : Int) = -1) := by omega
  simp only [hi1, if_false, Int.toNat_ofNat]
  cases post with
  | cons j post' =>
    simp only [IsChain] at hsuf
    have hj1 : (entryAt m.entries i).next ≠ -1 := by rw [hsuf.1]; omega
    rw [if_pos hj1]
    refine ⟨_, rfl, Or.inr ⟨b, j, pre ++ [i], post', ?_, hb, ?_, ?_⟩⟩
    · rw [hsuf.1]
    · rw [hc]; simp
    · rw [hsuf.1]
      simp [chainIterators]
  | nil =>
    simp only [IsChain] at hsuf
    have hj1 : ¬ ((entryAt m.entries i).next ≠ -1) := by rw [hsuf]; simp
    rw [if_neg hj1]
    obtain ⟨b1, h1, h2, h3⟩ := scanBuckets_order hch (b + 1) (by omega)
    have h1' : scanBuckets m.buckets m.capacity (m.capacity + 1) ((b : Int) + 1)
        = some (b1 : Int) := by
      have : ((b : Int) + 1) = ((b + 1 : Nat) : Int) := by push_cast; rfl
      rw [this]; exact h1
    simp only [h1', Option.bind_eq_bind, Option.some_bind, Int.toNat_ofNat]
    rcases h3 with ⟨hb1, ho⟩ | ⟨hb1, j, rest, hj, hcj, hh, ho⟩
    · have : ¬ ((b1 : Int) < (m.capacity : Int)) := by omega
      rw [if_neg this]
      refine ⟨_, rfl, Or.inl ⟨?_, rfl⟩⟩
      rw [ho]
      simp [chainIterators]
    · have : (b1 : Int) < (m.capacity : Int) := by omega
      rw [if_pos this]
      refine ⟨_, rfl, Or.inr ⟨b1, j, [], rest, ?_, hb1, ?_, ?_⟩⟩
      · rw [hj]
      · rw [hcj]; rfl
      · rw [ho, hj]
        simp [chainIterators]

/-- The traversal from an element of the iteration order visits that element and then
the rest of the order. -/
theorem iterateFrom_spec {m : HashMap K V} {chain : Nat → List Nat} (hch : ChainsOk m chain) :
    ∀ (n : Nat) (b i : Nat) (pre post : List Nat), b < m.capacity →
    chain b = pre ++ i :: post →
    (chainIterators (fun _ => post) b ++ orderFrom m.capacity chain (b + 1)).length = n →
    ∀ fuel, n + 2 ≤ fuel →
    iterateFrom m fuel { currentBucketIndex := (b : Int), currentEntryIndex := (i : Int) } =
      some ({ currentBucketIndex := (b : Int), currentEntryIndex := (i : Int) } ::
        (chainIterators (fun _ => post) b ++ orderFrom m.capacity chain (b + 1)))
  | n, b, i, pre, post, hb, hc, hn, fuel, hf => by
    obtain ⟨f, rfl⟩ : ∃ f, fuel = f + 1 := ⟨fuel - 1, by omega⟩
    obtain ⟨r, hr, hcase⟩ := incr_spec hch hb hc
    unfold iterateFrom
    have hi1 : ¬ ((i : Int) = -1) := by omega
    simp only [hi1, if_false, hr, Option.bind_eq_bind, Option.some_bind]
    rcases hcase with ⟨hnil, hend⟩ | ⟨b', i', pre', post', hr', hb', hc', hcons⟩
    · obtain ⟨f', rfl⟩ : ∃ f', f = f' + 1 := ⟨f - 1, by omega⟩
      rw [hnil]
      unfold iterateFrom
      simp [hend]
    · rw [hcons] at hn ⊢
      simp only [List.length_cons] at hn
      have ih := iterateFrom_spec hch (n - 1) b' i' pre' post' hb' hc' (by omega) f (by omega)
      rw [hr', ih]
      rfl

end HashMap

/-! ## The elements of the iteration order -/

namespace HashMap

variable {K V : Type} {hasher : K → Nat} {eq : K → K → Bool}

theorem mem_chainIterators (chain : Nat → List Nat) (b : Nat) (it : Iterator) :
    it ∈ chainIterators chain b ↔ ∃ i, i ∈ chain b ∧ it = Iterator.mk (b : Int) (i : Int) := by
  unfold chainIterators
  rw [List.mem_map]
  constructor
  · rintro ⟨i, hi, rfl⟩
    exact ⟨i, hi, rfl⟩
  · rintro ⟨i, hi, rfl⟩
    exact ⟨i, hi, rfl⟩

theorem mem_orderFrom (capacity : Nat) (chain : Nat → List Nat) (b0 : Nat) (it : Iterator) :
    it ∈ orderFrom capacity chain b0 ↔
      ∃ b i, b0 ≤ b ∧ b < capacity ∧ i ∈ chain b ∧ it = Iterator.mk (b : Int) (i : Int) := by
  unfold orderFrom
  rw [List.mem_flatMap]
  constructor
  · rintro ⟨b, hb, hit⟩
    rw [List.mem_range'_1] at hb
    obtain ⟨i, hi, rfl⟩ := (mem_chainIterators chain b it).1 hit
    exact ⟨b, i, hb.1, by omega, hi, rfl⟩
  · rintro ⟨b, i, h1, h2, hi, rfl⟩
    refine ⟨b, ?_, (mem_chainIterators chain b _).2 ⟨i, hi, rfl⟩⟩
    rw [List.mem_range'_1]
    omega

theorem nodup_orderFrom {m : HashMap K V} {chain : Nat → List Nat} (hch : ChainsOk m chain)
    (b0 : Nat) : (orderFrom m.capacity chain b0).Nodup := by
  unfold orderFrom
  rw [List.nodup_flatMap]
  constructor
  · intro b hb
    rw [List.mem_range'_1] at hb
    unfold chainIterators
    apply List.Nodup.map _ (hch b (by omega)).2.1
    intro i j h
    have := congrArg Iterator.currentEntryIndex h
    simp only at this
    omega
  · apply List.Pairwise.imp _ (List.nodup_range' b0 (m.capacity - b0))
    intro b b' hne it h1 h2
    obtain ⟨i, _, rfl⟩ := (mem_chainIterators chain b it).1 h1
    obtain ⟨i', _, h⟩ := (mem_chainIterators chain b' _).1 h2
    have := congrArg Iterator.currentBucketIndex h
    simp only at this
    omega

/-- Two elements of the iteration order with the same entry index are equal. -/
theorem orderFrom_inj {m : HashMap K V} {chain : Nat → List Nat} (hch : ChainsOk m chain)
    {b0 : Nat} {it it' : Iterator} (h : it ∈ orderFrom m.capacity chain b0)
    (h' : it' ∈ orderFrom m.capacity chain b0)
    (he : it.currentEntryIndex.toNat = it'.currentEntryIndex.toNat) : it = it' := by
  obtain ⟨b, i, _, hb, hi, rfl⟩ := (mem_orderFrom _ _ _ _).1 h
  obtain ⟨b', i', _, hb', hi', rfl⟩ := (mem_orderFrom _ _ _ _).1 h'
  simp only [Int.toNat_ofNat] at he
  subst he
  have h1 := hch.bucket_of_mem hb hi
  have h2 := hch.bucket_of_mem hb' hi'
  rw [← h1, ← h2]

theorem nodup_order_entries {m : HashMap K V} {chain : Nat → List Nat}
    (hch : ChainsOk m chain) :
    ((orderFrom m.capacity chain 0).map (fun it => it.currentEntryIndex.toNat)).Nodup :=
  List.Nodup.map_on (fun _ h _ h' he => orderFrom_inj hch h h' he) (nodup_orderFrom hch 0)

/-- The entry indices of the iteration order are exactly the occupied slots. -/
theorem mem_order_entries {m : HashMap K V} (hwf : WF hasher eq m) {chain : Nat → List Nat}
    (hch : ChainsOk m chain) (i : Nat) :
    i ∈ (orderFrom m.capacity chain 0).map (fun it => it.currentEntryIndex.toNat) ↔
      (entryAt m.entries i).kvp ≠ none := by
  rw [List.mem_map]
  constructor
  · rintro ⟨it, hit, rfl⟩
    obtain ⟨b, j, _, hb, hj, rfl⟩ := (mem_orderFrom _ _ _ _).1 hit
    simp only [Int.toNat_ofNat]
    exact (((hch b hb).2.2 j).1 hj).1
  · intro hocc
    have hcap := hwf.capacity_pos hocc
    have hb : (entryAt m.entries i).hash % m.capacity < m.capacity := Nat.mod_lt _ hcap
    refine ⟨Iterator.mk (((entryAt m.entries i).hash % m.capacity : Nat) : Int) (i : Int), ?_, ?_⟩
    · rw [mem_orderFrom]
      exact ⟨_, i, Nat.zero_le _, hb, ((hch _ hb).2.2 i).2 ⟨hocc, rfl⟩, rfl⟩
    · simp

/-- The iteration order has `size()` elements. -/
theorem length_order {m : HashMap K V} (hwf : WF hasher eq m) {chain : Nat → List Nat}
    (hch : ChainsOk m chain) : (orderFrom m.capacity chain 0).length = size m := by
  obtain ⟨free, _, hnd, hlen, hmem⟩ := hwf.free_list
  have hperm : ((orderFrom m.capacity chain 0).map (fun it => it.currentEntryIndex.toNat) ++ free).Perm
      (List.range m.usedEntriesAmount) := by
    rw [List.perm_ext_iff_of_nodup _ (List.nodup_range _)]
    · intro i
      rw [List.mem_append, mem_order_entries hwf hch, hmem i, List.mem_range]
      constructor
      · rintro (h | h)
        · exact hwf.occupied_lt i h
        · exact h.1
      · intro h
        by_cases ho : (entryAt m.entries i).kvp = none
        · exact Or.inr ⟨h, ho⟩
        · exact Or.inl ho
    · rw [List.nodup_append]
      refine ⟨nodup_order_entries hch, hnd, ?_⟩
      intro i h1 h2
      exact ((mem_order_entries hwf hch i).1 h1) ((hmem i).1 h2).2
  have := hperm.length_eq
  simp only [List.length_append, List.length_map, List.length_range] at this
  unfold size
  omega

/-- The range-based traversal of a well-formed table returns, and visits the iteration
order. -/
theorem iterate_spec {m : HashMap K V} (hwf : WF hasher eq m) {chain : Nat → List Nat}
    (hch : ChainsOk m chain) : iterate m = some (orderFrom m.capacity chain 0) := by
  have hlen := length_order hwf hch
  have hsize : size m ≤ m.capacity := by
    unfold size
    have := hwf.used_le
    omega
  obtain ⟨r, hr, hcase⟩ := begin_spec hch
  unfold iterate
  simp only [hr, Option.bind_eq_bind, Option.some_bind]
  rcases hcase with ⟨hnil, hend⟩ | ⟨b, i, post, hr', hb, hc, hcons⟩
  · rw [hnil, hend, end_eq]
    unfold iterateFrom
    simp
  · rw [hcons] at hlen ⊢
    simp only [List.length_cons] at hlen
    rw [hr']
    exact iterateFrom_spec hch _ b i [] post hb hc rfl _ (by omega)

end HashMap

/-! ## Erasure -/

namespace HashMap

variable {K V : Type} {hasher : K → Nat} {eq : K → K → Bool}

/-- The predecessor search of `erase` returns the entry in front of the erased one in
its chain, or `-1` for the chain head. -/
theorem FindPreviousIndexOf_spec (hk : LawfulKeys hasher eq) {m : HashMap K V}
    (hwf : WF hasher eq m) {chain : Nat → List Nat} (hch : ChainsOk m chain) {x : Nat}
    {kv : K × V} (hkv : (entryAt m.entries x).kvp = some kv) {pre post : List Nat}
    (hsplit : chain ((entryAt m.entries x).hash % m.capacity) = pre ++ x :: post) :
    FindPreviousIndexOf eq m (((entryAt m.entries x).hash % m.capacity : Nat) : Int) (x : Int) =
      some ((pre.map Int.ofNat).getLastD (-1)) := by
  have hocc : (entryAt m.entries x).kvp ≠ none := by rw [hkv]; simp
  have hcap : 0 < m.capacity := hwf.capacity_pos hocc
  have hbx : (entryAt m.entries x).hash % m.capacity < m.capacity := Nat.mod_lt _ hcap
  obtain ⟨hic, hnd, hmem⟩ := hch _ hbx
  rw [hsplit] at hic hnd
  have hxpre : x ∉ pre := fun h =>
    (List.nodup_append.1 hnd).2.2 h (List.mem_cons_self _ _)
  unfold FindPreviousIndexOf
  rw [if_neg (by omega)]
  simp only [Int.toNat_ofNat, hkv, Option.bind_eq_bind, Option.some_bind]
  apply FindPreviousIndexOf.loop_spec eq m.entries m.capacity kv.1 _ pre _ _ _ x post kv hic
  · intro j hj
    have hjc : j ∈ chain ((entryAt m.entries x).hash % m.capacity) := by
      rw [hsplit]; exact List.mem_append_left _ hj
    have hjo := ((hmem j).1 hjc).1
    obtain ⟨kvj, hkvj⟩ := Option.ne_none_iff_exists'.1 hjo
    refine ⟨lt_of_lt_of_le (hwf.occupied_lt j hjo) hwf.used_le, kvj, hkvj, ?_⟩
    rintro ⟨_, hej⟩
    exact hxpre ((hwf.keys_unique j x kvj kv hkvj hkv hej) ▸ hj)
  · exact lt_of_lt_of_le (hwf.occupied_lt x hocc) hwf.used_le
  · exact hkv
  · rfl
  · exact hk.refl _
  · have hlen := ChainsOk.length_le hwf hch hbx
    rw [hsplit] at hlen
    simp at hlen
    omega

/-- The arrays after the relinking and release steps of `erase`. -/
theorem erase_state {m : HashMap K V} (hwf : WF hasher eq m)
    {chain : Nat → List Nat} (hch : ChainsOk m chain) {x : Nat} {kv : K × V}
    (hkv : (entryAt m.entries x).kvp = some kv) {pre post : List Nat}
    (hsplit : chain ((entryAt m.entries x).hash % m.capacity) = pre ++ x :: post) :
    ∃ (bs2 : List Int) (es2 : List (Entry K V)),
      erase.release (erase.unlink m (((entryAt m.entries x).hash % m.capacity : Nat) : Int)
        ((pre.map Int.ofNat).getLastD (-1)) (x : Int)) (x : Int) =
        HashMap.mk bs2 es2 m.capacity m.usedEntriesAmount (m.deletedEntriesAmount + 1) (x : Int) ∧
      (entryAt (erase.unlink m (((entryAt m.entries x).hash % m.capacity : Nat) : Int)
        ((pre.map Int.ofNat).getLastD (-1)) (x : Int)).entries x).next =
        (entryAt m.entries x).next ∧
      bs2.length = m.capacity ∧ es2.length = m.capacity ∧
      entryAt es2 x =
        { hash := (entryAt m.entries x).hash, kvp := none, next := m.deletedList } ∧
      (∀ i, i ≠ x → (entryAt es2 i).kvp = (entryAt m.entries i).kvp ∧
        (entryAt es2 i).hash = (entryAt m.entries i).hash) ∧
      (∀ i, i ≠ x → pre.getLast? ≠ some i →
        (entryAt es2 i).next = (entryAt m.entries i).next) ∧
      (∀ p, pre.getLast? = some p → (entryAt es2 p).next = (entryAt m.entries x).next) ∧
      (∀ b, b ≠ (entryAt m.entries x).hash % m.capacity →
        bucketAt bs2 b = bucketAt m.buckets b) ∧
      bucketAt bs2 ((entryAt m.entries x).hash % m.capacity) =
        (if pre = [] then (entryAt m.entries x).next
         else bucketAt m.buckets ((entryAt m.entries x).hash % m.capacity)) := by
  have hocc : (entryAt m.entries x).kvp ≠ none := by rw [hkv]; simp
  have hcap : 0 < m.capacity := hwf.capacity_pos hocc
  have hbx : (entryAt m.entries x).hash % m.capacity < m.capacity := Nat.mod_lt _ hcap
  have hxlt : x < m.entries.length := by
    rw [hwf.entries_length]; exact lt_of_lt_of_le (hwf.occupied_lt x hocc) hwf.used_le
  obtain ⟨_, hnd, hmem⟩ := hch _ hbx
  rw [hsplit] at hnd
  have hxpre : x ∉ pre := fun h =>
    (List.nodup_append.1 hnd).2.2 h (List.mem_cons_self _ _)
  rcases List.eq_nil_or_concat pre with hnil | ⟨L, p, hconcat⟩
  · subst hnil
    have hm1 : erase.unlink m (((entryAt m.entries x).hash % m.capacity : Nat) : Int)
        ((([] : List Nat).map Int.ofNat).getLastD (-1)) (x : Int) =
        HashMap.mk (m.buckets.set ((entryAt m.entries x).hash % m.capacity)
          (entryAt m.entries x).next) m.entries m.capacity m.usedEntriesAmount
          m.deletedEntriesAmount m.deletedList := by
      unfold erase.unlink
      simp only [List.map_nil, List.getLastD_nil, ne_eq, not_true_eq_false, if_false,
        Int.toNat_ofNat]
    rw [hm1]
    refine ⟨_, _, rfl, rfl, ?_, ?_, ?_, ?_, ?_, ?_, ?_, ?_⟩
    · rw [List.length_set]; exact hwf.buckets_length
    · rw [List.length_set]; exact hwf.entries_length
    · simp only [Int.toNat_ofNat]
      rw [entryAt_set_eq _ hxlt]
    · intro i hi
      simp only [Int.toNat_ofNat]
      rw [entryAt_set_ne _ (Ne.symm hi)]
      exact ⟨rfl, rfl⟩
    · intro i hi _
      simp only [Int.toNat_ofNat]
      rw [entryAt_set_ne _ (Ne.symm hi)]
    · intro p hp
      simp at hp
    · intro b hb
      exact bucketAt_set_ne _ (Ne.symm hb)
    · rw [if_pos rfl]
      exact bucketAt_set_eq _ (by rw [hwf.buckets_length]; exact hbx)
  · rw [List.concat_eq_append] at hconcat
    subst hconcat
    have hpx : p ≠ x := fun h => hxpre (h ▸ List.mem_append_right _ (List.mem_singleton_self p))
    have hpocc : (entryAt m.entries p).kvp ≠ none :=
      ((hmem p).1 (by rw [hsplit]; simp)).1
    have hplt : p < m.entries.length := by
      rw [hwf.entries_length]; exact lt_of_lt_of_le (hwf.occupied_lt p hpocc) hwf.used_le
    have hlast : ((L ++ [p]).map Int.ofNat).getLastD (-1) = (p : Int) := by
      rw [List.map_append, List.map_singleton, List.getLastD_concat]
      rfl
    have hm1 : erase.unlink m (((entryAt m.entries x).hash % m.capacity : Nat) : Int)
        (((L ++ [p]).map Int.ofNat).getLastD (-1)) (x : Int) =
        HashMap.mk m.buckets (m.entries.set p
          { hash := (entryAt m.entries p).hash, kvp := (entryAt m.entries p).kvp,
            next := (entryAt m.entries x).next }) m.capacity m.usedEntriesAmount
          m.deletedEntriesAmount m.deletedList := by
      rw [hlast]
      unfold erase.unlink
      have : (p : Int) ≠ -1 := by omega
      simp only [this, ne_eq, not_false_eq_true, if_true, Int.toNat_ofNat]
    rw [hm1]
    have hxlt' : x < (m.entries.set p
          { hash := (entryAt m.entries p).hash, kvp := (entryAt m.entries p).kvp,
            next := (entryAt m.entries x).next }).length := by
      rw [List.length_set]; exact hxlt
    refine ⟨_, _, rfl, ?_, hwf.buckets_length, ?_, ?_, ?_, ?_, ?_, ?_, ?_⟩
    · show (entryAt (m.entries.set p _) x).next = _
      rw [entryAt_set_ne _ hpx]
    · show ((m.entries.set p _).set _ _).length = _
      rw [List.length_set, List.length_set]; exact hwf.entries_length
    · show entryAt ((m.entries.set p _).set _ _) x = _
      simp only [Int.toNat_ofNat]
      rw [entryAt_set_eq _ hxlt', entryAt_set_ne _ hpx]
    · intro i hi
      show (entryAt ((m.entries.set p _).set _ _) i).kvp = _ ∧
        (entryAt ((m.entries.set p _).set _ _) i).hash = _
      simp only [Int.toNat_ofNat]
      rw [entryAt_set_ne _ (Ne.symm hi)]
      by_cases hip : i = p
      · subst hip
        rw [entryAt_set_eq _ hplt]
        exact ⟨rfl, rfl⟩
      · rw [entryAt_set_ne _ (Ne.symm hip)]
        exact ⟨rfl, rfl⟩
    · intro i hi hl
      show (entryAt ((m.entries.set p _).set _ _) i).next = _
      simp only [Int.toNat_ofNat]
      rw [entryAt_set_ne _ (Ne.symm hi)]
      have hip : i ≠ p := by
        rintro rfl
        exact hl (List.getLast?_concat _)
      rw [entryAt_set_ne _ (Ne.symm hip)]
    · intro q hq
      rw [List.getLast?_concat] at hq
      have hqp : p = q := Option.some.inj hq
      subst hqp
      show (entryAt ((m.entries.set p _).set _ _) p).next = _
      simp only [Int.toNat_ofNat]
      rw [entryAt_set_ne _ (Ne.symm hpx), entryAt_set_eq _ hplt]
    · intro b _
      rfl
    · have : ¬ (L ++ [p] = []) := by simp
      rw [if_neg this]

/-- The iterator returned by `erase`, read through the iteration order of the table
after the erasure. -/
theorem erase.successor_spec {m : HashMap K V} {chain : Nat → List Nat}
    (hch : ChainsOk m chain) {b : Nat} (hb : b < m.capacity) (post : List Nat) (next : Int)
    (hpost : (post = [] ∧ next = -1) ∨
      ∃ (j : Nat) (post' : List Nat), post = j :: post' ∧ next = (j : Int) ∧
        (entryAt m.entries j).hash % m.capacity = b) :
    ∃ r, erase.successor m (b : Int) next = some r ∧
      ((chainIterators (fun _ => post) b ++ orderFrom m.capacity chain (b + 1) = [] ∧
          r = end_ m) ∨
        ∃ rest, chainIterators (fun _ => post) b ++ orderFrom m.capacity chain (b + 1) =
          r :: rest) := by
  unfold erase.successor
  rcases hpost with ⟨rfl, rfl⟩ | ⟨j, post', rfl, rfl, hh⟩
  · simp only [ne_eq, not_true_eq_false, if_false]
    obtain ⟨b1, h1, h2, h3⟩ := scanBuckets_order hch (b + 1) (by omega)
    have h1' : scanBuckets m.buckets m.capacity (m.capacity + 1) ((b : Int) + 1)
        = some (b1 : Int) := by
      have : ((b : Int) + 1) = ((b + 1 : Nat) : Int) := by push_cast; rfl
      rw [this]; exact h1
    simp only [h1', Option.bind_eq_bind, Option.some_bind, Int.toNat_ofNat]
    rcases h3 with ⟨hb1, ho⟩ | ⟨hb1, j, rest, hj, hcj, hh, ho⟩
    · have : ¬ ((b1 : Int) < (m.capacity : Int)) := by omega
      rw [if_neg this]
      refine ⟨_, rfl, Or.inl ⟨?_, rfl⟩⟩
      rw [ho]
      simp [chainIterators]
    · have : (b1 : Int) < (m.capacity : Int) := by omega
      rw [if_pos this]
      refine ⟨_, rfl, Or.inr ⟨chainIterators (fun _ => rest) b1 ++
        orderFrom m.capacity chain (b1 + 1), ?_⟩⟩
      rw [ho, hj, mkIterator_natCast, hh]
      simp [chainIterators]
  · have : (j : Int) ≠ -1 := by omega
    rw [if_pos this]
    refine ⟨_, rfl, Or.inr ⟨chainIterators (fun _ => post') b ++
      orderFrom m.capacity chain (b + 1), ?_⟩⟩
    rw [mkIterator_natCast, hh]
    simp [chainIterators]

theorem erase_spec (hk : LawfulKeys hasher eq) {m : HashMap K V}
    (hwf : WF hasher eq m) {chain : Nat → List Nat} (hch : ChainsOk m chain) {x : Nat}
    {kv : K × V} (hkv : (entryAt m.entries x).kvp = some kv) {pre post : List Nat}
    (hsplit : chain ((entryAt m.entries x).hash % m.capacity) = pre ++ x :: post)
    (position : Iterator) (hpos : position.currentEntryIndex = (x : Int)) :
    ∃ (r : Iterator) (m' : HashMap K V), erase eq m position = some (r, m') ∧
      WF hasher eq m' ∧
      ChainsOk m' (fun b => (chain b).filter (fun i => decide (i ≠ x))) ∧
      m'.capacity = m.capacity ∧ m'.usedEntriesAmount = m.usedEntriesAmount ∧
      m'.deletedEntriesAmount = m.deletedEntriesAmount + 1 ∧ m'.deletedList = (x : Int) ∧
      (entryAt m'.entries x).kvp = none ∧
      (∀ i, i ≠ x → (entryAt m'.entries i).kvp = (entryAt m.entries i).kvp ∧
        (entryAt m'.entries i).hash = (entryAt m.entries i).hash) ∧
      ((chainIterators (fun _ => post) ((entryAt m.entries x).hash % m.capacity) ++
          orderFrom m.capacity chain ((entryAt m.entries x).hash % m.capacity + 1) = [] ∧
          r = end_ m') ∨
        ∃ rest, chainIterators (fun _ => post) ((entryAt m.entries x).hash % m.capacity) ++
          orderFrom m.capacity chain ((entryAt m.entries x).hash % m.capacity + 1) =
            r :: rest) := by
  have hocc : (entryAt m.entries x).kvp ≠ none := by rw [hkv]; simp
  have hcap : 0 < m.capacity := hwf.capacity_pos hocc
  have hbx : (entryAt m.entries x).hash % m.capacity < m.capacity := Nat.mod_lt _ hcap
  have hxlt : x < m.entries.length := by
    rw [hwf.entries_length]; exact lt_of_lt_of_le (hwf.occupied_lt x hocc) hwf.used_le
  have hprev := FindPreviousIndexOf_spec hk hwf hch hkv hsplit
  obtain ⟨bs2, es2, hstate, hnextx, hlenB, hlenE, hx2, hsame, hnext, hprv, hbs, hbxs⟩ :=
    erase_state hwf hch hkv hsplit
  obtain ⟨hwf2, hch2⟩ := WF_unlink hwf hch hkv hsplit bs2 es2 hlenB hlenE hx2 hsame hnext hprv
    hbs hbxs
  obtain ⟨hic, hnd, hmem⟩ := hch _ hbx
  rw [hsplit] at hic hnd
  have hsuf := IsChain.suffix pre _ x post hic
  have hxpost : x ∉ post := (List.nodup_cons.1 (List.nodup_append.1 hnd).2.1).1
  have hsucc := erase.successor_spec hch2 (b := (entryAt m.entries x).hash % m.capacity) hbx
    post (entryAt m.entries x).next (by
      cases post with
      | nil =>
        simp only [IsChain] at hsuf
        exact Or.inl ⟨rfl, hsuf⟩
      | cons j post' =>
        simp only [IsChain] at hsuf
        refine Or.inr ⟨j, post', rfl, hsuf.1, ?_⟩
        have hjx : j ≠ x := fun h => hxpost (h ▸ List.mem_cons_self _ _)
        show (entryAt es2 j).hash % m.capacity = _
        rw [(hsame j hjx).2]
        exact hch.bucket_of_mem hbx (by rw [hsplit]; simp))
  obtain ⟨r, hr, hcase⟩ := hsucc
  have hcongr : orderFrom m.capacity (fun b => (chain b).filter (fun i => decide (i ≠ x)))
      ((entryAt m.entries x).hash % m.capacity + 1) =
      orderFrom m.capacity chain ((entryAt m.entries x).hash % m.capacity + 1) := by
    apply orderFrom_congr
    intro b hb1 hb2
    rw [List.filter_eq_self]
    intro a ha
    have : a ≠ x := by
      rintro rfl
      have := hch.bucket_of_mem hb2 ha
      omega
    simpa using this
  refine ⟨r, HashMap.mk bs2 es2 m.capacity m.usedEntriesAmount (m.deletedEntriesAmount + 1)
    (x : Int), ?_, hwf2, hch2, rfl, rfl, rfl, rfl, ?_, hsame, ?_⟩
  · unfold erase
    simp only [hpos, Int.toNat_ofNat, Option.bind_eq_bind, hprev, Option.some_bind, hnextx,
      hstate]
    rw [if_neg (by omega)]
    have hr' : erase.successor (HashMap.mk bs2 es2 m.capacity m.usedEntriesAmount
      (m.deletedEntriesAmount + 1) (x : Int))
      (((entryAt m.entries x).hash % m.capacity : Nat) : Int) (entryAt m.entries x).next
        = some r := hr
    rw [hr']
    rfl
  · show (entryAt es2 x).kvp = none
    rw [hx2]
  · have hcase' : (chainIterators (fun _ => post) ((entryAt m.entries x).hash % m.capacity) ++
          orderFrom m.capacity (fun b => (chain b).filter (fun i => decide (i ≠ x)))
            ((entryAt m.entries x).hash % m.capacity + 1) = [] ∧
          r = end_ (HashMap.mk bs2 es2 m.capacity m.usedEntriesAmount
            (m.deletedEntriesAmount + 1) (x : Int))) ∨
        ∃ rest, chainIterators (fun _ => post) ((entryAt m.entries x).hash % m.capacity) ++
          orderFrom m.capacity (fun b => (chain b).filter (fun i => decide (i ≠ x)))
            ((entryAt m.entries x).hash % m.capacity + 1) = r :: rest := hcase
    rw [hcongr] at hcase'
    exact hcase'

end HashMap

/-! ## Lookup outcomes -/

namespace HashMap

variable {K V : Type} {hasher : K → Nat} {eq : K → K → Bool}

theorem findEntry_some_iff (hk : LawfulKeys hasher eq) {m : HashMap K V}
    (hwf : WF hasher eq m) (key : K) (kv : K × V) :
    findEntry hasher eq m key = some (some kv) ↔
      ∃ i, (entryAt m.entries i).kvp = some kv ∧ eq key kv.1 = true := by
  constructor
  · intro h
    rcases TryFindEntryIndex_cases hk hwf key with ⟨_, habs⟩ | ⟨i, kv', _, hkv', he⟩
    · rw [findEntry_absent hwf habs] at h
      cases h
    · rw [findEntry_present hk hwf hkv' he] at h
      have : kv' = kv := Option.some.inj (Option.some.inj h)
      subst this
      exact ⟨i, hkv', he⟩
  · rintro ⟨i, hkv, he⟩
    exact findEntry_present hk hwf hkv he

theorem findEntry_none_iff (hk : LawfulKeys hasher eq) {m : HashMap K V}
    (hwf : WF hasher eq m) (key : K) :
    findEntry hasher eq m key = some none ↔
      ∀ i kv, (entryAt m.entries i).kvp = some kv → eq key kv.1 = false := by
  constructor
  · intro h
    rcases TryFindEntryIndex_cases hk hwf key with ⟨_, habs⟩ | ⟨i, kv', _, hkv', he⟩
    · exact habs
    · rw [findEntry_present hk hwf hkv' he] at h
      cases h
  · exact findEntry_absent hwf

theorem findEntry_none_iff_find (hk : LawfulKeys hasher eq) {m : HashMap K V}
    (hwf : WF hasher eq m) (key : K) :
    findEntry hasher eq m key = some none ↔ find hasher eq m key = some (end_ m) := by
  rw [findEntry_none_iff hk hwf, find_eq_end_iff hk hwf]

/-- The lookup outcome after a creation: the new pair for keys equal to the new key,
the old outcome for all other keys. -/
theorem findEntry_after_create (hk : LawfulKeys hasher eq) {m m' : HashMap K V}
    (hwf : WF hasher eq m) (hwf' : WF hasher eq m') {x : Nat} {k : K} {v : V}
    (hfree : (entryAt m.entries x).kvp = none)
    (hnew : (entryAt m'.entries x).kvp = some (k, v))
    (hsame : ∀ i, i ≠ x → (entryAt m'.entries i).kvp = (entryAt m.entries i).kvp ∧
      (entryAt m'.entries i).hash = (entryAt m.entries i).hash) :
    findEntry hasher eq m' k = some (some (k, v)) ∧
    ∀ k', eq k' k = false → findEntry hasher eq m' k' = findEntry hasher eq m k' := by
  refine ⟨findEntry_present hk hwf' hnew (hk.refl k), ?_⟩
  intro k' hne
  apply findEntry_congr hk hwf hwf'
  intro kv he
  constructor
  · rintro ⟨i, hi⟩
    by_cases hix : i = x
    · subst hix
      rw [hnew] at hi
      have : kv = (k, v) := (Option.some.inj hi).symm
      subst this
      rw [hne] at he
      cases he
    · rw [(hsame i hix).1] at hi
      exact ⟨i, hi⟩
  · rintro ⟨i, hi⟩
    have hix : i ≠ x := by
      rintro rfl
      rw [hfree] at hi
      cases hi
    exact ⟨i, by rw [(hsame i hix).1]; exact hi⟩

/-- The comparer `==` and the identity hash on natural numbers satisfy the assumptions
on the collaborators. -/
theorem lawfulKeys_nat : LawfulKeys natHash natEq where
  refl := by intro a; simp [natEq]
  symm := by intro a b h; simp [natEq] at h ⊢; exact h.symm
  trans := by intro a b c h1 h2; simp [natEq] at h1 h2 ⊢; exact h1.trans h2
  hash_eq := by intro a b h; simp [natEq, natHash] at h ⊢; exact h

/-- The creation paths keep a table well formed. -/
theorem WF_try_emplace (hk : LawfulKeys hasher eq) {m : HashMap K V}
    (hwf : WF hasher eq m) (hr : InRange m) (key : K) {A : Type} (ctor : A → V) (args : A)
    {res : Bool × Iterator × HashMap K V}
    (h : try_emplace hasher eq m key ctor args = some res) : WF hasher eq res.2.2 := by
  rcases TryFindEntryIndex_cases hk hwf key with ⟨_, habs⟩ | ⟨i, kv, _, hkv, he⟩
  · obtain ⟨x, m', hc, hwf', _⟩ := try_emplace_absent hk hwf hr key ctor args habs
    rw [hc] at h
    cases h
    exact hwf'
  · rw [try_emplace_present hk hwf key ctor args hkv he] at h
    cases h
    exact hwf

theorem WF_insertPair (hk : LawfulKeys hasher eq) {m : HashMap K V}
    (hwf : WF hasher eq m) (hr : InRange m) (item : K × V)
    {res : Bool × Iterator × HashMap K V}
    (h : insertPair hasher eq m item = some res) : WF hasher eq res.2.2 :=
  WF_try_emplace hk hwf hr item.1 id item.2 h

end HashMap

/-! ## Construction from a list of pairs -/

namespace HashMap

variable {K V : Type} {hasher : K → Nat} {eq : K → K → Bool}

theorem find?_concat_of_some {α : Type} (f : α → Bool) (l : List α) (p q : α)
    (h : l.find? f = some q) : (l ++ [p]).find? f = some q := by
  rw [List.find?_append, h]
  rfl

theorem find?_concat_of_none {α : Type} (f : α → Bool) (l : List α) (p : α)
    (h : l.find? f = none) : (l ++ [p]).find? f = if f p then some p else none := by
  rw [List.find?_append, h]
  by_cases hp : f p = true
  · simp [hp]
  · simp [hp]

/-- The lookup outcome for keys equal to a stored key. -/
theorem findEntry_of_stored (hk : LawfulKeys hasher eq) {m : HashMap K V}
    (hwf : WF hasher eq m) {x : Nat} {kv : K × V}
    (hx : (entryAt m.entries x).kvp = some kv) (k : K) (he : eq k kv.1 = true) :
    findEntry hasher eq m k = some (some kv) :=
  findEntry_present hk hwf hx he

/-- Inserting the remaining pairs `rest` after the pairs `done` have been inserted. -/
theorem foldlM_insertPair_spec (hk : LawfulKeys hasher eq) :
    ∀ (rest : List (K × V)) (m : HashMap K V) (done : List (K × V)) (seen : List K),
    WF hasher eq m → m.usedEntriesAmount ≤ done.length →
    done.length + rest.length ≤ PrimesHelper.MaxPrime →
    (∀ k, findEntry hasher eq m k = some (done.find? (fun p => eq k p.1))) →
    (∀ k, seen.any (fun k' => eq k k') = (done.find? (fun p => eq k p.1)).isSome) →
    ∃ m', rest.foldlM (fun m kvp => (fun r => r.2.2) <$> insertPair hasher eq m kvp) m = some m' ∧
      WF hasher eq m' ∧ size m' = size m + distinctKeysAux eq seen rest ∧
      (∀ k, findEntry hasher eq m' k = some ((done ++ rest).find? (fun p => eq k p.1))) ∧
      m'.usedEntriesAmount ≤ (done ++ rest).length
  | [], m, done, seen, hwf, hused, _, hfind, _ => by
    refine ⟨m, rfl, hwf, ?_, ?_, ?_⟩
    · simp [distinctKeysAux]
    · simpa using hfind
    · simpa using hused
  | p :: rest, m, done, seen, hwf, hused, hlen, hfind, hseen => by
    simp only [List.length_cons] at hlen
    have hr : InRange m := by
      unfold InRange
      omega
    simp only [List.foldlM_cons]
    cases hd : done.find? (fun q => eq p.1 q.1) with
    | some q =>
      have hq := List.find?_some hd
      have hqmem := List.mem_of_find?_eq_some hd
      have hpres : findEntry hasher eq m p.1 = some (some q) := by rw [hfind, hd]
      obtain ⟨i, hi, he⟩ := (findEntry_some_iff hk hwf p.1 q).1 hpres
      have hins : insertPair hasher eq m p = some (false, end_ m, m) :=
        try_emplace_present hk hwf p.1 id p.2 hi he
      have hany : seen.any (fun k' => eq p.1 k') = true := by rw [hseen, hd]; rfl
      have hstable : ∀ k, (done ++ [p]).find? (fun r => eq k r.1) =
          done.find? (fun r => eq k r.1) := by
        intro k
        cases hk1 : done.find? (fun r => eq k r.1) with
        | some r => exact find?_concat_of_some _ _ _ _ hk1
        | none =>
          rw [find?_concat_of_none _ _ _ hk1]
          have : eq k p.1 = false := by
            cases hkp : eq k p.1 with
            | false => rfl
            | true =>
              have := List.find?_eq_none.1 hk1 q hqmem
              simp only [hk.trans _ _ _ hkp hq, not_true_eq_false] at this
          simp [this]
      obtain ⟨m', hm', hwf', hsize, hfind', hused'⟩ :=
        foldlM_insertPair_spec hk rest m (done ++ [p]) seen hwf
          (by simp; omega) (by simp; omega)
          (by intro k; rw [hstable k]; exact hfind k)
          (by intro k; rw [hstable k]; exact hseen k)
      refine ⟨m', ?_, hwf', ?_, ?_, ?_⟩
      · rw [hins]
        exact hm'
      · rw [hsize]
        simp [distinctKeysAux, hany]
      · simpa using hfind'
      · simpa using hused'
    | none =>
      have habsE : findEntry hasher eq m p.1 = some none := by rw [hfind, hd]
      have habs := (findEntry_none_iff hk hwf p.1).1 habsE
      obtain ⟨x, m1, hins, hwf1, hfree, hnew, _, hsame, hsize1, _, hused1⟩ :=
        try_emplace_absent hk hwf hr p.1 id p.2 habs
      have hins' : insertPair hasher eq m p = some (true, mkIterator m1 (x : Int), m1) := hins
      have hany : seen.any (fun k' => eq p.1 k') = false := by rw [hseen, hd]; rfl
      have hnew' : (entryAt m1.entries x).kvp = some p := hnew
      have hother := (findEntry_after_create hk hwf hwf1 hfree hnew hsame).2
      have hfind1 : ∀ k, findEntry hasher eq m1 k =
          some ((done ++ [p]).find? (fun r => eq k r.1)) := by
        intro k
        cases hkp : eq k p.1 with
        | true =>
          have hnone : done.find? (fun r => eq k r.1) = none := by
            cases hk1 : done.find? (fun r => eq k r.1) with
            | none => rfl
            | some r =>
              have hr1 := List.find?_some hk1
              have hrmem := List.mem_of_find?_eq_some hk1
              have := List.find?_eq_none.1 hd r hrmem
              simp only [hk.trans _ _ _ (hk.symm _ _ hkp) hr1, not_true_eq_false] at this
          rw [find?_concat_of_none _ _ _ hnone, findEntry_of_stored hk hwf1 hnew' k hkp]
          simp [hkp]
        | false =>
          rw [hother k hkp, hfind k]
          cases hk1 : done.find? (fun r => eq k r.1) with
          | some r => rw [find?_concat_of_some _ _ _ _ hk1]
          | none =>
            rw [find?_concat_of_none _ _ _ hk1]
            simp [hkp]
      have hseen1 : ∀ k, (p.1 :: seen).any (fun k' => eq k k') =
          ((done ++ [p]).find? (fun r => eq k r.1)).isSome := by
        intro k
        rw [List.any_cons, hseen k]
        cases hk1 : done.find? (fun r => eq k r.1) with
        | some r =>
          rw [find?_concat_of_some _ _ _ _ hk1]
          simp
        | none =>
          rw [find?_concat_of_none _ _ _ hk1]
          cases hkp : eq k p.1 <;> simp [hkp]
      obtain ⟨m', hm', hwf', hsize, hfind', hused'⟩ :=
        foldlM_insertPair_spec hk rest m1 (done ++ [p]) (p.1 :: seen) hwf1
          (by simp; omega) (by simp; omega) hfind1 hseen1
      refine ⟨m', ?_, hwf', ?_, ?_, ?_⟩
      · rw [hins']
        exact hm'
      · rw [hsize, hsize1]
        simp [distinctKeysAux, hany]
        omega
      · simpa using hfind'
      · simpa using hused'

/-- The table built from a list of pairs. -/
theorem ofList_spec (hk : LawfulKeys hasher eq) (values : List (K × V))
    (hlen : values.length ≤ PrimesHelper.MaxPrime) :
    ∃ m, ofList hasher eq values = some m ∧ WF hasher eq m ∧
      size m = distinctKeys eq values ∧
      (∀ k, findEntry hasher eq m k = some (values.find? (fun p => eq k p.1))) ∧
      m.usedEntriesAmount ≤ values.length := by
  obtain ⟨m, h1, h2, h3, h4, h5⟩ := foldlM_insertPair_spec hk values (empty : HashMap K V) [] []
    WF_empty (by simp [empty]) (by simpa using hlen)
    (by
      intro k
      rw [findEntry_absent WF_empty]
      · rfl
      · intro i kv h
        simp [empty, entryAt_nil, emptyEntry] at h)
    (by intro k; rfl)
  refine ⟨m, h1, h2, ?_, ?_, ?_⟩
  · rw [h3]
    simp [size, empty, distinctKeys]
  · simpa using h4
  · simpa using h5

end HashMap

/-! ## Insertion, indexing and growth: the contract -/

namespace HashMap

variable {K V : Type} {hasher : K → Nat} {eq : K → K → Bool}

theorem WF_of_ofList (hk : LawfulKeys hasher eq) {values : List (K × V)} {m : HashMap K V}
    (h : ofList hasher eq values = some m) (hlen : values.length ≤ PrimesHelper.MaxPrime) :
    WF hasher eq m := by
  obtain ⟨m', h1, h2, _⟩ := ofList_spec hk values hlen
  rw [h1] at h
  cases h
  exact h2

theorem WF_sampleFull : WF natHash natEq sampleFull :=
  WF_of_ofList lawfulKeys_nat
    (by decide : ofList natHash natEq [(1, 2), (4, 3), (7, 6)] = some sampleFull) (by decide)

theorem InRange_sampleFull : InRange sampleFull := by
  unfold InRange
  decide

theorem InRange_empty : InRange (empty : HashMap K V) := by
  unfold InRange
  show 0 < PrimesHelper.MaxPrime
  decide

/-- An outcome `some (some kv)` of `find` unfolds into a returned iterator that differs
from the end iterator and references `kv`. -/
theorem findEntry_some_unfold {m : HashMap K V} {k : K} {kv : K × V}
    (h : findEntry hasher eq m k = some (some kv)) :
    ∃ it, find hasher eq m k = some it ∧ iterEq it (end_ m) = false ∧ deref m it = some kv := by
  unfold findEntry at h
  cases hf : find hasher eq m k with
  | none => rw [hf] at h; cases h
  | some it =>
    rw [hf] at h
    simp only [Option.map_some', Option.some.injEq] at h
    by_cases he : iterEq it (end_ m) = true
    · rw [if_pos he] at h
      cases h
    · rw [if_neg he] at h
      exact ⟨it, rfl, by simpa using he, h⟩

theorem find?_of_pairwise (hk : LawfulKeys hasher eq) :
    ∀ (values : List (K × V)), values.Pairwise (fun a b => eq a.1 b.1 = false) →
    ∀ p ∈ values, values.find? (fun q => eq p.1 q.1) = some p
  | [], _, p, hp => by cases hp
  | a :: l, hpw, p, hp => by
    rw [List.pairwise_cons] at hpw
    rcases List.mem_cons.1 hp with rfl | hpl
    · simp [List.find?_cons, hk.refl]
    · have hne : eq p.1 a.1 = false := by
        cases h : eq p.1 a.1 with
        | false => rfl
        | true =>
          have := hpw.1 p hpl
          rw [hk.symm _ _ h] at this
          cases this
      rw [List.find?_cons, hne]
      exact find?_of_pairwise hk l hpw.2 p hpl

/-- C1: the table built by inserting a list of pairs in order into the empty table has
as many entries as the list has distinct keys, `find` of a key of the list returns an
iterator (different from the end iterator) to the pair of the first occurrence of that
key, and `find` of any other key returns the end iterator.  The list has at most
`MaxPrime` pairs, the range in which the sizing policy is known to return. -/
theorem ofList_size_and_find (hk : LawfulKeys hasher eq) (values : List (K × V))
    (hlen : values.length ≤ PrimesHelper.MaxPrime) :
    ∃ m, ofList hasher eq values = some m ∧
      size m = distinctKeys eq values ∧
      (∀ k p, values.find? (fun q => eq k q.1) = some p →
        ∃ it, find hasher eq m k = some it ∧ iterEq it (end_ m) = false ∧
          deref m it = some p) ∧
      (∀ k, values.find? (fun q => eq k q.1) = none → find hasher eq m k = some (end_ m)) := by
  obtain ⟨m, h1, hwf, h3, h4, _⟩ := ofList_spec hk values hlen
  refine ⟨m, h1, h3, ?_, ?_⟩
  · intro k p hp
    apply findEntry_some_unfold
    rw [h4 k, hp]
  · intro k hnone
    rw [← findEntry_none_iff_find hk hwf, h4 k, hnone]

theorem ofList_size_and_find_witness :
    ∃ m, ofList natHash natEq [(1, 2), (3, 4), (1, 9), (5, 6), (7, 8)] = some m ∧
      size m = distinctKeys natEq [(1, 2), (3, 4), (1, 9), (5, 6), (7, 8)] ∧
      (∀ k p, [(1, 2), (3, 4), (1, 9), (5, 6), (7, 8)].find? (fun q => natEq k q.1) = some p →
        ∃ it, find natHash natEq m k = some it ∧ iterEq it (end_ m) = false ∧
          deref m it = some p) ∧
      (∀ k, [(1, 2), (3, 4), (1, 9), (5, 6), (7, 8)].find? (fun q => natEq k q.1) = none →
        find natHash natEq m k = some (end_ m)) :=
  ofList_size_and_find lawfulKeys_nat [(1, 2), (3, 4), (1, 9), (5, 6), (7, 8)] (by decide)

/-- C2: on a well-formed table, for a key that `find` locates, the three creation paths
`insert(pair)`, `insert(key, value)` and `try_emplace` return `(false, end())` together
with the unchanged table, so the stored pair and `size()` stay as they were. -/
theorem creation_present_unchanged (hk : LawfulKeys hasher eq) {m : HashMap K V}
    (hwf : WF hasher eq m) (k : K) (v : V) {A : Type} (ctor : A → V) (args : A) (kv : K × V)
    (hpres : findEntry hasher eq m k = some (some kv)) :
    insertPair hasher eq m (k, v) = some (false, end_ m, m) ∧
    insert hasher eq m k v = some (false, end_ m, m) ∧
    try_emplace hasher eq m k ctor args = some (false, end_ m, m) := by
  obtain ⟨i, hi, he⟩ := (findEntry_some_iff hk hwf k kv).1 hpres
  exact ⟨try_emplace_present hk hwf k id v hi he, try_emplace_present hk hwf k id v hi he,
    try_emplace_present hk hwf k ctor args hi he⟩

theorem creation_present_unchanged_witness :
    insertPair natHash natEq sampleFull (4, 9) = some (false, end_ sampleFull, sampleFull) ∧
    insert natHash natEq sampleFull 4 9 = some (false, end_ sampleFull, sampleFull) ∧
    try_emplace natHash natEq sampleFull 4 (fun n : Nat => n + 1) 8 =
      some (false, end_ sampleFull, sampleFull) :=
  creation_present_unchanged lawfulKeys_nat WF_sampleFull 4 9 (fun n : Nat => n + 1) 8 (4, 3)
    (by decide)

/-- C3: on a well-formed table in range, `insert(k, v)` of a key that `find` does not
locate returns `(true, it)` where `it` references exactly `(k, v)`; afterwards the table
is well formed, `size()` has grown by one, `find(k)` yields `(k, v)`, and the outcome of
`find` is unchanged for every key that differs from `k`. -/
theorem insert_absent_spec (hk : LawfulKeys hasher eq) {m : HashMap K V}
    (hwf : WF hasher eq m) (hr : InRange m) (k : K) (v : V)
    (habs : find hasher eq m k = some (end_ m)) :
    ∃ (it : Iterator) (m' : HashMap K V), insert hasher eq m k v = some (true, it, m') ∧
      iterEq it (end_ m') = false ∧ deref m' it = some (k, v) ∧
      WF hasher eq m' ∧ size m' = size m + 1 ∧
      findEntry hasher eq m' k = some (some (k, v)) ∧
      ∀ k', eq k' k = false → findEntry hasher eq m' k' = findEntry hasher eq m k' := by
  have habs' := (find_eq_end_iff hk hwf k).1 habs
  obtain ⟨x, m', hins, hwf', hfree, hnew, _, hsame, hsize, _, _⟩ :=
    try_emplace_absent hk hwf hr k id v habs'
  obtain ⟨h1, h2⟩ := findEntry_after_create hk hwf hwf' hfree hnew hsame
  refine ⟨mkIterator m' (x : Int), m', hins, ?_, ?_, hwf', hsize, h1, h2⟩
  · rw [mkIterator_natCast, end_eq]
    have : ¬ ((x : Int) = -1) := by omega
    simp [iterEq, this]
  · rw [mkIterator_natCast]
    simpa [deref] using hnew

theorem insert_absent_spec_witness :
    ∃ (it : Iterator) (m' : HashMap Nat Nat),
      insert natHash natEq sampleFull 10 11 = some (true, it, m') ∧
      iterEq it (end_ m') = false ∧ deref m' it = some (10, 11) ∧
      WF natHash natEq m' ∧ size m' = size sampleFull + 1 ∧
      findEntry natHash natEq m' 10 = some (some (10, 11)) ∧
      ∀ k', natEq k' 10 = false →
        findEntry natHash natEq m' k' = findEntry natHash natEq sampleFull k' :=
  insert_absent_spec lawfulKeys_nat WF_sampleFull InRange_sampleFull 10 11 (by decide)

/-- C7: on a well-formed table in range, `operator[](k)` returns the stored value and
the unchanged table when `find` locates `k`; otherwise it returns the default value and
a well-formed table in which `size()` has grown by one and `find(k)` yields
`(k, default)`.  The empty table with capacity zero is well formed and in range. -/
theorem operatorIndex_spec [Inhabited V] (hk : LawfulKeys hasher eq) {m : HashMap K V}
    (hwf : WF hasher eq m) (hr : InRange m) (k : K) :
    (∀ kv, findEntry hasher eq m k = some (some kv) →
      operatorIndex hasher eq m k = some (kv.2, m)) ∧
    (findEntry hasher eq m k = some none →
      ∃ m', operatorIndex hasher eq m k = some (default, m') ∧ WF hasher eq m' ∧
        size m' = size m + 1 ∧ findEntry hasher eq m' k = some (some (k, default))) ∧
    (WF hasher eq (empty : HashMap K V) ∧ InRange (empty : HashMap K V) ∧
      findEntry hasher eq (empty : HashMap K V) k = some none) := by
  refine ⟨?_, ?_, WF_empty, InRange_empty, ?_⟩
  · intro kv hpres
    obtain ⟨i, hi, he⟩ := (findEntry_some_iff hk hwf k kv).1 hpres
    unfold operatorIndex
    have : (i : Int) ≠ -1 := by omega
    simp only [TryFindEntryIndex_present hk hwf hi he, Option.bind_eq_bind, Option.some_bind,
      this, ne_eq, not_false_eq_true, if_true, Int.toNat_ofNat, hi]
  · intro habsE
    have habs := (findEntry_none_iff hk hwf k).1 habsE
    obtain ⟨x, m', hc, hwf', hfree, hnew, _, hsame, hsize, _, _⟩ :=
      CreateAndGetEntryIndex_spec hk hwf hr k (fun (_ : Unit) => (default : V)) () habs
    refine ⟨m', ?_, hwf', hsize, (findEntry_after_create hk hwf hwf' hfree hnew hsame).1⟩
    unfold operatorIndex
    simp only [TryFindEntryIndex_absent hwf habs, Option.bind_eq_bind, Option.some_bind,
      ne_eq, not_true_eq_false, if_false, hc, Int.toNat_ofNat, hnew]
  · apply findEntry_absent WF_empty
    intro i kv h
    simp [empty, entryAt_nil, emptyEntry] at h

theorem operatorIndex_spec_witness :
    (∀ kv, findEntry natHash natEq (empty : HashMap Nat Nat) 0 = some (some kv) →
      operatorIndex natHash natEq (empty : HashMap Nat Nat) 0 = some (kv.2, empty)) ∧
    (findEntry natHash natEq (empty : HashMap Nat Nat) 0 = some none →
      ∃ m', operatorIndex natHash natEq (empty : HashMap Nat Nat) 0 = some (default, m') ∧
        WF natHash natEq m' ∧ size m' = size (empty : HashMap Nat Nat) + 1 ∧
        findEntry natHash natEq m' 0 = some (some (0, default))) ∧
    (WF natHash natEq (empty : HashMap Nat Nat) ∧ InRange (empty : HashMap Nat Nat) ∧
      findEntry natHash natEq (empty : HashMap Nat Nat) 0 = some none) :=
  operatorIndex_spec lawfulKeys_nat WF_empty InRange_empty 0

/-- C9: growth of a full well-formed table in range returns a well-formed table with a
strictly larger capacity in which every slot keeps its cached hash and its pair,
`size()` is unchanged and `find` has the same outcome for every key; and a table built
from at most `MaxPrime` pairs with pairwise different keys, whatever the number of
growth steps on the way, finds every pair. -/
theorem Enlarge_preserves (hk : LawfulKeys hasher eq) {m : HashMap K V}
    (hwf : WF hasher eq m) (hr : InRange m)
    (hfull : m.usedEntriesAmount = m.capacity) (hfree : m.deletedEntriesAmount = 0) :
    (∃ m', Enlarge m = some m' ∧ WF hasher eq m' ∧ m.capacity < m'.capacity ∧
      (∀ i, (entryAt m'.entries i).hash = (entryAt m.entries i).hash ∧
        (entryAt m'.entries i).kvp = (entryAt m.entries i).kvp) ∧
      size m' = size m ∧
      ∀ k, findEntry hasher eq m' k = findEntry hasher eq m k) ∧
    (∀ values : List (K × V), values.length ≤ PrimesHelper.MaxPrime →
      values.Pairwise (fun a b => eq a.1 b.1 = false) →
      ∃ t, ofList hasher eq values = some t ∧ size t = values.length ∧
        ∀ p ∈ values, findEntry hasher eq t p.1 = some (some p)) := by
  constructor
  · have hr' : m.capacity ≤ PrimesHelper.MaxPrime := by
      have : m.usedEntriesAmount < PrimesHelper.MaxPrime := hr
      omega
    obtain ⟨c, hc, hlt⟩ := PrimesHelper.ExpandPrime_gt hr'
    obtain ⟨m', hm', hwf', hcap, hused, hdel, _, hkvp, hhash⟩ :=
      Enlarge_spec hwf hfull hfree hc hlt
    refine ⟨m', hm', hwf', by omega, fun i => ⟨hhash i, hkvp i⟩, ?_, ?_⟩
    · simp only [size, hused, hdel]
    · intro k
      apply findEntry_congr hk hwf hwf'
      intro kv _
      constructor
      · rintro ⟨i, hi⟩
        exact ⟨i, by rw [← hkvp i]; exact hi⟩
      · rintro ⟨i, hi⟩
        exact ⟨i, by rw [hkvp i]; exact hi⟩
  · intro values hlen hpw
    obtain ⟨t, h1, hwft, h3, h4, h5⟩ := ofList_spec hk values hlen
    refine ⟨t, h1, ?_, ?_⟩
    · have hle : size t ≤ values.length := by
        unfold size
        omega
      have hge : values.length ≤ size t := by
        rw [h3]
        unfold distinctKeys
        have haux : ∀ (l : List (K × V)) (seen : List K),
            l.Pairwise (fun a b => eq a.1 b.1 = false) →
            (∀ p ∈ l, ∀ s ∈ seen, eq p.1 s = false) →
            l.length ≤ distinctKeysAux eq seen l := by
          intro l
          induction l with
          | nil => intro _ _ _; simp [distinctKeysAux]
          | cons a l ih =>
            intro seen hpw hs
            rw [List.pairwise_cons] at hpw
            have hany : seen.any (fun k => eq a.1 k) = false := by
              rw [List.any_eq_false]
              intro s hsm
              rw [hs a (List.mem_cons_self _ _) s hsm]
              simp
            simp only [distinctKeysAux, hany, Bool.false_eq_true, if_false, List.length_cons]
            have := ih (a.1 :: seen) hpw.2 (by
              intro p hp s hsm
              rcases List.mem_cons.1 hsm with rfl | hsm'
              · cases h : eq p.1 a.1 with
                | false => rfl
                | true =>
                  have := hpw.1 p hp
                  rw [hk.symm _ _ h] at this
                  cases this
              · exact hs p (List.mem_cons_of_mem _ hp) s hsm')
            omega
        exact haux values [] hpw (by intro p _ s hs; cases hs)
      omega
    · intro p hp
      rw [h4 p.1, find?_of_pairwise hk values hpw p hp]

theorem Enlarge_preserves_witness :
    (∃ m', Enlarge sampleFull = some m' ∧ WF natHash natEq m' ∧
      sampleFull.capacity < m'.capacity ∧
      (∀ i, (entryAt m'.entries i).hash = (entryAt sampleFull.entries i).hash ∧
        (entryAt m'.entries i).kvp = (entryAt sampleFull.entries i).kvp) ∧
      size m' = size sampleFull ∧
      ∀ k, findEntry natHash natEq m' k = findEntry natHash natEq sampleFull k) ∧
    (∀ values : List (Nat × Nat), values.length ≤ PrimesHelper.MaxPrime →
      values.Pairwise (fun a b => natEq a.1 b.1 = false) →
      ∃ t, ofList natHash natEq values = some t ∧ size t = values.length ∧
        ∀ p ∈ values, findEntry natHash natEq t p.1 = some (some p)) :=
  Enlarge_preserves lawfulKeys_nat WF_sampleFull InRange_sampleFull (by decide) (by decide)

/-- C10: the creation paths `insert(pair(k, v))`, `insert(k, v)` and `try_emplace(k, v)`
return the same flag, the same iterator and the same table; `try_emplace(k)` without
further arguments is `insert(k, default value)`, and on a well-formed table in range
that does not hold `k` it returns an iterator to an entry holding `(k, default value)`. -/
theorem creation_paths_agree [Inhabited V] (hk : LawfulKeys hasher eq) {m : HashMap K V}
    (hwf : WF hasher eq m) (hr : InRange m) (k : K) (v : V) :
    insertPair hasher eq m (k, v) = insert hasher eq m k v ∧
    try_emplace hasher eq m k id v = insert hasher eq m k v ∧
    try_emplace hasher eq m k (fun (_ : Unit) => (default : V)) () =
      insert hasher eq m k default ∧
    (find hasher eq m k = some (end_ m) →
      ∃ (it : Iterator) (m' : HashMap K V),
        try_emplace hasher eq m k (fun (_ : Unit) => (default : V)) () = some (true, it, m') ∧
        iterEq it (end_ m') = false ∧ deref m' it = some (k, default)) := by
  refine ⟨rfl, rfl, rfl, ?_⟩
  intro habs
  have habs' := (find_eq_end_iff hk hwf k).1 habs
  obtain ⟨x, m', hins, _, _, hnew, _⟩ :=
    try_emplace_absent hk hwf hr k (fun (_ : Unit) => (default : V)) () habs'
  refine ⟨mkIterator m' (x : Int), m', hins, ?_, ?_⟩
  · rw [mkIterator_natCast, end_eq]
    have : ¬ ((x : Int) = -1) := by omega
    simp [iterEq, this]
  · rw [mkIterator_natCast]
    simpa [deref] using hnew

theorem creation_paths_agree_witness :
    insertPair natHash natEq (empty : HashMap Nat Nat) (3, 5) =
      insert natHash natEq empty 3 5 ∧
    try_emplace natHash natEq (empty : HashMap Nat Nat) 3 id 5 =
      insert natHash natEq empty 3 5 ∧
    try_emplace natHash natEq (empty : HashMap Nat Nat) 3 (fun (_ : Unit) => (default : Nat)) () =
      insert natHash natEq empty 3 default ∧
    (find natHash natEq (empty : HashMap Nat Nat) 3 = some (end_ (empty : HashMap Nat Nat)) →
      ∃ (it : Iterator) (m' : HashMap Nat Nat),
        try_emplace natHash natEq (empty : HashMap Nat Nat) 3
          (fun (_ : Unit) => (default : Nat)) () = some (true, it, m') ∧
        iterEq it (end_ m') = false ∧ deref m' it = some (3, default)) :=
  creation_paths_agree lawfulKeys_nat WF_empty InRange_empty 3 5

end HashMap

/-! ## Positions in the iteration order -/

namespace HashMap

variable {K V : Type} {hasher : K → Nat} {eq : K → K → Bool}

theorem orderFrom_split (capacity : Nat) (chain : Nat → List Nat) {b : Nat}
    (hb : b ≤ capacity) :
    orderFrom capacity chain 0 =
      (List.range' 0 b).flatMap (chainIterators chain) ++ orderFrom capacity chain b := by
  unfold orderFrom
  rw [← List.flatMap_append]
  have h := List.range'_append 0 b (capacity - b) 1
  simp only [Nat.mul_one, Nat.zero_add, Nat.one_mul] at h
  rw [h]
  have e : capacity - b + b = capacity - 0 := by omega
  rw [e]

theorem chainIterators_split (chain : Nat → List Nat) (b x : Nat) (pre post : List Nat)
    (h : chain b = pre ++ x :: post) :
    chainIterators chain b = chainIterators (fun _ => pre) b ++
      Iterator.mk (b : Int) (x : Int) :: chainIterators (fun _ => post) b := by
  unfold chainIterators
  rw [h]
  simp

/-- An iterator met by the traversal sits on an occupied slot of the chain of its
bucket, and the traversal continues with the rest of that chain and the later buckets. -/
theorem order_position {m : HashMap K V} {chain : Nat → List Nat}
    (hch : ChainsOk m chain) {L1 L2 : List Iterator} {it : Iterator}
    (horder : orderFrom m.capacity chain 0 = L1 ++ it :: L2) :
    ∃ (x : Nat) (kv : K × V) (pre post : List Nat),
      it = Iterator.mk (((entryAt m.entries x).hash % m.capacity : Nat) : Int) (x : Int) ∧
      (entryAt m.entries x).kvp = some kv ∧
      chain ((entryAt m.entries x).hash % m.capacity) = pre ++ x :: post ∧
      L2 = chainIterators (fun _ => post) ((entryAt m.entries x).hash % m.capacity) ++
        orderFrom m.capacity chain ((entryAt m.entries x).hash % m.capacity + 1) := by
  have hmemo : it ∈ orderFrom m.capacity chain 0 := by rw [horder]; simp
  obtain ⟨b, x, _, hb, hx, rfl⟩ := (mem_orderFrom _ _ _ _).1 hmemo
  have hbx := hch.bucket_of_mem hb hx
  have hocc := (((hch b hb).2.2 x).1 hx).1
  obtain ⟨kv, hkv⟩ := Option.ne_none_iff_exists'.1 hocc
  obtain ⟨pre, post, hsplit⟩ := List.append_of_mem hx
  refine ⟨x, kv, pre, post, by rw [hbx], hkv, by rw [hbx]; exact hsplit, ?_⟩
  rw [hbx]
  have hnd := nodup_orderFrom hch 0
  have hdecomp : orderFrom m.capacity chain 0 =
      ((List.range' 0 b).flatMap (chainIterators chain) ++ chainIterators (fun _ => pre) b) ++
        Iterator.mk (b : Int) (x : Int) ::
          (chainIterators (fun _ => post) b ++ orderFrom m.capacity chain (b + 1)) := by
    rw [orderFrom_split _ _ (le_of_lt hb), orderFrom_of_lt _ _ hb,
      chainIterators_split chain b x pre post hsplit]
    simp
  rw [horder] at hnd hdecomp
  have hn1 : Iterator.mk (b : Int) (x : Int) ∉ L1 := fun h =>
    (List.nodup_append.1 hnd).2.2 h (List.mem_cons_self _ _)
  have hn2 : Iterator.mk (b : Int) (x : Int) ∉ L2 :=
    (List.nodup_cons.1 (List.nodup_append.1 hnd).2.1).1
  exact ((List.append_cons_inj_of_not_mem hn1 hn2).1 hdecomp).2.2

theorem order_filter (capacity : Nat) (chain : Nat → List Nat) (x : Nat) :
    orderFrom capacity (fun b => (chain b).filter (fun i => decide (i ≠ x))) 0 =
      (orderFrom capacity chain 0).filter
        (fun it => decide (it.currentEntryIndex ≠ (x : Int))) := by
  unfold orderFrom
  rw [List.filter_flatMap]
  apply List.flatMap_congr
  intro b _
  unfold chainIterators
  rw [List.filter_map]
  congr 1
  apply List.filter_congr
  intro i _
  simp

/-- Removing one element from the iteration order by its entry index. -/
theorem order_without {m : HashMap K V} {chain : Nat → List Nat}
    (hch : ChainsOk m chain) {L1 L2 : List Iterator} {b x : Nat}
    (horder : orderFrom m.capacity chain 0 = L1 ++ Iterator.mk (b : Int) (x : Int) :: L2) :
    orderFrom m.capacity (fun b => (chain b).filter (fun i => decide (i ≠ x))) 0 = L1 ++ L2 := by
  rw [order_filter, horder]
  have hnd := nodup_orderFrom hch 0
  rw [horder] at hnd
  have hne : ∀ it' ∈ L1 ++ L2, it'.currentEntryIndex ≠ (x : Int) := by
    intro it' hit' he
    have hmem' : it' ∈ orderFrom m.capacity chain 0 := by
      rw [horder]
      rcases List.mem_append.1 hit' with h | h
      · exact List.mem_append_left _ h
      · exact List.mem_append_right _ (List.mem_cons_of_mem _ h)
    have hmem : Iterator.mk (b : Int) (x : Int) ∈ orderFrom m.capacity chain 0 := by
      rw [horder]; simp
    have heq := orderFrom_inj hch hmem' hmem (by rw [he])
    subst heq
    rcases List.mem_append.1 hit' with h | h
    · exact (List.nodup_append.1 hnd).2.2 h (List.mem_cons_self _ _)
    · exact (List.nodup_cons.1 (List.nodup_append.1 hnd).2.1).1 h
  rw [List.filter_append, List.filter_cons]
  simp only [ne_eq, not_true_eq_false, decide_False, Bool.false_eq_true, if_false]
  rw [List.filter_eq_self.2, List.filter_eq_self.2]
  · intro a ha
    simpa using hne a (List.mem_append_right _ ha)
  · intro a ha
    simpa using hne a (List.mem_append_left _ ha)

/-- Erasing an element of the traversal: the table stays well formed, the returned
iterator is the next element of the traversal (or the end iterator), and the traversal
of the new table is the old one without the erased element. -/
theorem erase_in_order (hk : LawfulKeys hasher eq) {m : HashMap K V}
    (hwf : WF hasher eq m) {chain : Nat → List Nat} (hch : ChainsOk m chain)
    {L1 L2 : List Iterator} {it : Iterator}
    (horder : orderFrom m.capacity chain 0 = L1 ++ it :: L2) :
    ∃ (r : Iterator) (m' : HashMap K V) (chain' : Nat → List Nat) (x : Nat) (kv : K × V),
      erase eq m it = some (r, m') ∧ WF hasher eq m' ∧ ChainsOk m' chain' ∧
      it.currentEntryIndex = (x : Int) ∧ (entryAt m.entries x).kvp = some kv ∧
      m'.capacity = m.capacity ∧ size m' + 1 = size m ∧
      (entryAt m'.entries x).kvp = none ∧
      (∀ i, i ≠ x → (entryAt m'.entries i).kvp = (entryAt m.entries i).kvp ∧
        (entryAt m'.entries i).hash = (entryAt m.entries i).hash) ∧
      orderFrom m'.capacity chain' 0 = L1 ++ L2 ∧
      r = (L2.head?).getD (end_ m') := by
  obtain ⟨x, kv, pre, post, hit, hkv, hsplit, hL2⟩ := order_position hch horder
  obtain ⟨r, m', hr, hwf', hch', hcap, hused, hdel, _, hnone, hsame, hret⟩ :=
    erase_spec hk hwf hch hkv hsplit it (by rw [hit])
  refine ⟨r, m', _, x, kv, hr, hwf', hch', by rw [hit], hkv, hcap, ?_, hnone, hsame, ?_, ?_⟩
  · have := hwf'.deleted_le_used
    unfold size
    omega
  · rw [hcap]
    rw [hit] at horder
    exact order_without hch horder
  · rw [← hL2] at hret
    rcases hret with ⟨hnil, hend⟩ | ⟨rest, hcons⟩
    · rw [hnil, hend]; rfl
    · rw [hcons]; rfl

end HashMap

/-! ## Erasure and iteration: the contract -/

namespace HashMap

variable {K V : Type} {hasher : K → Nat} {eq : K → K → Bool}

/-- C4: on a well-formed table, for a key `k` that `find` locates, `erase(find(k))`
returns and leaves a well-formed table in which `find(k)` returns the end iterator,
`size()` is smaller by exactly one, and the outcome of `find` is unchanged for every key
that differs from `k`; the position of the entry in its chain plays no role. -/
theorem erase_find_spec (hk : LawfulKeys hasher eq) {m : HashMap K V}
    (hwf : WF hasher eq m) (k : K) (kv : K × V)
    (hpres : findEntry hasher eq m k = some (some kv)) :
    ∃ (it r : Iterator) (m' : HashMap K V), find hasher eq m k = some it ∧
      erase eq m it = some (r, m') ∧ WF hasher eq m' ∧
      find hasher eq m' k = some (end_ m') ∧ size m' + 1 = size m ∧
      ∀ k', eq k' k = false → findEntry hasher eq m' k' = findEntry hasher eq m k' := by
  obtain ⟨x, hkv, he⟩ := (findEntry_some_iff hk hwf k kv).1 hpres
  obtain ⟨chain, hch⟩ := hwf.chains
  have hocc : (entryAt m.entries x).kvp ≠ none := by rw [hkv]; simp
  have hcap : 0 < m.capacity := hwf.capacity_pos hocc
  have hbx : (entryAt m.entries x).hash % m.capacity < m.capacity := Nat.mod_lt _ hcap
  have hx : x ∈ chain ((entryAt m.entries x).hash % m.capacity) :=
    ((hch _ hbx).2.2 x).2 ⟨hocc, rfl⟩
  obtain ⟨pre, post, hsplit⟩ := List.append_of_mem hx
  obtain ⟨r, m', hr, hwf', _, _, hused, hdel, _, hnone, hsame, _⟩ :=
    erase_spec hk hwf hch hkv hsplit (mkIterator m (x : Int)) (by rw [mkIterator_natCast])
  refine ⟨mkIterator m (x : Int), r, m', find_present hk hwf hkv he, hr, hwf', ?_, ?_, ?_⟩
  · apply find_absent hwf'
    intro j kvj hj
    have hjx : j ≠ x := by
      rintro rfl
      rw [hnone] at hj
      cases hj
    rw [(hsame j hjx).1] at hj
    cases hb : eq k kvj.1 with
    | false => rfl
    | true =>
      exact absurd (hwf.keys_unique j x kvj kv hj hkv
        (hk.trans _ _ _ (hk.symm _ _ hb) he)) hjx
  · have := hwf'.deleted_le_used
    unfold size
    omega
  · intro k' hne
    apply findEntry_congr hk hwf hwf'
    intro kv' he'
    constructor
    · rintro ⟨j, hj⟩
      have hjx : j ≠ x := by
        rintro rfl
        rw [hnone] at hj
        cases hj
      exact ⟨j, by rw [← (hsame j hjx).1]; exact hj⟩
    · rintro ⟨j, hj⟩
      have hjx : j ≠ x := by
        rintro rfl
        rw [hkv] at hj
        have : kv = kv' := Option.some.inj hj
        subst this
        have := hk.trans _ _ _ he' (hk.symm _ _ he)
        rw [hne] at this
        cases this
      exact ⟨j, by rw [(hsame j hjx).1]; exact hj⟩

theorem erase_find_spec_witness :
    ∃ (it r : Iterator) (m' : HashMap Nat Nat), find natHash natEq sampleFull 4 = some it ∧
      erase natEq sampleFull it = some (r, m') ∧ WF natHash natEq m' ∧
      find natHash natEq m' 4 = some (end_ m') ∧ size m' + 1 = size sampleFull ∧
      ∀ k', natEq k' 4 = false →
        findEntry natHash natEq m' k' = findEntry natHash natEq sampleFull k' :=
  erase_find_spec lawfulKeys_nat WF_sampleFull 4 (4, 3) (by decide)

/-- C5: when the traversal of a well-formed table visits `L1`, then `it`, then `L2`,
`erase(it)` returns the first iterator of `L2`, and the end iterator when `L2` is
empty. -/
theorem erase_returns_successor (hk : LawfulKeys hasher eq) {m : HashMap K V}
    (hwf : WF hasher eq m) (L1 L2 : List Iterator) (it : Iterator)
    (htrav : iterate m = some (L1 ++ it :: L2)) :
    ∃ (r : Iterator) (m' : HashMap K V), erase eq m it = some (r, m') ∧
      r = (L2.head?).getD (end_ m') := by
  obtain ⟨chain, hch⟩ := hwf.chains
  have horder : orderFrom m.capacity chain 0 = L1 ++ it :: L2 := by
    have := iterate_spec hwf hch
    rw [this] at htrav
    exact Option.some.inj htrav
  obtain ⟨r, m', _, _, _, hr, _, _, _, _, _, _, _, _, _, hret⟩ :=
    erase_in_order hk hwf hch horder
  exact ⟨r, m', hr, hret⟩

theorem erase_returns_successor_witness :
    ∃ (r : Iterator) (m' : HashMap Nat Nat),
      erase natEq sampleFull (Iterator.mk 1 1) = some (r, m') ∧
      r = (([Iterator.mk 1 0] : List Iterator).head?).getD (end_ m') :=
  erase_returns_successor lawfulKeys_nat WF_sampleFull [Iterator.mk 1 2] [Iterator.mk 1 0]
    (Iterator.mk 1 1) (by decide)

/-- The drain loop started at the first element of the traversal (or at the end iterator
of a table without entries). -/
theorem eraseLoop_spec (hk : LawfulKeys hasher eq) :
    ∀ (n : Nat) (m : HashMap K V) (chain : Nat → List Nat), WF hasher eq m →
    ChainsOk m chain → size m = n → ∀ fuel, n + 1 ≤ fuel →
    ∃ (trace : List (HashMap K V × Iterator)) (last : Iterator) (final : HashMap K V),
      eraseLoop eq fuel m (((orderFrom m.capacity chain 0).head?).getD (end_ m)) =
        some (trace, last, final) ∧
      trace.length = n ∧
      (∀ p ∈ trace, iterEq p.2 (end_ p.1) = false ∧ deref p.1 p.2 ≠ none) ∧
      size final = 0 ∧ begin final = some (end_ final)
  | 0, m, chain, hwf, hch, hsize, fuel, hf => by
    obtain ⟨f, rfl⟩ : ∃ f, fuel = f + 1 := ⟨fuel - 1, by omega⟩
    refine ⟨[], ((orderFrom m.capacity chain 0).head?).getD (end_ m), m, ?_, rfl, by simp,
      hsize, ?_⟩
    · unfold eraseLoop
      simp [hsize]
    · obtain ⟨r, hr, hcase⟩ := begin_spec hch
      have hlen := length_order hwf hch
      rw [hsize] at hlen
      rcases hcase with ⟨_, hend⟩ | ⟨b, i, post, _, _, _, hcons⟩
      · rw [hr, hend]
      · rw [hcons] at hlen
        simp at hlen
  | n + 1, m, chain, hwf, hch, hsize, fuel, hf => by
    obtain ⟨f, rfl⟩ : ∃ f, fuel = f + 1 := ⟨fuel - 1, by omega⟩
    have hlen := length_order hwf hch
    rw [hsize] at hlen
    cases horder : orderFrom m.capacity chain 0 with
    | nil => rw [horder] at hlen; simp at hlen
    | cons it L2 =>
      have horder' : orderFrom m.capacity chain 0 = [] ++ it :: L2 := horder
      obtain ⟨r, m', chain', x, kv, hr, hwf', hch', hix, hkv, hcap, hsz, _, _, ho', hret⟩ :=
        erase_in_order hk hwf hch horder'
      have hsize' : size m' = n := by omega
      obtain ⟨trace, last, final, hloop, htl, hlive, hfin, hbeg⟩ :=
        eraseLoop_spec hk n m' chain' hwf' hch' hsize' f (by omega)
      simp only [List.nil_append] at ho'
      rw [ho', ← hret] at hloop
      refine ⟨(m, it) :: trace, last, final, ?_, by simp [htl], ?_, hfin, hbeg⟩
      · unfold eraseLoop
        have hne : size m ≠ 0 := by omega
        simp only [List.head?_cons, Option.getD_some, hne, ne_eq, not_false_eq_true, if_true,
          hr, Option.bind_eq_bind, Option.some_bind, hloop]
      · intro p hp
        rcases List.mem_cons.1 hp with rfl | hp'
        · constructor
          · rw [end_eq]
            have : ¬ ((x : Int) = -1) := by omega
            simp [iterEq, hix, this]
          · simp [deref, hix, hkv]
        · exact hlive p hp'

/-- C6 (amended): for a comparer that is an equivalence relation and a hasher that gives
equal keys equal hashes, on a well-formed table with `n = size()` entries the loop
`current = begin(); while (size() != 0) current = erase(current);` returns after
exactly `n` erasures, every one of them applied to an iterator that differs from the
end iterator and references an occupied entry of the table at that moment, and it ends
in a table with `size() == 0` and `begin() == end()`. -/
theorem eraseAll_drains (hk : LawfulKeys hasher eq) {m : HashMap K V}
    (hwf : WF hasher eq m) :
    ∃ (trace : List (HashMap K V × Iterator)) (last : Iterator) (final : HashMap K V),
      eraseAll eq m = some (trace, last, final) ∧
      trace.length = size m ∧
      (∀ p ∈ trace, iterEq p.2 (end_ p.1) = false ∧ deref p.1 p.2 ≠ none) ∧
      size final = 0 ∧ begin final = some (end_ final) := by
  obtain ⟨chain, hch⟩ := hwf.chains
  obtain ⟨trace, last, final, h1, h2, h3, h4, h5⟩ :=
    eraseLoop_spec hk (size m) m chain hwf hch rfl (size m + 1) (Nat.le_refl _)
  refine ⟨trace, last, final, ?_, h2, h3, h4, h5⟩
  unfold eraseAll
  obtain ⟨r, hr, hcase⟩ := begin_spec hch
  have hb : r = ((orderFrom m.capacity chain 0).head?).getD (end_ m) := by
    rcases hcase with ⟨hnil, hend⟩ | ⟨b, i, post, _, _, _, hcons⟩
    · rw [hnil, hend]; rfl
    · rw [hcons]; rfl
  simp only [hr, Option.bind_eq_bind, Option.some_bind]
  rw [hb]
  exact h1

theorem eraseAll_drains_witness :
    ∃ (trace : List (HashMap Nat Nat × Iterator)) (last : Iterator) (final : HashMap Nat Nat),
      eraseAll natEq sampleFull = some (trace, last, final) ∧
      trace.length = size sampleFull ∧
      (∀ p ∈ trace, iterEq p.2 (end_ p.1) = false ∧ deref p.1 p.2 ≠ none) ∧
      size final = 0 ∧ begin final = some (end_ final) :=
  eraseAll_drains lawfulKeys_nat WF_sampleFull

/-- C8: the traversal of a well-formed table from `begin()` by `++` up to `end()`
returns; no entry index is visited twice, every visited iterator differs from the end
iterator and references an occupied entry, every occupied entry is visited, and the
number of visited iterators is `size()`; a table with capacity zero or without occupied
entry has `begin() == end()`. -/
theorem iterate_visits_live_entries {m : HashMap K V} (hwf : WF hasher eq m) :
    ∃ its, iterate m = some its ∧
      (its.map (fun it => it.currentEntryIndex)).Nodup ∧
      (∀ it ∈ its, iterEq it (end_ m) = false ∧ deref m it ≠ none) ∧
      (∀ i : Nat, (entryAt m.entries i).kvp ≠ none →
        ∃ it ∈ its, it.currentEntryIndex = (i : Int)) ∧
      its.length = size m ∧
      ((m.capacity = 0 ∨ ∀ i, (entryAt m.entries i).kvp = none) →
        begin m = some (end_ m)) := by
  obtain ⟨chain, hch⟩ := hwf.chains
  refine ⟨orderFrom m.capacity chain 0, iterate_spec hwf hch, ?_, ?_, ?_,
    length_order hwf hch, ?_⟩
  · apply List.Nodup.of_map Int.toNat
    rw [List.map_map]
    exact nodup_order_entries hch
  · intro it hit
    obtain ⟨b, i, _, hb, hi, rfl⟩ := (mem_orderFrom _ _ _ _).1 hit
    have hocc := (((hch b hb).2.2 i).1 hi).1
    constructor
    · rw [end_eq]
      have : ¬ ((i : Int) = -1) := by omega
      simp [iterEq, this]
    · simpa [deref] using hocc
  · intro i hocc
    obtain ⟨it, hit, he⟩ := List.mem_map.1 ((mem_order_entries hwf hch i).2 hocc)
    obtain ⟨b, j, _, _, _, rfl⟩ := (mem_orderFrom _ _ _ _).1 hit
    simp only [Int.toNat_ofNat] at he
    subst he
    exact ⟨_, hit, rfl⟩
  · intro hempty
    have hnil : orderFrom m.capacity chain 0 = [] := by
      rcases hempty with hcap | hnone
      · exact orderFrom_of_ge _ _ (by omega)
      · cases ho : orderFrom m.capacity chain 0 with
        | nil => rfl
        | cons it rest =>
          have hit : it ∈ orderFrom m.capacity chain 0 := by rw [ho]; simp
          obtain ⟨b, i, _, hb, hi, _⟩ := (mem_orderFrom _ _ _ _).1 hit
          exact absurd (hnone i) (((hch b hb).2.2 i).1 hi).1
    obtain ⟨r, hr, hcase⟩ := begin_spec hch
    rcases hcase with ⟨_, hend⟩ | ⟨b, i, post, _, _, _, hcons⟩
    · rw [hr, hend]
    · rw [hnil] at hcons
      cases hcons

theorem iterate_visits_live_entries_witness :
    ∃ its, iterate sampleFull = some its ∧
      (its.map (fun it => it.currentEntryIndex)).Nodup ∧
      (∀ it ∈ its, iterEq it (end_ sampleFull) = false ∧ deref sampleFull it ≠ none) ∧
      (∀ i : Nat, (entryAt sampleFull.entries i).kvp ≠ none →
        ∃ it ∈ its, it.currentEntryIndex = (i : Int)) ∧
      its.length = size sampleFull ∧
      ((sampleFull.capacity = 0 ∨ ∀ i, (entryAt sampleFull.entries i).kvp = none) →
        begin sampleFull = some (end_ sampleFull)) :=
  iterate_visits_live_entries WF_sampleFull

end HashMap

/-! ## The scenarios of `coverage.cpp` on the model -/

namespace HashMap

/-- `MapIsFilledWithPairsGivenToCtor`, `MapIteratorsWorks`: the traversal of the table
built from four pairs yields the four pairs. -/
theorem test_MapIteratorsWorks :
    (ofList natHash natEq [(1, 2), (3, 4), (5, 6), (7, 8)]).bind
      (fun m => (iterate m).map (fun its => its.map (deref m))) =
      some [some (7, 8), some (1, 2), some (3, 4), some (5, 6)] := by
  decide

/-- `IndexingUnexistingKeyCreatesDefaultValue`: `map[0]` on the empty table is `0`. -/
theorem test_IndexingUnexistingKeyCreatesDefaultValue :
    (operatorIndex natHash natEq (empty : HashMap Nat Nat) 0).map (fun r => r.1) = some 0 := by
  decide

/-- `InsertPairExistingKeyDoNothing`: the second insertion of key 1 reports `false`, the
end iterator, and leaves the value 2 in place. -/
theorem test_InsertPairExistingKeyDoNothing :
    (ofList natHash natEq [(1, 2)]).bind (fun m =>
      (insertPair natHash natEq m (1, 4)).bind (fun r =>
        (operatorIndex natHash natEq r.2.2 1).map (fun v =>
          (r.1, iterEq r.2.1 (end_ r.2.2), v.1)))) = some (false, true, 2) := by
  decide

/-- `EraseWillDeleteElement`: after erasing key 2 from the table of `(1, 2), (2, 3),
(5, 6)` the traversal yields `(1, 2)` and `(5, 6)`. -/
theorem test_EraseWillDeleteElement :
    (ofList natHash natEq [(1, 2), (2, 3), (5, 6)]).bind (fun m =>
      (find natHash natEq m 2).bind (fun it =>
        (erase natEq m it).bind (fun r =>
          (iterate r.2).map (fun its => its.map (deref r.2))))) =
      some [some (1, 2), some (5, 6)] := by
  decide

/-- `EraseCanClearMap`: the drain loop empties the table of three pairs. -/
theorem test_EraseCanClearMap :
    (ofList natHash natEq [(1, 2), (2, 3), (5, 6)]).bind (fun m =>
      (eraseAll natEq m).bind (fun r => (iterate r.2.2).map (fun its => (size r.2.2, its)))) =
      some (0, []) := by
  decide

/-- `TryEmplaceReturnsRightIterator`: `try_emplace(3)` on the empty table returns an
iterator to `(3, 0)`. -/
theorem test_TryEmplaceReturnsRightIterator :
    (try_emplace natHash natEq (empty : HashMap Nat Nat) 3 (fun (_ : Unit) => (default : Nat)) ()).map
      (fun r => (r.1, deref r.2.2 r.2.1)) = some (true, some (3, 0)) := by
  decide

/-- `TryEmplaceReturnsFalseIfElementWithKeyAlreadyExists`. -/
theorem test_TryEmplaceExisting :
    (insert natHash natEq (empty : HashMap Nat Nat) 1 2).bind (fun r =>
      (try_emplace natHash natEq r.2.2 1 id 2).map (fun r' => (r'.1, size r'.2.2))) =
      some (false, 1) := by
  decide

/-- The list `(1, 2), (3, 4), (1, 9), (5, 6), (7, 8)` has four distinct keys. -/
theorem test_distinctKeys :
    distinctKeys natEq [(1, 2), (3, 4), (1, 9), (5, 6), (7, 8)] = 4 := by
  decide

end HashMap

/-! ## The sizing policy: the contract -/

namespace PrimesHelper

/-- Trial division accepts only primes among the odd numbers from 3 on. -/
theorem IsPrime_sound {n : Nat} (hodd : n % 2 = 1) (h3 : 3 ≤ n) (h : IsPrime n = true) :
    n.Prime := by
  by_contra hnp
  have hmf := Nat.minFac_sq_le_self (by omega : 0 < n) hnp
  have hpp := Nat.minFac_prime (by omega : n ≠ 1)
  have hdvd := Nat.minFac_dvd n
  have hpodd : n.minFac % 2 = 1 := by
    rcases hpp.eq_two_or_odd with h2 | h2
    · exfalso
      rw [h2] at hdvd
      omega
    · exact h2
  have hp3 : 3 ≤ n.minFac := by
    have := hpp.two_le
    omega
  have hle : n.minFac ≤ Nat.sqrt n := Nat.le_sqrt'.2 hmf
  unfold IsPrime at h
  rw [Nat.and_one_is_mod] at h
  have hne : ¬ (n % 2 = 0) := by omega
  simp only [hne, if_false, List.all_eq_true, List.mem_range, bne_iff_ne, ne_eq] at h
  apply h ((n.minFac - 3) / 2) (by omega)
  have e : 2 * ((n.minFac - 3) / 2) + 3 = n.minFac := by omega
  rw [e]
  exact Nat.mod_eq_zero_of_dvd hdvd

theorem Primes_sorted : Primes.Pairwise (fun a b => a < b) := by decide

theorem Primes_length : Primes.length = 71 := by decide

theorem Primes_prime : ∀ p ∈ Primes, Nat.Prime p := by
  intro p hp
  simp only [Primes, List.mem_cons, List.mem_singleton, List.not_mem_nil, or_false] at hp
  rcases hp with h | h | h | h | h | h | h | h | h | h | h | h | h | h | h | h | h | h | h | h |
    h | h | h | h | h | h | h | h | h | h | h | h | h | h | h | h | h | h | h | h |
    h | h | h | h | h | h | h | h | h | h | h | h | h | h | h | h | h | h | h | h |
    h | h | h | h | h | h | h | h | h | h | h <;> (subst h; norm_num)

theorem sqrt_MaxPrime : Nat.sqrt 2146435069 = 46329 := by
  symm
  rw [Nat.eq_sqrt]
  norm_num

set_option maxRecDepth 1000000 in
theorem trial_MaxPrime :
    (List.range 23164).all (fun j => 2146435069 % (2 * j + 3) != 0) = true := by
  decide!

theorem IsPrime_MaxPrime : IsPrime MaxPrime = true := by
  have h : IsPrime 2146435069 =
      (List.range ((Nat.sqrt 2146435069 - 1) / 2)).all
        (fun j => 2146435069 % (2 * j + 3) != 0) := by
    unfold IsPrime
    rw [Nat.and_one_is_mod]
    have hne : ¬ (2146435069 % 2 = 0) := by norm_num
    rw [if_neg hne]
  show IsPrime 2146435069 = true
  rw [h, sqrt_MaxPrime]
  exact trial_MaxPrime

theorem MaxPrime_prime : Nat.Prime MaxPrime :=
  IsPrime_sound (by decide) (by decide) IsPrime_MaxPrime

/-- What a successful scan returns: an accepted candidate below `SIZE_MAX`, reached from
the start in steps of two, all earlier candidates having been rejected. -/
theorem scan_some {num r : Nat} (h : GetPrime.scan num = some r) :
    r < SIZE_MAX ∧ IsPrime r = true ∧
      ∃ j, r = num + 2 * j ∧ ∀ i, i < j → IsPrime (num + 2 * i) = false := by
  induction num using GetPrime.scan.induct with
  | case1 x hlt hp =>
    rw [GetPrime.scan] at h
    simp only [hlt, hp, if_true, Option.some.injEq] at h
    subst h
    exact ⟨hlt, hp, 0, rfl, by intro i hi; omega⟩
  | case2 x hlt hnp ih =>
    rw [GetPrime.scan] at h
    simp only [hlt, hnp, if_true, if_false] at h
    obtain ⟨h1, h2, j, hj, hall⟩ := ih h
    refine ⟨h1, h2, j + 1, by omega, ?_⟩
    intro i hi
    cases i with
    | zero => simpa using hnp
    | succ i =>
      have := hall i (by omega)
      have e : x + 2 * (i + 1) = x + 2 + 2 * i := by ring
      rw [e]
      exact this
  | case3 x hge =>
    rw [GetPrime.scan] at h
    simp only [hge, if_false] at h
    cases h

/-- A failed scan has rejected every candidate below `SIZE_MAX`. -/
theorem scan_none {num : Nat} (h : GetPrime.scan num = none) (j : Nat)
    (hlt : num + 2 * j < SIZE_MAX) : IsPrime (num + 2 * j) = false := by
  cases hp : IsPrime (num + 2 * j) with
  | false => rfl
  | true =>
    obtain ⟨r, hr, _⟩ := scan_finds j num hp hlt
    rw [hr] at h
    cases h

theorem GetPrime_of_gt {min : Nat} (h : MaxPrimeFromList < min) :
    GetPrime min = GetPrime.scan (min ||| 1) := by
  unfold GetPrime
  have hne : ¬ (min ≤ MaxPrimeFromList) := by omega
  simp only [hne, if_false]

theorem GetPrime_of_le {min : Nat} (h : min ≤ MaxPrimeFromList) :
    GetPrime min = Primes.find? (fun prime => decide (prime ≥ min)) := by
  obtain ⟨p, hp, _⟩ := GetPrime_table h
  unfold GetPrime at hp ⊢
  simp only [h, if_true] at hp ⊢
  cases hf : Primes.find? (fun prime => decide (prime ≥ min)) with
  | none =>
    have := List.find?_eq_none.1 hf 7199369 (by decide)
    rw [MaxPrimeFromList_eq] at h
    simp at this
    omega
  | some q => rfl

/-- The odd numbers from `min | 1` on are the odd numbers that are at least `min`. -/
theorem odd_ge_or_one {min q : Nat} (hq : q % 2 = 1) (hle : min ≤ q) :
    ∃ j, q = (min ||| 1) + 2 * j := by
  have := or_one_eq min
  exact ⟨(q - (min ||| 1)) / 2, by omega⟩

/-- C13: for a minimum up to 7199369 `GetPrime` returns the smallest entry of the curated
table that is at least the minimum; for a larger minimum every value it returns is the
smallest prime that is at least the minimum. -/
theorem GetPrime_least (min : Nat) :
    (min ≤ 7199369 → ∃ p, GetPrime min = some p ∧ p ∈ Primes ∧ min ≤ p ∧
      ∀ q ∈ Primes, min ≤ q → p ≤ q) ∧
    (7199369 < min → ∀ p, GetPrime min = some p →
      Nat.Prime p ∧ min ≤ p ∧ ∀ q, Nat.Prime q → min ≤ q → p ≤ q) := by
  constructor
  · intro hle
    have hle' : min ≤ MaxPrimeFromList := by rw [MaxPrimeFromList_eq]; exact hle
    obtain ⟨p, hp, hmin, _⟩ := GetPrime_table hle'
    have hfind : Primes.find? (fun prime => decide (prime ≥ min)) = some p := by
      rw [← GetPrime_of_le hle']; exact hp
    refine ⟨p, hp, List.mem_of_find?_eq_some hfind, hmin, ?_⟩
    obtain ⟨_, front, back, hsplit, hfront⟩ := List.find?_eq_some.1 hfind
    intro q hq hminq
    have hsorted := Primes_sorted
    rw [hsplit] at hq hsorted
    rcases List.mem_append.1 hq with h | h
    · have := hfront q h
      simp at this
      omega
    · rcases List.mem_cons.1 h with h | h
      · omega
      · have := (List.pairwise_cons.1 (List.pairwise_append.1 hsorted).2.1).1 q h
        omega
  · intro hgt p hp
    have hgt' : MaxPrimeFromList < min := by rw [MaxPrimeFromList_eq]; exact hgt
    rw [GetPrime_of_gt hgt'] at hp
    obtain ⟨_, hacc, j, hj, hrej⟩ := scan_some hp
    have hor := or_one_eq min
    have hodd : p % 2 = 1 := by omega
    have hprime := IsPrime_sound hodd (by omega) hacc
    refine ⟨hprime, by omega, ?_⟩
    intro q hq hminq
    by_contra hlt
    have hqodd : q % 2 = 1 := by
      rcases hq.eq_two_or_odd with h2 | h2
      · omega
      · exact h2
    obtain ⟨i, hi⟩ := odd_ge_or_one hqodd hminq
    have := hrej i (by omega)
    rw [← hi, IsPrime_of_prime hq hqodd] at this
    cases this

theorem prime_7199371 : Nat.Prime 7199371 := by norm_num

theorem GetPrime_7199370 : GetPrime 7199370 = some 7199371 := by
  rw [GetPrime_of_gt (by rw [MaxPrimeFromList_eq]; decide)]
  have h1 : (7199370 ||| 1) = 7199371 := by decide
  rw [h1, GetPrime.scan]
  have h2 : 7199371 < SIZE_MAX := by decide
  rw [if_pos h2, if_pos (IsPrime_of_prime prime_7199371 (by decide))]

theorem GetPrime_least_witness :
    (∃ p, GetPrime 100 = some p ∧ p ∈ Primes ∧ 100 ≤ p ∧ ∀ q ∈ Primes, 100 ≤ q → p ≤ q) ∧
    (Nat.Prime 7199371 ∧ 7199370 ≤ 7199371 ∧
      ∀ q, Nat.Prime q → 7199370 ≤ q → 7199371 ≤ q) :=
  ⟨(GetPrime_least 100).1 (by decide),
   (GetPrime_least 7199370).2 (by decide) 7199371 GetPrime_7199370⟩

/-- Every value returned by `GetPrime` is prime. -/
theorem GetPrime_prime {min p : Nat} (h : GetPrime min = some p) : Nat.Prime p := by
  by_cases hle : min ≤ MaxPrimeFromList
  · rw [GetPrime_of_le hle] at h
    exact Primes_prime p (List.mem_of_find?_eq_some h)
  · have hgt : MaxPrimeFromList < min := by omega
    rw [GetPrime_of_gt hgt] at h
    obtain ⟨_, hacc, j, hj, _⟩ := scan_some h
    have hor := or_one_eq min
    rw [MaxPrimeFromList_eq] at hgt
    exact IsPrime_sound (by omega) (by omega) hacc

/-- C14: the curated table has 71 entries, is strictly ascending and holds primes only;
the clamp constant 2146435069 is prime; every odd number above 7199369 that `IsPrime`
accepts is prime; hence every value returned by `GetPrime` or `ExpandPrime` is prime. -/
theorem sizes_are_prime :
    Primes.length = 71 ∧ Primes.Pairwise (fun a b => a < b) ∧ (∀ p ∈ Primes, Nat.Prime p) ∧
    MaxPrime = 2146435069 ∧ Nat.Prime MaxPrime ∧
    (∀ n, 7199369 < n → n % 2 = 1 → IsPrime n = true → Nat.Prime n) ∧
    (∀ min p, GetPrime min = some p → Nat.Prime p) ∧
    (∀ n c, ExpandPrime n = some c → Nat.Prime c) := by
  refine ⟨Primes_length, Primes_sorted, Primes_prime, rfl, MaxPrime_prime, ?_, ?_, ?_⟩
  · intro n hn hodd hacc
    exact IsPrime_sound hodd (by omega) hacc
  · intro min p h
    exact GetPrime_prime h
  · intro n c h
    unfold ExpandPrime at h
    by_cases hc : n < MaxPrime ∧ MaxPrime < n * 2 % 2 ^ 64
    · simp only [hc, and_self, if_true, Option.some.injEq] at h
      rw [← h]
      exact MaxPrime_prime
    · simp only [hc, if_false] at h
      exact GetPrime_prime h

/-- C15: `ExpandPrime(n)`, with `n * 2` reduced modulo `2 ^ 64`, returns the constant
2146435069 when `n < 2146435069 < n * 2` and the result of `GetPrime(n * 2)` otherwise;
when `n * 2` is at most 2146435069 it returns a value that is at least `2 * n`. -/
theorem ExpandPrime_cases (n : Nat) :
    (n < 2146435069 ∧ 2146435069 < n * 2 % 2 ^ 64 → ExpandPrime n = some 2146435069) ∧
    (¬ (n < 2146435069 ∧ 2146435069 < n * 2 % 2 ^ 64) →
      ExpandPrime n = GetPrime (n * 2 % 2 ^ 64)) ∧
    (n * 2 ≤ 2146435069 → ∃ c, ExpandPrime n = some c ∧ 2 * n ≤ c) := by
  have hM : MaxPrime = 2146435069 := rfl
  refine ⟨?_, ?_, ?_⟩
  · intro h
    unfold ExpandPrime
    rw [hM]
    simp only [h, and_self, if_true]
  · intro h
    unfold ExpandPrime
    rw [hM]
    simp only [h, if_false]
  · intro h
    unfold ExpandPrime
    rw [hM]
    have hmod : n * 2 % 2 ^ 64 = n * 2 := Nat.mod_eq_of_lt (by omega)
    have hc : ¬ (n < 2146435069 ∧ 2146435069 < n * 2 % 2 ^ 64) := by
      rw [hmod]
      omega
    simp only [hc, if_false]
    rw [hmod]
    by_cases ht : n * 2 ≤ MaxPrimeFromList
    · obtain ⟨p, hp, h1, _⟩ := GetPrime_table ht
      exact ⟨p, hp, by omega⟩
    · have hS : SIZE_MAX = 2 ^ 64 - 1 := rfl
      obtain ⟨p, hp, h1⟩ := GetPrime_scan (not_le.1 ht) (by omega)
      exact ⟨p, hp, by omega⟩

theorem ExpandPrime_cases_witness :
    ExpandPrime 2000000000 = some 2146435069 ∧
    ExpandPrime 3 = GetPrime (3 * 2 % 2 ^ 64) ∧
    (∃ c, ExpandPrime 3 = some c ∧ 2 * 3 ≤ c) :=
  ⟨(ExpandPrime_cases 2000000000).1 (by decide),
   (ExpandPrime_cases 3).2.1 (by decide),
   (ExpandPrime_cases 3).2.2 (by decide)⟩

/-- C17: `GetPrime(min)` throws `PrimesError` exactly when the minimum exceeds 7199369
and no prime lies between the minimum and `SIZE_MAX = 2 ^ 64 - 1`; and no candidate of
the scan makes `num + 2` exceed `SIZE_MAX`, so the scan variable does not wrap around. -/
theorem GetPrime_fails_iff (min : Nat) :
    (GetPrime min = none ↔
      (7199369 < min ∧ ¬ ∃ p, Nat.Prime p ∧ min ≤ p ∧ p < 2 ^ 64 - 1)) ∧
    (∀ j, (min ||| 1) + 2 * j < SIZE_MAX →
      (min ||| 1) + 2 * j + 2 ≤ SIZE_MAX ∧
      ((min ||| 1) + 2 * j + 2) % 2 ^ 64 = (min ||| 1) + 2 * j + 2) := by
  have hS : SIZE_MAX = 2 ^ 64 - 1 := rfl
  have hor := or_one_eq min
  constructor
  · constructor
    · intro hnone
      have hgt : 7199369 < min := by
        by_contra hle
        have hle' : min ≤ MaxPrimeFromList := by rw [MaxPrimeFromList_eq]; omega
        obtain ⟨p, hp, _⟩ := GetPrime_table hle'
        rw [hp] at hnone
        cases hnone
      refine ⟨hgt, ?_⟩
      rintro ⟨p, hp, hle, hlt⟩
      rw [GetPrime_of_gt (by rw [MaxPrimeFromList_eq]; exact hgt)] at hnone
      have hodd : p % 2 = 1 := by
        rcases hp.eq_two_or_odd with h2 | h2
        · omega
        · exact h2
      obtain ⟨j, hj⟩ := odd_ge_or_one hodd hle
      have := scan_none hnone j (by rw [← hj, hS]; exact hlt)
      rw [← hj, IsPrime_of_prime hp hodd] at this
      cases this
    · rintro ⟨hgt, hno⟩
      rw [GetPrime_of_gt (by rw [MaxPrimeFromList_eq]; exact hgt)]
      cases hs : GetPrime.scan (min ||| 1) with
      | none => rfl
      | some r =>
        exfalso
        obtain ⟨hlt, hacc, j, hj, _⟩ := scan_some hs
        apply hno
        exact ⟨r, IsPrime_sound (by omega) (by omega) hacc, by omega, by rw [← hS]; exact hlt⟩
  · intro j hlt
    rw [hS] at hlt ⊢
    constructor
    · omega
    · apply Nat.mod_eq_of_lt
      omega

theorem GetPrime_fails_iff_witness :
    (∃ p, Nat.Prime p ∧ 7199370 ≤ p ∧ p < 2 ^ 64 - 1) ∧
    ((7199370 ||| 1) + 2 * 5 + 2 ≤ SIZE_MAX ∧
      ((7199370 ||| 1) + 2 * 5 + 2) % 2 ^ 64 = (7199370 ||| 1) + 2 * 5 + 2) := by
  constructor
  · by_contra hno
    have h := (GetPrime_fails_iff 7199370).1.2 ⟨by decide, hno⟩
    rw [GetPrime_7199370] at h
    cases h
  · exact (GetPrime_fails_iff 7199370).2 5 (by decide)

end PrimesHelper

/-! ## Copying -/

namespace HashMap

variable {K V : Type} {hasher : K → Nat} {eq : K → K → Bool}

theorem length_filterMap_of_ne_none {α β : Type} (f : α → Option β) :
    ∀ (l : List α), (∀ a ∈ l, f a ≠ none) → (l.filterMap f).length = l.length
  | [], _ => rfl
  | a :: l, h => by
    obtain ⟨b, hb⟩ := Option.ne_none_iff_exists'.1 (h a (List.mem_cons_self _ _))
    rw [List.filterMap_cons_some hb, List.length_cons, List.length_cons,
      length_filterMap_of_ne_none f l (fun x hx => h x (List.mem_cons_of_mem _ hx))]

/-- Pairs with pairwise different keys are all counted by `distinctKeys`. -/
theorem distinctKeysAux_of_pairwise (hk : LawfulKeys hasher eq) :
    ∀ (rest : List (K × V)) (seen : List K),
    rest.Pairwise (fun a b => eq a.1 b.1 = false) →
    (∀ p ∈ rest, ∀ k ∈ seen, eq p.1 k = false) →
    distinctKeysAux eq seen rest = rest.length
  | [], _, _, _ => rfl
  | p :: rest, seen, hpw, hs => by
    rw [List.pairwise_cons] at hpw
    have hany : seen.any (fun k => eq p.1 k) = false := by
      rw [List.any_eq_false]
      intro k hkm
      rw [hs p (List.mem_cons_self _ _) k hkm]
      simp
    unfold distinctKeysAux
    rw [hany]
    simp only [Bool.false_eq_true, if_false, List.length_cons, Nat.add_right_cancel_iff]
    apply distinctKeysAux_of_pairwise hk rest (p.1 :: seen) hpw.2
    intro q hq k hkm
    rcases List.mem_cons.1 hkm with rfl | hkm
    · cases hqp : eq q.1 p.1 with
      | false => rfl
      | true =>
        have := hk.symm _ _ hqp
        rw [hpw.1 q hq] at this
        cases this
    · exact hs q (List.mem_cons_of_mem _ hq) k hkm

/-- The copy loop inserts the pairs met by the traversal of the source, in order. -/
theorem copyLoop_eq (hasher : K → Nat) (eq : K → K → Bool) (other : HashMap K V) :
    ∀ (fuel : Nat) (it : Iterator) (its : List Iterator) (self : HashMap K V),
    iterateFrom other fuel it = some its →
    (∀ i ∈ its, deref other i ≠ none) →
    copyLoop hasher eq other fuel it self =
      (its.filterMap (deref other)).foldlM
        (fun m kvp => (fun r => r.2.2) <$> insertPair hasher eq m kvp) self
  | 0, it, its, self, h, _ => by simp [iterateFrom] at h
  | fuel + 1, it, its, self, h, hd => by
    unfold iterateFrom at h
    unfold copyLoop
    by_cases hend : it.currentEntryIndex = -1
    · rw [if_pos hend] at h ⊢
      cases h
      rfl
    · rw [if_neg hend] at h ⊢
      cases hi : incr other it with
      | none => simp [hi] at h
      | some it' =>
        cases hr : iterateFrom other fuel it' with
        | none => simp [hi, hr] at h
        | some rest =>
          simp only [hi, hr, Option.bind_eq_bind, Option.some_bind, Option.some.injEq] at h
          subst h
          obtain ⟨kv, hkv⟩ := Option.ne_none_iff_exists'.1 (hd it (List.mem_cons_self _ _))
          rw [List.filterMap_cons_some hkv, List.foldlM_cons]
          simp only [hkv, Option.bind_eq_bind, Option.some_bind]
          cases hins : insertPair hasher eq self kv with
          | none => rfl
          | some r =>
            simp only [Option.some_bind, Option.map_eq_map, Option.map_some']
            exact copyLoop_eq hasher eq other fuel it' rest r.2.2 hr
              (fun i hi' => hd i (List.mem_cons_of_mem _ hi'))

/-- The pairs met by the traversal of a well-formed table are the stored pairs. -/
theorem mem_order_pairs {m : HashMap K V} (hwf : WF hasher eq m) {chain : Nat → List Nat}
    (hch : ChainsOk m chain) (kv : K × V) :
    kv ∈ (orderFrom m.capacity chain 0).filterMap (deref m) ↔
      ∃ i, (entryAt m.entries i).kvp = some kv := by
  rw [List.mem_filterMap]
  constructor
  · rintro ⟨it, _, hit⟩
    exact ⟨it.currentEntryIndex.toNat, hit⟩
  · rintro ⟨i, hi⟩
    have hocc : (entryAt m.entries i).kvp ≠ none := by rw [hi]; simp
    obtain ⟨it, hit, rfl⟩ := List.mem_map.1 ((mem_order_entries hwf hch i).2 hocc)
    exact ⟨it, hit, hi⟩

/-- The pairs met by the traversal of a well-formed table have pairwise different keys. -/
theorem pairwise_order_pairs {m : HashMap K V} (hwf : WF hasher eq m)
    {chain : Nat → List Nat} (hch : ChainsOk m chain) :
    ((orderFrom m.capacity chain 0).filterMap (deref m)).Pairwise
      (fun a b => eq a.1 b.1 = false) := by
  have hnd := nodup_order_entries hch
  have he : (orderFrom m.capacity chain 0).filterMap (deref m) =
      ((orderFrom m.capacity chain 0).map (fun it => it.currentEntryIndex.toNat)).filterMap
        (fun i => (entryAt m.entries i).kvp) := by
    rw [List.filterMap_map]
    rfl
  rw [he]
  refine List.Pairwise.filterMap _ ?_ hnd
  intro i j hij a ha b hb
  cases hab : eq a.1 b.1 with
  | false => rfl
  | true => exact absurd (hwf.keys_unique i j a b ha hb hab) hij

/-- On a well-formed table `find` looks a key up among the pairs met by the traversal. -/
theorem findEntry_eq_find_order (hk : LawfulKeys hasher eq) {m : HashMap K V}
    (hwf : WF hasher eq m) {chain : Nat → List Nat} (hch : ChainsOk m chain) (k : K) :
    findEntry hasher eq m k =
      some (((orderFrom m.capacity chain 0).filterMap (deref m)).find?
        (fun p => eq k p.1)) := by
  by_cases hex : ∃ i kv, (entryAt m.entries i).kvp = some kv ∧ eq k kv.1 = true
  · obtain ⟨i, kv, hkv, he⟩ := hex
    rw [findEntry_present hk hwf hkv he]
    have hmem := (mem_order_pairs hwf hch kv).2 ⟨i, hkv⟩
    have hfind := find?_of_pairwise hk _ (pairwise_order_pairs hwf hch) kv hmem
    have hcongr : (fun (p : K × V) => eq k p.1) = (fun p => eq kv.1 p.1) := by
      funext p
      cases h1 : eq k p.1 with
      | true =>
        exact (hk.trans _ _ _ (hk.symm _ _ he) h1).symm
      | false =>
        cases h2 : eq kv.1 p.1 with
        | false => rfl
        | true =>
          rw [hk.trans _ _ _ he h2] at h1
          cases h1
    rw [hcongr, hfind]
  · have habs : ∀ i kv, (entryAt m.entries i).kvp = some kv → eq k kv.1 = false := by
      intro i kv hkv
      cases he : eq k kv.1 with
      | false => rfl
      | true => exact absurd ⟨i, kv, hkv, he⟩ hex
    rw [findEntry_absent hwf habs]
    congr 1
    symm
    rw [List.find?_eq_none]
    intro p hp
    obtain ⟨i, hi⟩ := (mem_order_pairs hwf hch p).1 hp
    rw [habs i p hi]
    simp

/-- Filling the empty table from a well-formed source gives a well-formed table of the
same size on which `find` answers as on the source. -/
theorem copyFrom_empty_spec (hk : LawfulKeys hasher eq) {other : HashMap K V}
    (hwf : WF hasher eq other) (hr : InRange other) :
    ∃ m', copyFrom hasher eq empty other = some m' ∧ WF hasher eq m' ∧
      size m' = size other ∧
      (∀ k, findEntry hasher eq m' k = findEntry hasher eq other k) ∧
      m'.usedEntriesAmount ≤ size other := by
  obtain ⟨chain, hch⟩ := hwf.chains
  have hit := iterate_spec hwf hch
  have hderef : ∀ i ∈ orderFrom other.capacity chain 0, deref other i ≠ none := by
    intro it hmem
    exact (mem_order_entries hwf hch it.currentEntryIndex.toNat).1
      (List.mem_map.2 ⟨it, hmem, rfl⟩)
  have hlen : ((orderFrom other.capacity chain 0).filterMap (deref other)).length =
      size other := by
    rw [length_filterMap_of_ne_none _ _ hderef, length_order hwf hch]
  have hused : size other ≤ PrimesHelper.MaxPrime := by
    have : other.usedEntriesAmount < PrimesHelper.MaxPrime := hr
    unfold size
    omega
  obtain ⟨m', h1, h2, h3, h4, h5⟩ := ofList_spec hk
    ((orderFrom other.capacity chain 0).filterMap (deref other)) (by rw [hlen]; exact hused)
  refine ⟨m', ?_, h2, ?_, ?_, ?_⟩
  · unfold iterate at hit
    unfold copyFrom
    cases hb : begin other with
    | none => simp [hb] at hit
    | some start =>
      simp only [hb, Option.bind_eq_bind, Option.some_bind] at hit ⊢
      rw [copyLoop_eq hasher eq other _ start _ empty hit hderef]
      exact h1
  · rw [h3]
    unfold distinctKeys
    rw [distinctKeysAux_of_pairwise hk _ [] (pairwise_order_pairs hwf hch)
      (by intro p _ k hkm; cases hkm), hlen]
  · intro k
    rw [h4 k, findEntry_eq_find_order hk hwf hch k]
  · rw [← hlen]
    exact h5

/-- Two well-formed tables on which `find` agrees store the same pairs. -/
theorem stored_of_findEntry_eq (hk : LawfulKeys hasher eq) {m m' : HashMap K V}
    (hwf : WF hasher eq m) (hwf' : WF hasher eq m')
    (h : ∀ k, findEntry hasher eq m' k = findEntry hasher eq m k) (kv : K × V) :
    (∃ i, (entryAt m'.entries i).kvp = some kv) ↔ ∃ i, (entryAt m.entries i).kvp = some kv := by
  constructor
  · rintro ⟨i, hi⟩
    have := findEntry_present hk hwf' hi (hk.refl kv.1)
    rw [h] at this
    obtain ⟨j, hj, _⟩ := (findEntry_some_iff hk hwf kv.1 kv).1 this
    exact ⟨j, hj⟩
  · rintro ⟨i, hi⟩
    have := findEntry_present hk hwf hi (hk.refl kv.1)
    rw [← h] at this
    obtain ⟨j, hj, _⟩ := (findEntry_some_iff hk hwf' kv.1 kv).1 this
    exact ⟨j, hj⟩

/-- C11: for every well-formed source table (with fewer than `MaxPrime` slots in use and
a lawful hasher and comparer) the copy constructor and the copy assignment return, leave
the source as it was, and produce a well-formed table with the size of the source, on
which `find` answers as on the source for every key and which stores exactly the pairs
of the source; the result of the copy assignment does not depend on what the
destination held, and assigning a table to itself leaves it unchanged. -/
theorem copy_spec (hk : LawfulKeys hasher eq) (other : HashMap K V)
    (hwf : WF hasher eq other) (hr : InRange other) :
    ∃ m', copyConstruct hasher eq other = some (m', other) ∧
      (∀ self, copyAssign hasher eq self (some other) = some (m', other)) ∧
      copyAssign hasher eq other none = some (other, other) ∧
      WF hasher eq m' ∧ size m' = size other ∧
      (∀ k, findEntry hasher eq m' k = findEntry hasher eq other k) ∧
      (∀ kv, (∃ i, (entryAt m'.entries i).kvp = some kv) ↔
        ∃ i, (entryAt other.entries i).kvp = some kv) := by
  obtain ⟨m', h1, h2, h3, h4, _⟩ := copyFrom_empty_spec hk hwf hr
  refine ⟨m', ?_, ?_, rfl, h2, h3, h4, stored_of_findEntry_eq hk hwf h2 h4⟩
  · unfold copyConstruct
    rw [h1]
    rfl
  · intro self
    show (do let self ← copyFrom hasher eq empty other; some (self, other)) = some (m', other)
    rw [h1]
    rfl

theorem copy_spec_witness :
    ∃ m', copyConstruct natHash natEq sampleFull = some (m', sampleFull) ∧
      (∀ self, copyAssign natHash natEq self (some sampleFull) = some (m', sampleFull)) ∧
      copyAssign natHash natEq sampleFull none = some (sampleFull, sampleFull) ∧
      WF natHash natEq m' ∧ size m' = size sampleFull ∧
      (∀ k, findEntry natHash natEq m' k = findEntry natHash natEq sampleFull k) ∧
      (∀ kv, (∃ i, (entryAt m'.entries i).kvp = some kv) ↔
        ∃ i, (entryAt sampleFull.entries i).kvp = some kv) :=
  copy_spec lawfulKeys_nat sampleFull WF_sampleFull InRange_sampleFull

/-- The copy of the sample table, computed: the pairs are re-inserted in traversal
order, so the slots are filled in another order than in the source. -/
theorem test_copyConstruct :
    copyConstruct natHash natEq sampleFull =
      some (HashMap.mk [-1, 2, -1]
        [⟨7, some (7, 6), -1⟩, ⟨4, some (4, 3), 0⟩, ⟨1, some (1, 2), 1⟩] 3 3 0 (-1),
        sampleFull) := by
  decide

end HashMap

/-! ## Invariants of the reachable states -/

namespace HashMap

variable {K V : Type} {hasher : K → Nat} {eq : K → K → Bool}

theorem Fresh_empty : Fresh (empty : HashMap K V) := by
  intro i _
  exact entryAt_nil i

/-- The slots that `Enlarge` does not fill from the old array are default entries. -/
theorem Enlarge_fresh {m : HashMap K V} {c : Nat}
    (hc : PrimesHelper.ExpandPrime m.capacity = some c) (hlt : m.capacity < c)
    {m' : HashMap K V} (h : Enlarge m = some m') :
    m'.usedEntriesAmount = m.usedEntriesAmount ∧
      ∀ i, m.capacity ≤ i → entryAt m'.entries i = emptyEntry := by
  have hinv := Enlarge.fold_inv m.entries c m.capacity (le_of_lt hlt)
  have hE : Enlarge m = some (HashMap.mk
      ((List.range m.capacity).foldl (Enlarge.step c m.entries)
        (List.replicate c (-1), List.replicate c emptyEntry)).1
      ((List.range m.capacity).foldl (Enlarge.step c m.entries)
        (List.replicate c (-1), List.replicate c emptyEntry)).2
      c m.usedEntriesAmount m.deletedEntriesAmount m.deletedList) := by
    unfold Enlarge
    simp only [hc, Option.bind_eq_bind, Option.some_bind]
    rw [if_neg (by omega)]
  rw [hE] at h
  cases h
  exact ⟨rfl, hinv.2.2.2.1⟩

/-- Reserving a slot keeps the never-used slots in their default state. -/
theorem GetNextCreationBucketAndIndex_fresh {m : HashMap K V} (hwf : WF hasher eq m)
    (hr : InRange m) (hf : Fresh m) (hash : Nat) {r : Int × Int × HashMap K V}
    (h : GetNextCreationBucketAndIndex m hash = some r) : Fresh r.2.2 := by
  by_cases hcap : m.capacity = 0
  · have hm := hwf.eq_empty_of_capacity_zero hcap
    subst hm
    have hget : GetNextCreationBucketAndIndex (empty : HashMap K V) hash =
        some (((hash % 3 : Nat) : Int), ((0 : Nat) : Int),
          HashMap.mk (List.replicate 3 (-1)) (List.replicate 3 emptyEntry) 3 1 0 (-1)) := by
      unfold GetNextCreationBucketAndIndex
      simp only [hcap, if_true, Initialize_empty, Option.bind_eq_bind, Option.some_bind]
      simp
    rw [hget] at h
    cases h
    intro i _
    exact entryAt_replicate 3 i
  · by_cases hdel : 0 < m.deletedEntriesAmount
    · have hget : GetNextCreationBucketAndIndex m hash =
          some (((hash % m.capacity : Nat) : Int), m.deletedList,
            HashMap.mk m.buckets m.entries m.capacity m.usedEntriesAmount
              (m.deletedEntriesAmount - 1) (entryAt m.entries m.deletedList.toNat).next) := by
        unfold GetNextCreationBucketAndIndex
        simp only [hcap, if_false, Option.bind_eq_bind, Option.some_bind, gt_iff_lt, hdel,
          if_true]
      rw [hget] at h
      cases h
      exact hf
    · have hdel0 : m.deletedEntriesAmount = 0 := by omega
      by_cases hfull : m.usedEntriesAmount = m.capacity
      · have hr' : m.capacity ≤ PrimesHelper.MaxPrime := by
          have : m.usedEntriesAmount < PrimesHelper.MaxPrime := hr
          omega
        obtain ⟨c, hc, hlt⟩ := PrimesHelper.ExpandPrime_gt hr'
        obtain ⟨me, hme, _, _, husede, _⟩ := Enlarge_spec hwf hfull hdel0 hc hlt
        have hfe := (Enlarge_fresh hc hlt hme).2
        have hget : GetNextCreationBucketAndIndex m hash =
            some (((hash % me.capacity : Nat) : Int), (me.usedEntriesAmount : Int),
              HashMap.mk me.buckets me.entries me.capacity (me.usedEntriesAmount + 1)
                me.deletedEntriesAmount me.deletedList) := by
          unfold GetNextCreationBucketAndIndex
          simp only [hcap, if_false, Option.bind_eq_bind, Option.some_bind, gt_iff_lt, hdel,
            hfull, if_true, hme]
        rw [hget] at h
        cases h
        intro i hi
        have hi' : me.usedEntriesAmount + 1 ≤ i := hi
        exact hfe i (by omega)
      · have hget : GetNextCreationBucketAndIndex m hash =
            some (((hash % m.capacity : Nat) : Int), (m.usedEntriesAmount : Int),
              HashMap.mk m.buckets m.entries m.capacity (m.usedEntriesAmount + 1)
                m.deletedEntriesAmount m.deletedList) := by
          unfold GetNextCreationBucketAndIndex
          simp only [hcap, if_false, Option.bind_eq_bind, Option.some_bind, gt_iff_lt, hdel,
            hfull]
        rw [hget] at h
        cases h
        intro i hi
        have hi' : m.usedEntriesAmount + 1 ≤ i := hi
        exact hf i (by omega)

/-- Creating an entry for an absent key keeps the table well formed and the never-used
slots in their default state. -/
theorem CreateAndGetEntryIndex_inv (hk : LawfulKeys hasher eq) {m : HashMap K V}
    (hwf : WF hasher eq m) (hr : InRange m) (hf : Fresh m) (key : K) {A : Type}
    (ctor : A → V) (args : A)
    (habs : ∀ i kv, (entryAt m.entries i).kvp = some kv → eq key kv.1 = false)
    {r : Int × HashMap K V}
    (h : CreateAndGetEntryIndex m (hasher key) key ctor args = some r) :
    WF hasher eq r.2 ∧ Fresh r.2 := by
  obtain ⟨x, m', hc, hwf', _⟩ := CreateAndGetEntryIndex_spec hk hwf hr key ctor args habs
  constructor
  · rw [hc] at h
    cases h
    exact hwf'
  · obtain ⟨y, m1, hget, hres, _⟩ := GetNextCreationBucketAndIndex_spec hwf hr (hasher key)
    have hf1 : Fresh m1 := GetNextCreationBucketAndIndex_fresh hwf hr hf (hasher key) hget
    unfold CreateAndGetEntryIndex at h
    simp only [hget, Option.bind_eq_bind, Option.some_bind, Int.toNat_ofNat] at h
    cases h
    intro i hi
    have hi' : m1.usedEntriesAmount ≤ i := hi
    have hy := hres.slot_lt
    show entryAt (m1.entries.set y _) i = emptyEntry
    rw [entryAt_set_ne _ (by omega)]
    exact hf1 i hi'

/-- The table left by `try_emplace` is well formed with its never-used slots in their
default state. -/
theorem try_emplace_inv (hk : LawfulKeys hasher eq) {m : HashMap K V}
    (hwf : WF hasher eq m) (hr : InRange m) (hf : Fresh m) (key : K) {A : Type}
    (ctor : A → V) (args : A) {r : Bool × Iterator × HashMap K V}
    (h : try_emplace hasher eq m key ctor args = some r) :
    WF hasher eq r.2.2 ∧ Fresh r.2.2 := by
  rcases TryFindEntryIndex_cases hk hwf key with ⟨_, habs⟩ | ⟨i, kv, _, hkv, he⟩
  · obtain ⟨x, m', hc, _⟩ := CreateAndGetEntryIndex_spec hk hwf hr key ctor args habs
    have hinv := CreateAndGetEntryIndex_inv hk hwf hr hf key ctor args habs hc
    unfold try_emplace at h
    simp only [TryFindEntryIndex_absent hwf habs, Option.bind_eq_bind, Option.some_bind,
      ne_eq, not_true_eq_false, if_false, hc] at h
    cases h
    exact hinv
  · rw [try_emplace_present hk hwf key ctor args hkv he] at h
    cases h
    exact ⟨hwf, hf⟩

/-- The table left by `operator[]` is well formed with its never-used slots in their
default state. -/
theorem operatorIndex_inv [Inhabited V] (hk : LawfulKeys hasher eq) {m : HashMap K V}
    (hwf : WF hasher eq m) (hr : InRange m) (hf : Fresh m) (key : K) {r : V × HashMap K V}
    (h : operatorIndex hasher eq m key = some r) : WF hasher eq r.2 ∧ Fresh r.2 := by
  rcases TryFindEntryIndex_cases hk hwf key with ⟨_, habs⟩ | ⟨i, kv, hfind, hkv, he⟩
  · obtain ⟨x, m', hc, _, _, hnew, _⟩ :=
      CreateAndGetEntryIndex_spec hk hwf hr key (fun (_ : Unit) => (default : V)) () habs
    have hinv := CreateAndGetEntryIndex_inv hk hwf hr hf key
      (fun (_ : Unit) => (default : V)) () habs hc
    unfold operatorIndex at h
    simp only [TryFindEntryIndex_absent hwf habs, Option.bind_eq_bind, Option.some_bind,
      ne_eq, not_true_eq_false, if_false, hc, Int.toNat_ofNat, hnew] at h
    cases h
    exact hinv
  · unfold operatorIndex at h
    have : (i : Int) ≠ -1 := by omega
    simp only [hfind, Option.bind_eq_bind, Option.some_bind, this, ne_eq, not_false_eq_true,
      if_true, Int.toNat_ofNat, hkv] at h
    cases h
    exact ⟨hwf, hf⟩

/-- Erasing a stored pair keeps the table well formed and the never-used slots in their
default state. -/
theorem erase_inv (hk : LawfulKeys hasher eq) {m : HashMap K V} (hwf : WF hasher eq m)
    (hf : Fresh m) (position : Iterator) (hpos : 0 ≤ position.currentEntryIndex)
    (hd : deref m position ≠ none) {r : Iterator × HashMap K V}
    (h : erase eq m position = some r) : WF hasher eq r.2 ∧ Fresh r.2 := by
  obtain ⟨x, hx⟩ : ∃ x : Nat, position.currentEntryIndex = (x : Int) :=
    ⟨position.currentEntryIndex.toNat, (Int.toNat_of_nonneg hpos).symm⟩
  have hocc : (entryAt m.entries x).kvp ≠ none := by
    unfold deref at hd
    rw [hx, Int.toNat_ofNat] at hd
    exact hd
  obtain ⟨kv, hkv⟩ := Option.ne_none_iff_exists'.1 hocc
  obtain ⟨chain, hch⟩ := hwf.chains
  have hcap : 0 < m.capacity := hwf.capacity_pos hocc
  have hbx : (entryAt m.entries x).hash % m.capacity < m.capacity := Nat.mod_lt _ hcap
  have hmem : x ∈ chain ((entryAt m.entries x).hash % m.capacity) :=
    ((hch _ hbx).2.2 x).2 ⟨hocc, rfl⟩
  obtain ⟨pre, post, hsplit⟩ := List.append_of_mem hmem
  obtain ⟨r', m', he, hwf', hch', _, hused, _, _, _, _, _⟩ :=
    erase_spec hk hwf hch hkv hsplit position hx
  obtain ⟨bs2, es2, hstate, hnextx, _, _, _, hsame, hnext, _⟩ :=
    erase_state hwf hch hkv hsplit
  have hprev := FindPreviousIndexOf_spec hk hwf hch hkv hsplit
  rw [he] at h
  cases h
  refine ⟨hwf', ?_⟩
  have hm' : m' = HashMap.mk bs2 es2 m.capacity m.usedEntriesAmount
      (m.deletedEntriesAmount + 1) (x : Int) := by
    unfold erase at he
    simp only [hx, Int.toNat_ofNat, Option.bind_eq_bind, hprev, Option.some_bind, hnextx,
      hstate] at he
    rw [if_neg (by omega)] at he
    cases hs : erase.successor (HashMap.mk bs2 es2 m.capacity m.usedEntriesAmount
      (m.deletedEntriesAmount + 1) (x : Int))
      (((entryAt m.entries x).hash % m.capacity : Nat) : Int) (entryAt m.entries x).next with
    | none =>
      rw [hs] at he
      cases he
    | some it =>
      rw [hs] at he
      simp at he
      exact he.2.symm
  subst hm'
  intro i hi
  have hi' : m.usedEntriesAmount ≤ i := hi
  have hxlt : x < m.usedEntriesAmount := hwf.occupied_lt x hocc
  have hix : i ≠ x := by omega
  have hipre : pre.getLast? ≠ some i := by
    intro hl
    have hip : i ∈ pre := List.mem_of_getLast?_eq_some hl
    have hic : i ∈ chain ((entryAt m.entries x).hash % m.capacity) := by
      rw [hsplit]
      exact List.mem_append_left _ hip
    have := hwf.occupied_lt i (((hch _ hbx).2.2 i).1 hic).1
    omega
  have h1 := hsame i hix
  have h2 := hnext i hix hipre
  have h3 := hf i hi'
  show entryAt es2 i = emptyEntry
  rw [h3] at h1 h2
  cases hE : entryAt es2 i with
  | mk hash kvp next =>
    rw [hE] at h1 h2
    simp only [emptyEntry] at h1 h2 ⊢
    obtain ⟨ha, hb⟩ := h1
    subst ha hb h2
    rfl

/-- Every reachable state is well formed and has its never-used slots in their default
state. -/
theorem Reachable.inv (hk : LawfulKeys hasher eq) {m : HashMap K V}
    (h : Reachable hasher eq m) : WF hasher eq m ∧ Fresh m := by
  induction h with
  | start => exact ⟨WF_empty, Fresh_empty⟩
  | insertPair item _ hr hop ih =>
    rw [insertPair_eq_insert, insert_eq_try_emplace] at hop
    exact try_emplace_inv hk ih.1 hr ih.2 _ _ _ hop
  | insert key value _ hr hop ih =>
    rw [insert_eq_try_emplace] at hop
    exact try_emplace_inv hk ih.1 hr ih.2 _ _ _ hop
  | try_emplace key ctor args _ hr hop ih =>
    exact try_emplace_inv hk ih.1 hr ih.2 _ _ _ hop
  | operatorIndex key _ hr hop ih =>
    exact operatorIndex_inv hk ih.1 hr ih.2 _ hop
  | erase position _ hpos hd hop ih =>
    exact erase_inv hk ih.1 ih.2 position hpos hd hop
  | @growth m0 m1 _ hr hfull hfree hop ih =>
    have hr' : m0.capacity ≤ PrimesHelper.MaxPrime := by
      have : m0.usedEntriesAmount < PrimesHelper.MaxPrime := hr
      omega
    obtain ⟨c, hc, hlt⟩ := PrimesHelper.ExpandPrime_gt hr'
    obtain ⟨me, hme, hwfe, _⟩ := Enlarge_spec ih.1 hfull hfree hc hlt
    obtain ⟨hu, hfr⟩ := Enlarge_fresh hc hlt hop
    rw [hme] at hop
    cases hop
    refine ⟨hwfe, ?_⟩
    intro i hi
    exact hfr i (by omega)

end HashMap

/-! ## The invariants, stated for the reachable states -/

namespace HashMap

variable {K V : Type} {hasher : K → Nat} {eq : K → K → Bool}

/-- Every link of a chain is the sentinel or a member of the chain. -/
theorem IsChain.links {es : List (Entry K V)} : ∀ (l : List Nat) (s : Int), IsChain es s l →
    (s = -1 ∨ ∃ j ∈ l, s = (j : Int)) ∧
    ∀ i ∈ l, (entryAt es i).next = -1 ∨ ∃ j ∈ l, (entryAt es i).next = (j : Int)
  | [], s, h => by
    simp only [IsChain] at h
    exact ⟨Or.inl h, by intro i hi; cases hi⟩
  | a :: l, s, h => by
    simp only [IsChain] at h
    obtain ⟨h1, h2⟩ := IsChain.links l _ h.2
    refine ⟨Or.inr ⟨a, List.mem_cons_self _ _, h.1⟩, ?_⟩
    intro i hi
    rcases List.mem_cons.1 hi with rfl | hi
    · rcases h1 with h1 | ⟨j, hj, h1⟩
      · exact Or.inl h1
      · exact Or.inr ⟨j, List.mem_cons_of_mem _ hj, h1⟩
    · rcases h2 i hi with h2 | ⟨j, hj, h2⟩
      · exact Or.inl h2
      · exact Or.inr ⟨j, List.mem_cons_of_mem _ hj, h2⟩

theorem entries_eq_map_range (es : List (Entry K V)) :
    es = (List.range es.length).map (entryAt es) := by
  apply List.ext_getElem
  · simp
  · intro i h1 h2
    simp [entryAt, List.getD_eq_getElem?_getD, List.getElem?_eq_getElem h1]

/-- In a well-formed table `size()` is the number of occupied entries. -/
theorem size_eq_occupied {m : HashMap K V} (hwf : WF hasher eq m) :
    size m = (m.entries.filter (fun e => e.kvp.isSome)).length := by
  obtain ⟨chain, hch⟩ := hwf.chains
  rw [← length_order hwf hch]
  have hnd := nodup_order_entries hch
  have hR : ((List.range m.capacity).filter
      (fun i => (entryAt m.entries i).kvp.isSome)).Nodup := List.Nodup.filter _ (List.nodup_range _)
  have hperm : ((orderFrom m.capacity chain 0).map (fun it => it.currentEntryIndex.toNat)).Perm
      ((List.range m.capacity).filter (fun i => (entryAt m.entries i).kvp.isSome)) := by
    rw [List.perm_ext_iff_of_nodup hnd hR]
    intro i
    rw [mem_order_entries hwf hch i, List.mem_filter, List.mem_range]
    constructor
    · intro h
      exact ⟨lt_of_lt_of_le (hwf.occupied_lt i h) hwf.used_le, Option.isSome_iff_ne_none.2 h⟩
    · intro h
      exact Option.isSome_iff_ne_none.1 h.2
  have hlen := hperm.length_eq
  rw [List.length_map] at hlen
  rw [hlen]
  conv_rhs => rw [entries_eq_map_range m.entries, hwf.entries_length, List.filter_map,
    List.length_map]
  rfl

/-- The three sample tables are reachable. -/
theorem Reachable_sampleFull : Reachable natHash natEq sampleFull :=
  Reachable.insertPair (7, 6)
    (Reachable.insertPair (4, 3)
      (Reachable.insertPair (1, 2) Reachable.start (by unfold InRange; decide)
        (by decide : insertPair natHash natEq empty (1, 2) =
          some (true, ⟨1, 0⟩,
            HashMap.mk [-1, 0, -1] [⟨1, some (1, 2), -1⟩, emptyEntry, emptyEntry] 3 1 0 (-1))))
      (by unfold InRange; decide)
      (by decide : insertPair natHash natEq
          (HashMap.mk [-1, 0, -1] [⟨1, some (1, 2), -1⟩, emptyEntry, emptyEntry] 3 1 0 (-1))
          (4, 3) =
        some (true, ⟨1, 1⟩,
          HashMap.mk [-1, 1, -1] [⟨1, some (1, 2), -1⟩, ⟨4, some (4, 3), 0⟩, emptyEntry]
            3 2 0 (-1))))
    (by unfold InRange; decide)
    (by decide : insertPair natHash natEq
        (HashMap.mk [-1, 1, -1] [⟨1, some (1, 2), -1⟩, ⟨4, some (4, 3), 0⟩, emptyEntry]
          3 2 0 (-1))
        (7, 6) = some (true, ⟨1, 2⟩, sampleFull))

theorem Reachable_sampleErased : Reachable natHash natEq sampleErased :=
  Reachable.erase ⟨1, 1⟩ Reachable_sampleFull (by decide) (by decide)
    (by decide : erase natEq sampleFull ⟨1, 1⟩ = some (⟨1, 0⟩, sampleErased))

/-- C18 (amended): for a comparer that is an equivalence relation and a hasher that gives
equal keys equal hashes, in every reachable state there are chains, one per bucket, such
that the chain
of a bucket starts at the bucket head, follows the `next` links, ends in the sentinel
`-1`, has no repetition and holds occupied entries only; and every occupied entry lies
exactly once on the chain of the bucket `hash % capacity` and on the chain of no other
bucket. -/
theorem chain_invariant (hk : LawfulKeys hasher eq) {m : HashMap K V}
    (h : Reachable hasher eq m) :
    ∃ chain : Nat → List Nat,
      (∀ b, b < m.capacity →
        IsChain m.entries (bucketAt m.buckets b) (chain b) ∧ (chain b).Nodup ∧
        ∀ i ∈ chain b, (entryAt m.entries i).kvp ≠ none) ∧
      (∀ i, (entryAt m.entries i).kvp ≠ none →
        (entryAt m.entries i).hash % m.capacity < m.capacity ∧
        (chain ((entryAt m.entries i).hash % m.capacity)).count i = 1 ∧
        ∀ b, b < m.capacity → (i ∈ chain b ↔ b = (entryAt m.entries i).hash % m.capacity)) := by
  have hwf := (Reachable.inv hk h).1
  obtain ⟨chain, hch⟩ := hwf.chains
  refine ⟨chain, ?_, ?_⟩
  · intro b hb
    obtain ⟨h1, h2, h3⟩ := hch b hb
    exact ⟨h1, h2, fun i hi => ((h3 i).1 hi).1⟩
  · intro i hocc
    have hcap : 0 < m.capacity := hwf.capacity_pos hocc
    have hbx : (entryAt m.entries i).hash % m.capacity < m.capacity := Nat.mod_lt _ hcap
    obtain ⟨_, h2, h3⟩ := hch _ hbx
    refine ⟨hbx, List.count_eq_one_of_mem h2 ((h3 i).2 ⟨hocc, rfl⟩), ?_⟩
    intro b hb
    constructor
    · intro hi
      exact (hch.bucket_of_mem hb hi).symm
    · intro hbe
      exact ((hch b hb).2.2 i).2 ⟨hocc, hbe.symm⟩

theorem chain_invariant_witness :
    ∃ chain : Nat → List Nat,
      (∀ b, b < sampleErased.capacity →
        IsChain sampleErased.entries (bucketAt sampleErased.buckets b) (chain b) ∧
        (chain b).Nodup ∧ ∀ i ∈ chain b, (entryAt sampleErased.entries i).kvp ≠ none) ∧
      (∀ i, (entryAt sampleErased.entries i).kvp ≠ none →
        (entryAt sampleErased.entries i).hash % sampleErased.capacity <
          sampleErased.capacity ∧
        (chain ((entryAt sampleErased.entries i).hash % sampleErased.capacity)).count i = 1 ∧
        ∀ b, b < sampleErased.capacity →
          (i ∈ chain b ↔ b = (entryAt sampleErased.entries i).hash % sampleErased.capacity)) :=
  chain_invariant lawfulKeys_nat Reachable_sampleErased

/-- C19: in every reachable state (comparer an equivalence, equal keys hashing equally)
two occupied entries whose keys compare equal are the same entry. -/
theorem keys_unique_invariant (hk : LawfulKeys hasher eq) {m : HashMap K V}
    (h : Reachable hasher eq m) :
    ∀ i j kvi kvj, (entryAt m.entries i).kvp = some kvi →
      (entryAt m.entries j).kvp = some kvj → eq kvi.1 kvj.1 = true → i = j :=
  (Reachable.inv hk h).1.keys_unique

theorem keys_unique_invariant_witness :
    Reachable natHash natEq sampleFull ∧
    (entryAt sampleFull.entries 0).kvp = some (1, 2) ∧
    (entryAt sampleFull.entries 1).kvp = some (4, 3) ∧ ¬ (natEq 1 4 = true) :=
  ⟨Reachable_sampleFull, rfl, rfl, fun h =>
    absurd (keys_unique_invariant lawfulKeys_nat Reachable_sampleFull 0 1 (1, 2) (4, 3)
      rfl rfl h) (by decide)⟩

/-- C20 (amended): for a comparer that is an equivalence relation and a hasher that gives
equal keys equal hashes, in every reachable state `deletedEntriesAmount <=
usedEntriesAmount <= capacity`; the free list that starts at `deletedList` and follows `next` ends in `-1`,
has no repetition, has `deletedEntriesAmount` nodes and holds exactly the unoccupied
slots below `usedEntriesAmount`; `size()` is the number of occupied entries; and every
bucket head, every `next` field and `deletedList` is `-1` or an index below
`usedEntriesAmount`. -/
theorem counting_invariant (hk : LawfulKeys hasher eq) {m : HashMap K V}
    (h : Reachable hasher eq m) :
    m.deletedEntriesAmount ≤ m.usedEntriesAmount ∧ m.usedEntriesAmount ≤ m.capacity ∧
    (∃ free : List Nat, IsChain m.entries m.deletedList free ∧ free.Nodup ∧
      free.length = m.deletedEntriesAmount ∧
      ∀ i, i ∈ free ↔ (i < m.usedEntriesAmount ∧ (entryAt m.entries i).kvp = none)) ∧
    size m = m.usedEntriesAmount - m.deletedEntriesAmount ∧
    size m = (m.entries.filter (fun e => e.kvp.isSome)).length ∧
    (∀ b, bucketAt m.buckets b = -1 ∨
      (0 ≤ bucketAt m.buckets b ∧ bucketAt m.buckets b < (m.usedEntriesAmount : Int))) ∧
    (∀ i, (entryAt m.entries i).next = -1 ∨
      (0 ≤ (entryAt m.entries i).next ∧
        (entryAt m.entries i).next < (m.usedEntriesAmount : Int))) ∧
    (m.deletedList = -1 ∨
      (0 ≤ m.deletedList ∧ m.deletedList < (m.usedEntriesAmount : Int))) := by
  obtain ⟨hwf, hfresh⟩ := Reachable.inv hk h
  obtain ⟨chain, hch⟩ := hwf.chains
  obtain ⟨free, hfc, hfnd, hflen, hfmem⟩ := hwf.free_list
  have hchain_lt : ∀ b, b < m.capacity → ∀ j ∈ chain b, j < m.usedEntriesAmount := by
    intro b hb j hj
    exact hwf.occupied_lt j (((hch b hb).2.2 j).1 hj).1
  refine ⟨hwf.deleted_le_used, hwf.used_le, ⟨free, hfc, hfnd, hflen, hfmem⟩, rfl,
    size_eq_occupied hwf, ?_, ?_, ?_⟩
  · intro b
    by_cases hb : b < m.capacity
    · rcases (IsChain.links _ _ (hch b hb).1).1 with h1 | ⟨j, hj, h1⟩
      · exact Or.inl h1
      · have := hchain_lt b hb j hj
        exact Or.inr (by omega)
    · left
      unfold bucketAt
      rw [List.getD_eq_getElem?_getD, List.getElem?_eq_none (by rw [hwf.buckets_length]; omega)]
      rfl
  · intro i
    by_cases hocc : (entryAt m.entries i).kvp = none
    · by_cases hi : i < m.usedEntriesAmount
      · have hmem := (hfmem i).2 ⟨hi, hocc⟩
        rcases (IsChain.links _ _ hfc).2 i hmem with h1 | ⟨j, hj, h1⟩
        · exact Or.inl h1
        · have := ((hfmem j).1 hj).1
          exact Or.inr (by omega)
      · left
        rw [hfresh i (by omega)]
        rfl
    · have hcap : 0 < m.capacity := hwf.capacity_pos hocc
      have hbx : (entryAt m.entries i).hash % m.capacity < m.capacity := Nat.mod_lt _ hcap
      have hmem := ((hch _ hbx).2.2 i).2 ⟨hocc, rfl⟩
      rcases (IsChain.links _ _ (hch _ hbx).1).2 i hmem with h1 | ⟨j, hj, h1⟩
      · exact Or.inl h1
      · have := hchain_lt _ hbx j hj
        exact Or.inr (by omega)
  · rcases (IsChain.links _ _ hfc).1 with h1 | ⟨j, hj, h1⟩
    · exact Or.inl h1
    · have := ((hfmem j).1 hj).1
      exact Or.inr (by omega)

theorem counting_invariant_witness :
    sampleErased.deletedEntriesAmount ≤ sampleErased.usedEntriesAmount ∧
    sampleErased.usedEntriesAmount ≤ sampleErased.capacity ∧
    (∃ free : List Nat, IsChain sampleErased.entries sampleErased.deletedList free ∧
      free.Nodup ∧ free.length = sampleErased.deletedEntriesAmount ∧
      ∀ i, i ∈ free ↔
        (i < sampleErased.usedEntriesAmount ∧ (entryAt sampleErased.entries i).kvp = none)) ∧
    size sampleErased = sampleErased.usedEntriesAmount - sampleErased.deletedEntriesAmount ∧
    size sampleErased = (sampleErased.entries.filter (fun e => e.kvp.isSome)).length ∧
    (∀ b, bucketAt sampleErased.buckets b = -1 ∨
      (0 ≤ bucketAt sampleErased.buckets b ∧
        bucketAt sampleErased.buckets b < (sampleErased.usedEntriesAmount : Int))) ∧
    (∀ i, (entryAt sampleErased.entries i).next = -1 ∨
      (0 ≤ (entryAt sampleErased.entries i).next ∧
        (entryAt sampleErased.entries i).next < (sampleErased.usedEntriesAmount : Int))) ∧
    (sampleErased.deletedList = -1 ∨
      (0 ≤ sampleErased.deletedList ∧
        sampleErased.deletedList < (sampleErased.usedEntriesAmount : Int))) :=
  counting_invariant lawfulKeys_nat Reachable_sampleErased

end HashMap

/-! ## Collaborators that throw -/

namespace HashMap

variable {K V E : Type}

namespace Op

variable {A B : Type}

theorem andThen_threw {x : Op E K V A} {f : A → Op E K V B} {m m' : HashMap K V} {e : E}
    (h : x.andThen f m = Outcome.threw e m') :
    x m = Outcome.threw e m' ∨
      ∃ a m1, x m = Outcome.returned a m1 ∧ f a m1 = Outcome.threw e m' := by
  unfold andThen at h
  cases hx : x m with
  | returned a m1 =>
    simp only [hx] at h
    exact Or.inr ⟨a, m1, rfl, h⟩
  | threw e1 m1 =>
    simp only [hx] at h
    cases h
    exact Or.inl rfl
  | undefined =>
    simp only [hx] at h
    cases h

theorem andThen_of_returned {x : Op E K V A} {f : A → Op E K V B} {m m1 : HashMap K V} {a : A}
    (h : x m = Outcome.returned a m1) : x.andThen f m = f a m1 := by
  unfold andThen
  rw [h]

theorem andThen_of_threw {x : Op E K V A} {f : A → Op E K V B} {m m1 : HashMap K V} {e : E}
    (h : x m = Outcome.threw e m1) : x.andThen f m = Outcome.threw e m1 := by
  unfold andThen
  rw [h]

theorem call_threw {r : Except E A} {m m' : HashMap K V} {e : E}
    (h : (call r : Op E K V A) m = Outcome.threw e m') : m' = m ∧ r = Except.error e := by
  unfold call at h
  cases r with
  | ok a => cases h
  | error e1 =>
    cases h
    exact ⟨rfl, rfl⟩

theorem call_returned {r : Except E A} {m m' : HashMap K V} {a : A}
    (h : (call r : Op E K V A) m = Outcome.returned a m') : m' = m ∧ r = Except.ok a := by
  unfold call at h
  cases r with
  | ok a1 =>
    cases h
    exact ⟨rfl, rfl⟩
  | error e1 => cases h

theorem look_threw {f : HashMap K V → Except E (Option A)} {m m' : HashMap K V} {e : E}
    (h : look f m = Outcome.threw e m') : m' = m ∧ f m = Except.error e := by
  unfold look at h
  cases hf : f m with
  | ok r =>
    rw [hf] at h
    cases r with
    | none => cases h
    | some a => cases h
  | error e1 =>
    rw [hf] at h
    cases h
    exact ⟨rfl, rfl⟩

theorem look_returned {f : HashMap K V → Except E (Option A)} {m m' : HashMap K V} {a : A}
    (h : look f m = Outcome.returned a m') : m' = m ∧ f m = Except.ok (some a) := by
  unfold look at h
  cases hf : f m with
  | ok r =>
    rw [hf] at h
    cases r with
    | none => cases h
    | some a1 =>
      cases h
      exact ⟨rfl, rfl⟩
  | error e1 =>
    rw [hf] at h
    cases h

theorem read_ne_threw (f : HashMap K V → Option A) (m : HashMap K V) (e : E)
    (m' : HashMap K V) : (read f : Op E K V A) m ≠ Outcome.threw e m' := by
  unfold read
  cases f m with
  | none => intro h; cases h
  | some a => intro h; cases h

theorem read_returned {f : HashMap K V → Option A} {m m' : HashMap K V} {a : A}
    (h : (read f : Op E K V A) m = Outcome.returned a m') : m' = m := by
  unfold read at h
  cases hf : f m with
  | none =>
    rw [hf] at h
    cases h
  | some a1 =>
    rw [hf] at h
    cases h
    rfl

theorem update_ne_threw (f : HashMap K V → Option (A × HashMap K V)) (m : HashMap K V)
    (e : E) (m' : HashMap K V) : (update f : Op E K V A) m ≠ Outcome.threw e m' := by
  unfold update
  cases f m with
  | none => intro h; cases h
  | some r => intro h; cases h

theorem write_ne_threw (f : HashMap K V → HashMap K V) (m : HashMap K V) (e : E)
    (m' : HashMap K V) : (write f : Op E K V Unit) m ≠ Outcome.threw e m' := by
  unfold write
  intro h
  cases h

/-- A statement sequence of which no part throws does not throw. -/
theorem andThen_ne_threw {x : Op E K V A} {f : A → Op E K V B}
    (hx : ∀ m e m', x m ≠ Outcome.threw e m')
    (hf : ∀ a m e m', f a m ≠ Outcome.threw e m') (m : HashMap K V) (e : E)
    (m' : HashMap K V) : x.andThen f m ≠ Outcome.threw e m' := by
  intro h
  rcases andThen_threw h with h | ⟨a, m1, _, h⟩
  · exact hx _ _ _ h
  · exact hf _ _ _ _ h

end Op

/-- An exception of the lookup loop is an exception of the comparer, called on the key
and a stored key. -/
theorem TryFindEntryIndexE_loop_error (eqE : K → K → Except E Bool)
    (entries : List (Entry K V)) (key : K) (hash : Nat) (e : E) :
    ∀ (fuel : Nat) (current : Int),
    TryFindEntryIndexE.loop eqE entries key hash fuel current = Except.error e →
    ∃ i kv, (entryAt entries i).kvp = some kv ∧ eqE key kv.1 = Except.error e
  | 0, _, h => by
    unfold TryFindEntryIndexE.loop at h
    cases h
  | fuel + 1, current, h => by
    unfold TryFindEntryIndexE.loop at h
    by_cases hc : current ≥ 0
    · rw [if_pos hc] at h
      by_cases hh : hash = (entryAt entries current.toNat).hash
      · rw [if_pos hh] at h
        cases hkv : (entryAt entries current.toNat).kvp with
        | none =>
          simp only [hkv] at h
          cases h
        | some kv =>
          simp only [hkv] at h
          cases hq : eqE key kv.1 with
          | error e1 =>
            simp only [hq] at h
            cases h
            exact ⟨current.toNat, kv, hkv, hq⟩
          | ok b =>
            cases b with
            | true =>
              simp only [hq] at h
              cases h
            | false =>
              simp only [hq] at h
              exact TryFindEntryIndexE_loop_error eqE entries key hash e fuel _ h
      · rw [if_neg hh] at h
        exact TryFindEntryIndexE_loop_error eqE entries key hash e fuel _ h
    · rw [if_neg hc] at h
      cases h

/-- An exception of the predecessor search is an exception of the comparer, called on a
stored key and the key of the erased entry. -/
theorem FindPreviousIndexOfE_loop_error (eqE : K → K → Except E Bool)
    (entries : List (Entry K V)) (capacity : Nat) (key : K) (keyHash : Nat) (e : E) :
    ∀ (fuel : Nat) (current previous : Int),
    FindPreviousIndexOfE.loop eqE entries capacity key keyHash fuel current previous =
      Except.error e →
    ∃ i kv, (entryAt entries i).kvp = some kv ∧ eqE kv.1 key = Except.error e
  | 0, _, _, h => by
    unfold FindPreviousIndexOfE.loop at h
    cases h
  | fuel + 1, current, previous, h => by
    unfold FindPreviousIndexOfE.loop at h
    by_cases hc : 0 ≤ current ∧ current < (capacity : Int)
    · rw [if_pos hc] at h
      by_cases hh : (entryAt entries current.toNat).hash = keyHash
      · rw [if_pos hh] at h
        cases hkv : (entryAt entries current.toNat).kvp with
        | none =>
          simp only [hkv] at h
          cases h
        | some kv =>
          simp only [hkv] at h
          cases hq : eqE kv.1 key with
          | error e1 =>
            simp only [hq] at h
            cases h
            exact ⟨current.toNat, kv, hkv, hq⟩
          | ok b =>
            cases b with
            | true =>
              simp only [hq] at h
              cases h
            | false =>
              simp only [hq] at h
              exact FindPreviousIndexOfE_loop_error eqE entries capacity key keyHash e fuel _ _ h
      · rw [if_neg hh] at h
        exact FindPreviousIndexOfE_loop_error eqE entries capacity key keyHash e fuel _ _ h
    · rw [if_neg hc] at h
      cases h

theorem TryFindEntryIndexE_threw {eqE : K → K → Except E Bool} {key : K} {hash : Nat}
    {m m' : HashMap K V} {e : E}
    (h : TryFindEntryIndexE eqE key hash m = Outcome.threw e m') :
    m' = m ∧ ∃ i kv, (entryAt m.entries i).kvp = some kv ∧ eqE key kv.1 = Except.error e := by
  unfold TryFindEntryIndexE at h
  obtain ⟨h1, h2⟩ := Op.look_threw h
  refine ⟨h1, ?_⟩
  by_cases hc : m.capacity = 0
  · rw [if_pos hc] at h2
    cases h2
  · rw [if_neg hc] at h2
    exact TryFindEntryIndexE_loop_error eqE m.entries key hash e _ _ h2

theorem TryFindEntryIndexE_returned {eqE : K → K → Except E Bool} {key : K} {hash : Nat}
    {m m' : HashMap K V} {i : Int}
    (h : TryFindEntryIndexE eqE key hash m = Outcome.returned i m') : m' = m := by
  unfold TryFindEntryIndexE at h
  exact (Op.look_returned h).1

theorem FindPreviousIndexOfE_threw {eqE : K → K → Except E Bool} {bucket entryIndex : Int}
    {m m' : HashMap K V} {e : E}
    (h : FindPreviousIndexOfE eqE bucket entryIndex m = Outcome.threw e m') :
    m' = m ∧ ∃ i kv kv0, (entryAt m.entries i).kvp = some kv ∧
      (entryAt m.entries entryIndex.toNat).kvp = some kv0 ∧
      eqE kv.1 kv0.1 = Except.error e := by
  unfold FindPreviousIndexOfE at h
  obtain ⟨h1, h2⟩ := Op.look_threw h
  refine ⟨h1, ?_⟩
  by_cases hc : m.capacity = 0
  · rw [if_pos hc] at h2
    cases h2
  · rw [if_neg hc] at h2
    cases hkv : (entryAt m.entries entryIndex.toNat).kvp with
    | none =>
      rw [hkv] at h2
      cases h2
    | some kv0 =>
      rw [hkv] at h2
      obtain ⟨i, kv, h3, h4⟩ :=
        FindPreviousIndexOfE_loop_error eqE m.entries m.capacity kv0.1 _ e _ _ _ h2
      exact ⟨i, kv, kv0, h3, rfl, h4⟩

/-- The common shape of `find`, `insert`, `try_emplace` and `operator[]`: the hasher is
called, then the lookup runs, then a tail follows that calls no collaborator.  If such
an operation throws, the table is the one before the call and the exception is the one
of the hasher on the key or of the comparer on the key and a stored key. -/
theorem lookup_then_threw {B : Type} (hasherE : K → Except E Nat)
    (eqE : K → K → Except E Bool) (key : K) (tail : Nat → Int → Op E K V B)
    (htail : ∀ hash i m e m', tail hash i m ≠ Outcome.threw e m')
    {m m' : HashMap K V} {e : E}
    (h : ((Op.call (hasherE key)).andThen fun hash =>
      (TryFindEntryIndexE eqE key hash).andThen fun i => tail hash i) m =
        Outcome.threw e m') :
    m' = m ∧ (hasherE key = Except.error e ∨
      ∃ i kv, (entryAt m.entries i).kvp = some kv ∧ eqE key kv.1 = Except.error e) := by
  rcases Op.andThen_threw h with hc | ⟨hash, m1, h1, ht⟩
  · obtain ⟨h1, h2⟩ := Op.call_threw hc
    exact ⟨h1, Or.inl h2⟩
  · obtain ⟨rfl, _⟩ := Op.call_returned h1
    have h' : ((TryFindEntryIndexE eqE key hash).andThen fun i => tail hash i) m1 =
        Outcome.threw e m' := ht
    rcases Op.andThen_threw h' with h2 | ⟨i, m2, _, h2⟩
    · obtain ⟨h3, h4⟩ := TryFindEntryIndexE_threw h2
      exact ⟨h3, Or.inr h4⟩
    · exact absurd h2 (htail _ _ _ _ _)

/-- An exception of the hasher ends such an operation with the table untouched. -/
theorem lookup_then_hasher_error {B : Type} (hasherE : K → Except E Nat)
    (eqE : K → K → Except E Bool) (key : K) (tail : Nat → Int → Op E K V B)
    (m : HashMap K V) {e : E} (he : hasherE key = Except.error e) :
    ((Op.call (hasherE key)).andThen fun hash =>
      (TryFindEntryIndexE eqE key hash).andThen fun i => tail hash i) m =
        Outcome.threw e m := by
  apply Op.andThen_of_threw
  rw [he]
  rfl

/-- An exception of the comparer during the lookup ends such an operation with the
table untouched. -/
theorem lookup_then_comparer_error {B : Type} (hasherE : K → Except E Nat)
    (eqE : K → K → Except E Bool) (key : K) (tail : Nat → Int → Op E K V B)
    (m : HashMap K V) {e : E} {hash : Nat} (hh : hasherE key = Except.ok hash)
    (hl : TryFindEntryIndexE eqE key hash m = Outcome.threw e m) :
    ((Op.call (hasherE key)).andThen fun hash =>
      (TryFindEntryIndexE eqE key hash).andThen fun i => tail hash i) m =
        Outcome.threw e m := by
  have hc : (Op.call (hasherE key) : Op E K V Nat) m = Outcome.returned hash m := by
    rw [hh]
    rfl
  rw [Op.andThen_of_returned hc]
  exact Op.andThen_of_threw hl

/-- The tail of the creation paths calls no collaborator. -/
theorem creation_tail_ne_threw {B : Type} (i : Int) (f : HashMap K V → Option B)
    (u : HashMap K V → Option (Int × HashMap K V)) (g : Int → HashMap K V → Option B)
    (m : HashMap K V) (e : E) (m' : HashMap K V) :
    (if i ≠ -1 then (Op.read f : Op E K V B)
      else (Op.update u).andThen fun j => Op.read (g j)) m ≠ Outcome.threw e m' := by
  by_cases hi : i ≠ -1
  · rw [if_pos hi]
    exact Op.read_ne_threw _ _ _ _
  · rw [if_neg hi]
    exact Op.andThen_ne_threw (Op.update_ne_threw _) (fun _ => Op.read_ne_threw _) _ _ _

theorem eraseE_threw {eqE : K → K → Except E Bool} {position : Iterator}
    {m m' : HashMap K V} {e : E} (h : eraseE eqE position m = Outcome.threw e m') :
    m' = m ∧ ∃ i kv kv0, (entryAt m.entries i).kvp = some kv ∧
      (entryAt m.entries position.currentEntryIndex.toNat).kvp = some kv0 ∧
      eqE kv.1 kv0.1 = Except.error e := by
  have h0 : ((Op.read fun (m : HashMap K V) =>
      if m.capacity = 0 then none
      else some (((entryAt m.entries position.currentEntryIndex.toNat).hash % m.capacity : Nat)
        : Int)).andThen fun bucket =>
      (FindPreviousIndexOfE eqE bucket position.currentEntryIndex).andThen fun previousIndex =>
      (Op.write fun m =>
        erase.unlink m bucket previousIndex position.currentEntryIndex).andThen fun _ =>
      (Op.read fun m =>
        some (entryAt m.entries position.currentEntryIndex.toNat).next).andThen fun next =>
      (Op.write fun m => erase.release m position.currentEntryIndex).andThen fun _ =>
      Op.read fun m => erase.successor m bucket next) m = Outcome.threw e m' := h
  rcases Op.andThen_threw h0 with h1 | ⟨bucket, m1, h1, h2⟩
  · exact absurd h1 (Op.read_ne_threw _ _ _ _)
  · have hm1 := Op.read_returned h1
    subst hm1
    rcases Op.andThen_threw h2 with h3 | ⟨prev, m2, _, h3⟩
    · exact FindPreviousIndexOfE_threw h3
    · exfalso
      revert h3
      refine Op.andThen_ne_threw (Op.write_ne_threw _) (fun _ => ?_) _ _ _
      refine Op.andThen_ne_threw (Op.read_ne_threw _) (fun _ => ?_)
      exact Op.andThen_ne_threw (Op.write_ne_threw _) (fun _ => Op.read_ne_threw _)

end HashMap

/-! ## Collaborators that do not throw: the operations of the model are recovered -/

namespace HashMap

variable {K V E : Type}

theorem Op.andThen_of_undefined {A B : Type} {x : Op E K V A} {f : A → Op E K V B}
    {m : HashMap K V} (h : x m = Outcome.undefined) : x.andThen f m = Outcome.undefined := by
  unfold Op.andThen
  rw [h]

theorem TryFindEntryIndexE_loop_total (eq : K → K → Bool) (entries : List (Entry K V))
    (key : K) (hash : Nat) : ∀ (fuel : Nat) (current : Int),
    TryFindEntryIndexE.loop (fun a b => (Except.ok (eq a b) : Except E Bool)) entries key hash
      fuel current = Except.ok (TryFindEntryIndex.loop eq entries key hash fuel current)
  | 0, _ => rfl
  | fuel + 1, current => by
    unfold TryFindEntryIndexE.loop TryFindEntryIndex.loop
    by_cases hc : current ≥ 0
    · rw [if_pos hc, if_pos hc]
      by_cases hh : hash = (entryAt entries current.toNat).hash
      · rw [if_pos hh, if_pos hh]
        cases hkv : (entryAt entries current.toNat).kvp with
        | none => rfl
        | some kv =>
          cases hq : eq key kv.1 with
          | true => simp only [hq, if_true]
          | false =>
            simp only [hq, Bool.false_eq_true, if_false]
            exact TryFindEntryIndexE_loop_total eq entries key hash fuel _
      · rw [if_neg hh, if_neg hh]
        exact TryFindEntryIndexE_loop_total eq entries key hash fuel _
    · rw [if_neg hc, if_neg hc]

theorem FindPreviousIndexOfE_loop_total (eq : K → K → Bool) (entries : List (Entry K V))
    (capacity : Nat) (key : K) (keyHash : Nat) : ∀ (fuel : Nat) (current previous : Int),
    FindPreviousIndexOfE.loop (fun a b => (Except.ok (eq a b) : Except E Bool)) entries
      capacity key keyHash fuel current previous =
      Except.ok (FindPreviousIndexOf.loop eq entries capacity key keyHash fuel current previous)
  | 0, _, _ => rfl
  | fuel + 1, current, previous => by
    unfold FindPreviousIndexOfE.loop FindPreviousIndexOf.loop
    by_cases hc : 0 ≤ current ∧ current < (capacity : Int)
    · rw [if_pos hc, if_pos hc]
      by_cases hh : (entryAt entries current.toNat).hash = keyHash
      · rw [if_pos hh, if_pos hh]
        cases hkv : (entryAt entries current.toNat).kvp with
        | none => rfl
        | some kv =>
          cases hq : eq kv.1 key with
          | true => simp only [hq, if_true]
          | false =>
            simp only [hq, Bool.false_eq_true, if_false]
            exact FindPreviousIndexOfE_loop_total eq entries capacity key keyHash fuel _ _
      · rw [if_neg hh, if_neg hh]
        exact FindPreviousIndexOfE_loop_total eq entries capacity key keyHash fuel _ _
    · rw [if_neg hc, if_neg hc]

theorem TryFindEntryIndexE_total (eq : K → K → Bool) (key : K) (hash : Nat)
    (m : HashMap K V) :
    TryFindEntryIndexE (fun a b => (Except.ok (eq a b) : Except E Bool)) key hash m =
      Outcome.ofOption ((TryFindEntryIndex eq m key hash).map fun i => (i, m)) := by
  unfold TryFindEntryIndexE TryFindEntryIndex Op.look
  by_cases hc : m.capacity = 0
  · simp only [hc, if_true]
    rfl
  · simp only [hc, if_false, TryFindEntryIndexE_loop_total]
    cases TryFindEntryIndex.loop eq m.entries key hash (m.capacity + 1)
      (bucketAt m.buckets (hash % m.capacity)) with
    | none => rfl
    | some i => rfl

theorem FindPreviousIndexOfE_total (eq : K → K → Bool) (bucket entryIndex : Int)
    (m : HashMap K V) :
    FindPreviousIndexOfE (fun a b => (Except.ok (eq a b) : Except E Bool)) bucket entryIndex m =
      Outcome.ofOption ((FindPreviousIndexOf eq m bucket entryIndex).map fun i => (i, m)) := by
  unfold FindPreviousIndexOfE FindPreviousIndexOf Op.look
  by_cases hc : m.capacity = 0
  · simp only [hc, if_true]
    rfl
  · simp only [hc, if_false]
    cases hkv : (entryAt m.entries entryIndex.toNat).kvp with
    | none => rfl
    | some kv =>
      simp only [FindPreviousIndexOfE_loop_total, Option.bind_eq_bind, Option.some_bind]
      cases FindPreviousIndexOf.loop eq m.entries m.capacity kv.1
        (entryAt m.entries entryIndex.toNat).hash (m.capacity + 1)
        (bucketAt m.buckets bucket.toNat) (-1) with
      | none => rfl
      | some i => rfl

/-- The common shape of the operations with a lookup, for collaborators that do not
throw: the tail runs on the unchanged table with the hash and the index found. -/
theorem lookup_then_total {B : Type} (hasher : K → Nat) (eq : K → K → Bool) (key : K)
    (tail : Nat → Int → Op E K V B) (m : HashMap K V) :
    ((Op.call ((Except.ok (hasher key) : Except E Nat))).andThen fun hash =>
      (TryFindEntryIndexE (fun a b => (Except.ok (eq a b) : Except E Bool)) key hash).andThen
        fun i => tail hash i) m =
    match TryFindEntryIndex eq m key (hasher key) with
    | none => Outcome.undefined
    | some i => tail (hasher key) i m := by
  have hc : (Op.call (Except.ok (hasher key) : Except E Nat) : Op E K V Nat) m =
      Outcome.returned (hasher key) m := rfl
  rw [Op.andThen_of_returned hc]
  have ht := @TryFindEntryIndexE_total K V E eq key (hasher key) m
  cases hf : TryFindEntryIndex eq m key (hasher key) with
  | none =>
    rw [hf] at ht
    exact Op.andThen_of_undefined ht
  | some i =>
    rw [hf] at ht
    exact Op.andThen_of_returned ht

theorem findE_total (hasher : K → Nat) (eq : K → K → Bool) (key : K) (m : HashMap K V) :
    findE (fun k => (Except.ok (hasher k) : Except E Nat))
      (fun a b => (Except.ok (eq a b) : Except E Bool)) key m =
      Outcome.ofOption ((find hasher eq m key).map fun it => (it, m)) := by
  have h := @lookup_then_total K V E _ hasher eq key
    (fun _ index => Op.read fun m => some (if index ≠ -1 then mkIterator m index else end_ m)) m
  unfold findE
  refine h.trans ?_
  unfold find
  cases TryFindEntryIndex eq m key (hasher key) with
  | none => rfl
  | some i => rfl

theorem try_emplaceE_total {A : Type} (hasher : K → Nat) (eq : K → K → Bool) (key : K)
    (ctor : A → V) (args : A) (m : HashMap K V) :
    try_emplaceE (fun k => (Except.ok (hasher k) : Except E Nat))
      (fun a b => (Except.ok (eq a b) : Except E Bool)) key ctor args m =
      Outcome.ofOption ((try_emplace hasher eq m key ctor args).map
        fun r => ((r.1, r.2.1), r.2.2)) := by
  have h := @lookup_then_total K V E _ hasher eq key
    (fun hash existing =>
      if existing ≠ -1 then Op.read fun m => some (false, end_ m)
      else (Op.update fun m => CreateAndGetEntryIndex m hash key ctor args).andThen
        fun createdEntryIndex => Op.read fun m => some (true, mkIterator m createdEntryIndex)) m
  unfold try_emplaceE
  refine h.trans ?_
  cases hT : TryFindEntryIndex eq m key (hasher key) with
  | none =>
    simp only [try_emplace, hT, Option.bind_eq_bind, Option.none_bind, Option.map_none']
    rfl
  | some i =>
    by_cases hi : i ≠ -1
    · simp only [try_emplace, hT, hi, ne_eq, not_false_eq_true, if_true, Option.bind_eq_bind,
        Option.some_bind, Option.map_some']
      rfl
    · simp only [try_emplace, hT, hi, if_false, Option.bind_eq_bind, Option.some_bind]
      unfold Op.andThen Op.update
      cases hC : CreateAndGetEntryIndex m (hasher key) key ctor args with
      | none =>
        simp only [hC]
        rfl
      | some r =>
        simp only [hC]
        rfl

theorem insertE_total (hasher : K → Nat) (eq : K → K → Bool) (key : K) (value : V)
    (m : HashMap K V) :
    insertE (fun k => (Except.ok (hasher k) : Except E Nat))
      (fun a b => (Except.ok (eq a b) : Except E Bool)) key value m =
      Outcome.ofOption ((insert hasher eq m key value).map fun r => ((r.1, r.2.1), r.2.2)) :=
  try_emplaceE_total hasher eq key id value m

theorem insertPairE_total (hasher : K → Nat) (eq : K → K → Bool) (item : K × V)
    (m : HashMap K V) :
    insertPairE (fun k => (Except.ok (hasher k) : Except E Nat))
      (fun a b => (Except.ok (eq a b) : Except E Bool)) item m =
      Outcome.ofOption ((insertPair hasher eq m item).map fun r => ((r.1, r.2.1), r.2.2)) :=
  try_emplaceE_total hasher eq item.1 id item.2 m

theorem operatorIndexE_total [Inhabited V] (hasher : K → Nat) (eq : K → K → Bool) (key : K)
    (m : HashMap K V) :
    operatorIndexE (fun k => (Except.ok (hasher k) : Except E Nat))
      (fun a b => (Except.ok (eq a b) : Except E Bool)) key m =
      Outcome.ofOption (operatorIndex hasher eq m key) := by
  have h := @lookup_then_total K V E _ hasher eq key
    (fun hash existingIndex =>
      if existingIndex ≠ -1 then
        Op.read fun m => (entryAt m.entries existingIndex.toNat).kvp.map fun kv => kv.2
      else (Op.update fun m =>
          CreateAndGetEntryIndex m hash key (fun (_ : Unit) => (default : V)) ()).andThen
        fun createdIndex =>
          Op.read fun m => (entryAt m.entries createdIndex.toNat).kvp.map fun kv => kv.2) m
  unfold operatorIndexE
  refine h.trans ?_
  cases hT : TryFindEntryIndex eq m key (hasher key) with
  | none =>
    simp only [operatorIndex, hT, Option.bind_eq_bind, Option.none_bind]
    rfl
  | some i =>
    by_cases hi : i ≠ -1
    · simp only [operatorIndex, hT, hi, ne_eq, not_false_eq_true, if_true,
        Option.bind_eq_bind, Option.some_bind]
      unfold Op.read
      cases hkv : (entryAt m.entries i.toNat).kvp with
      | none =>
        simp only [hkv]
        rfl
      | some kv =>
        simp only [hkv]
        rfl
    · simp only [operatorIndex, hT, hi, if_false, Option.bind_eq_bind, Option.some_bind]
      unfold Op.andThen Op.update
      cases hC : CreateAndGetEntryIndex m (hasher key) key
          (fun (_ : Unit) => (default : V)) () with
      | none =>
        simp only [hC]
        rfl
      | some r =>
        simp only [hC, Option.some_bind]
        unfold Op.read
        cases hkv : (entryAt r.2.entries r.1.toNat).kvp with
        | none =>
          simp only [hkv]
          rfl
        | some kv =>
          simp only [hkv]
          rfl

theorem eraseE_total (eq : K → K → Bool) (position : Iterator) (m : HashMap K V) :
    eraseE (fun a b => (Except.ok (eq a b) : Except E Bool)) position m =
      Outcome.ofOption (erase eq m position) := by
  unfold eraseE erase
  simp only [bind, Op.andThen, Op.read, Op.write, FindPreviousIndexOfE_total]
  by_cases hc : m.capacity = 0
  · simp only [hc, if_true]
    rfl
  · simp only [hc, if_false]
    cases FindPreviousIndexOf eq m
      (((entryAt m.entries position.currentEntryIndex.toNat).hash % m.capacity : Nat) : Int)
      position.currentEntryIndex with
    | none => rfl
    | some prev =>
      simp only [Option.map_some', Outcome.ofOption, Option.some_bind, Option.bind]
      cases erase.successor
        (erase.release (erase.unlink m
          (((entryAt m.entries position.currentEntryIndex.toNat).hash % m.capacity : Nat) : Int)
          prev position.currentEntryIndex) position.currentEntryIndex)
        (((entryAt m.entries position.currentEntryIndex.toNat).hash % m.capacity : Nat) : Int)
        (entryAt (erase.unlink m
          (((entryAt m.entries position.currentEntryIndex.toNat).hash % m.capacity : Nat) : Int)
          prev position.currentEntryIndex).entries position.currentEntryIndex.toNat).next with
      | none => rfl
      | some it => rfl

end HashMap

/-! ## Exceptions of the collaborators leave the table untouched -/

namespace HashMap

variable {K V E : Type}

/-- The test `MapUsesGivenHasher`: with a hasher that throws, `insert` throws and the
table is still the empty one. -/
theorem test_MapUsesGivenHasher :
    insertPairE throwingHasher (fun a b => Except.ok (natEq a b)) (1, 1)
      (empty : HashMap Nat Nat) = Outcome.threw () empty := by
  rfl

/-- The test `MapUsesGivenComparer`: with a comparer that throws, the first `insert`
compares nothing and stores the pair, the second one throws and leaves the table as the
first one left it. -/
theorem test_MapUsesGivenComparer :
    insertPairE (fun k => Except.ok (natHash k)) throwingComparer (1, 4)
      (empty : HashMap Nat Nat) = Outcome.returned (true, ⟨1, 0⟩) sampleOne ∧
    insertPairE (fun k => Except.ok (natHash k)) throwingComparer (1, 2) sampleOne =
      Outcome.threw () sampleOne := by
  constructor
  · rfl
  · rfl

/-- With a comparer that throws, `erase` throws before it unlinks anything. -/
theorem test_eraseE_throwingComparer :
    eraseE throwingComparer ⟨1, 1⟩ sampleFull = Outcome.threw () sampleFull := by
  rfl

/-- C16: with a hasher and a comparer that may throw, whenever `find`, `insert` (both
overloads), `try_emplace`, `operator[]` or `erase` ends with an exception, the table is
exactly the table before the call and the exception is the one thrown by the hasher on
the key or by the comparer on a stored key; an exception of the hasher, or of the
comparer during the lookup or the predecessor search, makes the operation end with that
exception. -/
theorem collaborator_failure_keeps_state [Inhabited V] (hasherE : K → Except E Nat)
    (eqE : K → K → Except E Bool) (m : HashMap K V) (e : E) :
    (∀ m',
      (∀ key, findE hasherE eqE key m = Outcome.threw e m' →
        m' = m ∧ (hasherE key = Except.error e ∨
          ∃ i kv, (entryAt m.entries i).kvp = some kv ∧ eqE key kv.1 = Except.error e)) ∧
      (∀ item, insertPairE hasherE eqE item m = Outcome.threw e m' →
        m' = m ∧ (hasherE item.1 = Except.error e ∨
          ∃ i kv, (entryAt m.entries i).kvp = some kv ∧ eqE item.1 kv.1 = Except.error e)) ∧
      (∀ key value, insertE hasherE eqE key value m = Outcome.threw e m' →
        m' = m ∧ (hasherE key = Except.error e ∨
          ∃ i kv, (entryAt m.entries i).kvp = some kv ∧ eqE key kv.1 = Except.error e)) ∧
      (∀ (A : Type) key (ctor : A → V) args,
        try_emplaceE hasherE eqE key ctor args m = Outcome.threw e m' →
        m' = m ∧ (hasherE key = Except.error e ∨
          ∃ i kv, (entryAt m.entries i).kvp = some kv ∧ eqE key kv.1 = Except.error e)) ∧
      (∀ key, operatorIndexE hasherE eqE key m = Outcome.threw e m' →
        m' = m ∧ (hasherE key = Except.error e ∨
          ∃ i kv, (entryAt m.entries i).kvp = some kv ∧ eqE key kv.1 = Except.error e)) ∧
      (∀ position, eraseE eqE position m = Outcome.threw e m' →
        m' = m ∧ ∃ i kv kv0, (entryAt m.entries i).kvp = some kv ∧
          (entryAt m.entries position.currentEntryIndex.toNat).kvp = some kv0 ∧
          eqE kv.1 kv0.1 = Except.error e)) ∧
    (∀ key, hasherE key = Except.error e →
      findE hasherE eqE key m = Outcome.threw e m ∧
      (∀ value, insertPairE hasherE eqE (key, value) m = Outcome.threw e m) ∧
      (∀ value, insertE hasherE eqE key value m = Outcome.threw e m) ∧
      (∀ (A : Type) (ctor : A → V) args,
        try_emplaceE hasherE eqE key ctor args m = Outcome.threw e m) ∧
      operatorIndexE hasherE eqE key m = Outcome.threw e m) ∧
    (∀ key hash, hasherE key = Except.ok hash →
      TryFindEntryIndexE eqE key hash m = Outcome.threw e m →
      findE hasherE eqE key m = Outcome.threw e m ∧
      (∀ value, insertPairE hasherE eqE (key, value) m = Outcome.threw e m) ∧
      (∀ value, insertE hasherE eqE key value m = Outcome.threw e m) ∧
      (∀ (A : Type) (ctor : A → V) args,
        try_emplaceE hasherE eqE key ctor args m = Outcome.threw e m) ∧
      operatorIndexE hasherE eqE key m = Outcome.threw e m) ∧
    (∀ position, m.capacity ≠ 0 →
      FindPreviousIndexOfE eqE
        (((entryAt m.entries position.currentEntryIndex.toNat).hash % m.capacity : Nat) : Int)
        position.currentEntryIndex m = Outcome.threw e m →
      eraseE eqE position m = Outcome.threw e m) := by
  refine ⟨?_, ?_, ?_, ?_⟩
  · intro m'
    refine ⟨?_, ?_, ?_, ?_, ?_, ?_⟩
    · intro key h
      exact lookup_then_threw hasherE eqE key
        (fun _ index =>
          Op.read fun m => some (if index ≠ -1 then mkIterator m index else end_ m))
        (fun _ _ => Op.read_ne_threw _) h
    · intro item h
      exact lookup_then_threw hasherE eqE item.1
        (fun hash existing =>
          if existing ≠ -1 then Op.read fun m => some (false, end_ m)
          else (Op.update fun m => CreateAndGetEntryIndexPair m item hash).andThen
            fun createdEntryIndex =>
              Op.read fun m => some (true, mkIterator m createdEntryIndex))
        (fun _ i => creation_tail_ne_threw i _ _ _) h
    · intro key value h
      exact lookup_then_threw hasherE eqE key
        (fun hash existing =>
          if existing ≠ -1 then Op.read fun m => some (false, end_ m)
          else (Op.update fun m => CreateAndGetEntryIndex m hash key id value).andThen
            fun createdEntryIndex =>
              Op.read fun m => some (true, mkIterator m createdEntryIndex))
        (fun _ i => creation_tail_ne_threw i _ _ _) h
    · intro A key ctor args h
      exact lookup_then_threw hasherE eqE key
        (fun hash existing =>
          if existing ≠ -1 then Op.read fun m => some (false, end_ m)
          else (Op.update fun m => CreateAndGetEntryIndex m hash key ctor args).andThen
            fun createdEntryIndex =>
              Op.read fun m => some (true, mkIterator m createdEntryIndex))
        (fun _ i => creation_tail_ne_threw i _ _ _) h
    · intro key h
      exact lookup_then_threw hasherE eqE key
        (fun hash existingIndex =>
          if existingIndex ≠ -1 then
            Op.read fun m => (entryAt m.entries existingIndex.toNat).kvp.map fun (kv : K × V) => kv.2
          else (Op.update fun m =>
              CreateAndGetEntryIndex m hash key (fun (_ : Unit) => (default : V)) ()).andThen
            fun createdIndex =>
              Op.read fun m => (entryAt m.entries createdIndex.toNat).kvp.map fun (kv : K × V) => kv.2)
        (fun _ i => creation_tail_ne_threw i _ _ _) h
    · intro position h
      exact eraseE_threw h
  · intro key he
    exact ⟨lookup_then_hasher_error hasherE eqE key _ m he,
      fun value => lookup_then_hasher_error hasherE eqE key _ m he,
      fun value => lookup_then_hasher_error hasherE eqE key _ m he,
      fun A ctor args => lookup_then_hasher_error hasherE eqE key _ m he,
      lookup_then_hasher_error hasherE eqE key _ m he⟩
  · intro key hash hh hl
    exact ⟨lookup_then_comparer_error hasherE eqE key _ m hh hl,
      fun value => lookup_then_comparer_error hasherE eqE key _ m hh hl,
      fun value => lookup_then_comparer_error hasherE eqE key _ m hh hl,
      fun A ctor args => lookup_then_comparer_error hasherE eqE key _ m hh hl,
      lookup_then_comparer_error hasherE eqE key _ m hh hl⟩
  · intro position hc hf
    have hb : (Op.read (fun (m : HashMap K V) =>
        if m.capacity = 0 then none
        else some (((entryAt m.entries position.currentEntryIndex.toNat).hash % m.capacity
          : Nat) : Int)) : Op E K V Int) m =
        Outcome.returned
          (((entryAt m.entries position.currentEntryIndex.toNat).hash % m.capacity : Nat) : Int)
          m := by
      unfold Op.read
      simp only [hc, if_false]
    show Op.andThen _ _ m = _
    rw [Op.andThen_of_returned hb]
    exact Op.andThen_of_threw hf

theorem collaborator_failure_keeps_state_witness :
    (sampleOne = sampleOne ∧
      ((fun (k : Nat) => (Except.ok (natHash k) : Except Unit Nat)) 1 = Except.error () ∨
        ∃ i kv, (entryAt sampleOne.entries i).kvp = some kv ∧
          throwingComparer 1 kv.1 = Except.error ())) ∧
    insertE throwingHasher (fun a b => Except.ok (natEq a b)) 1 1 sampleOne =
      Outcome.threw () sampleOne :=
  ⟨((collaborator_failure_keeps_state (fun k => Except.ok (natHash k)) throwingComparer
      sampleOne ()).1 sampleOne).2.1 (1, 2) test_MapUsesGivenComparer.2,
   ((collaborator_failure_keeps_state throwingHasher (fun a b => Except.ok (natEq a b))
      sampleOne ()).2.1 1 rfl).2.2.1 1⟩

end HashMap

/-! ## The sizing policy inside the supported range -/

namespace PrimesHelper

theorem Primes_le : ∀ p ∈ Primes, p ≤ 7199369 := by decide

/-- For a minimum up to `MaxPrime` the value returned by `GetPrime` does not exceed
`MaxPrime`: the table ends below it, and the scan stops at `MaxPrime` at the latest. -/
theorem GetPrime_le_MaxPrime {min p : Nat} (hmin : min ≤ MaxPrime)
    (h : GetPrime min = some p) : p ≤ MaxPrime := by
  have hM : MaxPrime = 2146435069 := rfl
  by_cases hle : min ≤ MaxPrimeFromList
  · rw [GetPrime_of_le hle] at h
    have := Primes_le p (List.mem_of_find?_eq_some h)
    omega
  · have hgt : MaxPrimeFromList < min := by omega
    rw [GetPrime_of_gt hgt] at h
    obtain ⟨_, _, j, hj, hrej⟩ := scan_some h
    by_contra hlt
    obtain ⟨i, hi⟩ := odd_ge_or_one (by rw [hM] : MaxPrime % 2 = 1) hmin
    have := hrej i (by omega)
    rw [← hi, IsPrime_MaxPrime] at this
    cases this

/-- Growth from a capacity below `MaxPrime` stays within `MaxPrime`. -/
theorem ExpandPrime_le_MaxPrime {n c : Nat} (hn : n < MaxPrime) (h : ExpandPrime n = some c) :
    c ≤ MaxPrime := by
  have hM : MaxPrime = 2146435069 := rfl
  unfold ExpandPrime at h
  have hmod : (n * 2) % 2 ^ 64 = n * 2 := Nat.mod_eq_of_lt (by omega)
  simp only [hmod] at h
  by_cases hc : n < MaxPrime ∧ MaxPrime < n * 2
  · simp only [hc, and_self, if_true, Option.some.injEq] at h
    omega
  · simp only [hc, if_false] at h
    exact GetPrime_le_MaxPrime (by omega) h

/-- No value returned by `GetPrime` is below 3, the first entry of the table. -/
theorem GetPrime_ge_three {min p : Nat} (h : GetPrime min = some p) : 3 ≤ p := by
  by_cases hle : min ≤ MaxPrimeFromList
  · obtain ⟨q, hq, _, h3⟩ := GetPrime_table hle
    rw [hq] at h
    cases h
    exact h3
  · have hgt : MaxPrimeFromList < min := by omega
    rw [GetPrime_of_gt hgt] at h
    obtain ⟨_, _, j, hj, _⟩ := scan_some h
    have := or_one_eq min
    rw [MaxPrimeFromList_eq] at hgt
    omega

/-- Every value returned by `ExpandPrime` is prime. -/
theorem ExpandPrime_prime {n c : Nat} (h : ExpandPrime n = some c) : Nat.Prime c := by
  unfold ExpandPrime at h
  by_cases hc : n < MaxPrime ∧ MaxPrime < n * 2 % 2 ^ 64
  · simp only [hc, and_self, if_true, Option.some.injEq] at h
    rw [← h]
    exact MaxPrime_prime
  · simp only [hc, if_false] at h
    exact GetPrime_prime h

end PrimesHelper

/-! ## The slot allocation policy -/

namespace HashMap

variable {K V : Type} {hasher : K → Nat} {eq : K → K → Bool}

/-- What `GetNextCreationBucketAndIndex` hands out, by cases on the counters at the time
of the call. -/
theorem GetNextCreationBucketAndIndex_policy {m : HashMap K V} (hwf : WF hasher eq m)
    (hr : InRange m) (hash : Nat) {r : Int × Int × HashMap K V}
    (h : GetNextCreationBucketAndIndex m hash = some r) :
    (0 < m.deletedEntriesAmount →
      r.2.1 = m.deletedList ∧ r.2.2.deletedEntriesAmount = m.deletedEntriesAmount - 1 ∧
      r.2.2.usedEntriesAmount = m.usedEntriesAmount ∧ r.2.2.capacity = m.capacity ∧
      r.2.2.deletedList = (entryAt m.entries m.deletedList.toNat).next) ∧
    (m.deletedEntriesAmount = 0 →
      r.2.1 = (m.usedEntriesAmount : Int) ∧
      r.2.2.usedEntriesAmount = m.usedEntriesAmount + 1 ∧
      r.2.2.deletedEntriesAmount = 0 ∧ r.2.2.deletedList = m.deletedList) ∧
    ((m.deletedEntriesAmount = 0 ∧ m.usedEntriesAmount = m.capacity) →
      m.capacity < r.2.2.capacity ∧
      ((m.capacity = 0 ∧ r.2.2.capacity = 3) ∨
       (m.capacity ≠ 0 ∧ PrimesHelper.ExpandPrime m.capacity = some r.2.2.capacity))) ∧
    (¬ (m.deletedEntriesAmount = 0 ∧ m.usedEntriesAmount = m.capacity) →
      r.2.2.capacity = m.capacity) := by
  by_cases hcap : m.capacity = 0
  · have hm := hwf.eq_empty_of_capacity_zero hcap
    subst hm
    have hget : GetNextCreationBucketAndIndex (empty : HashMap K V) hash =
        some (((hash % 3 : Nat) : Int), ((0 : Nat) : Int),
          HashMap.mk (List.replicate 3 (-1)) (List.replicate 3 emptyEntry) 3 1 0 (-1)) := by
      unfold GetNextCreationBucketAndIndex
      simp only [hcap, if_true, Initialize_empty, Option.bind_eq_bind, Option.some_bind]
      simp
    rw [hget] at h
    cases h
    refine ⟨fun hd => absurd hd (by simp [empty]), fun _ => ⟨rfl, rfl, rfl, rfl⟩,
      fun _ => ⟨by simp [empty], Or.inl ⟨rfl, rfl⟩⟩, fun hn => absurd ⟨rfl, rfl⟩ hn⟩
  · by_cases hdel : 0 < m.deletedEntriesAmount
    · have hget : GetNextCreationBucketAndIndex m hash =
          some (((hash % m.capacity : Nat) : Int), m.deletedList,
            HashMap.mk m.buckets m.entries m.capacity m.usedEntriesAmount
              (m.deletedEntriesAmount - 1) (entryAt m.entries m.deletedList.toNat).next) := by
        unfold GetNextCreationBucketAndIndex
        simp only [hcap, if_false, Option.bind_eq_bind, Option.some_bind, gt_iff_lt, hdel,
          if_true]
      rw [hget] at h
      cases h
      exact ⟨fun _ => ⟨rfl, rfl, rfl, rfl, rfl⟩, fun h0 => by omega, fun h0 => by omega,
        fun _ => rfl⟩
    · have hdel0 : m.deletedEntriesAmount = 0 := by omega
      by_cases hfull : m.usedEntriesAmount = m.capacity
      · have hr' : m.capacity ≤ PrimesHelper.MaxPrime := by
          have : m.usedEntriesAmount < PrimesHelper.MaxPrime := hr
          omega
        obtain ⟨c, hc, hlt⟩ := PrimesHelper.ExpandPrime_gt hr'
        obtain ⟨me, hme, _, hcape, husede, hdele, hdle, _⟩ :=
          Enlarge_spec hwf hfull hdel0 hc hlt
        have hget : GetNextCreationBucketAndIndex m hash =
            some (((hash % me.capacity : Nat) : Int), (me.usedEntriesAmount : Int),
              HashMap.mk me.buckets me.entries me.capacity (me.usedEntriesAmount + 1)
                me.deletedEntriesAmount me.deletedList) := by
          unfold GetNextCreationBucketAndIndex
          simp only [hcap, if_false, Option.bind_eq_bind, Option.some_bind, gt_iff_lt, hdel,
            hfull, if_true, hme]
        rw [hget] at h
        cases h
        refine ⟨fun hd => absurd hd hdel, fun _ => ⟨?_, ?_, ?_, hdle⟩, fun _ => ⟨?_, Or.inr ⟨hcap, ?_⟩⟩,
          fun hn => absurd ⟨hdel0, hfull⟩ hn⟩
        · show (me.usedEntriesAmount : Int) = (m.usedEntriesAmount : Int)
          rw [husede]
        · show me.usedEntriesAmount + 1 = m.usedEntriesAmount + 1
          rw [husede]
        · show me.deletedEntriesAmount = 0
          rw [hdele, hdel0]
        · show m.capacity < me.capacity
          omega
        · show PrimesHelper.ExpandPrime m.capacity = some me.capacity
          rw [hcape, hc]
      · have hget : GetNextCreationBucketAndIndex m hash =
            some (((hash % m.capacity : Nat) : Int), (m.usedEntriesAmount : Int),
              HashMap.mk m.buckets m.entries m.capacity (m.usedEntriesAmount + 1)
                m.deletedEntriesAmount m.deletedList) := by
          unfold GetNextCreationBucketAndIndex
          simp only [hcap, if_false, Option.bind_eq_bind, Option.some_bind, gt_iff_lt, hdel,
            hfull]
        rw [hget] at h
        cases h
        exact ⟨fun hd => absurd hd hdel, fun _ => ⟨rfl, rfl, hdel0, rfl⟩,
          fun hc => absurd hc.2 hfull, fun _ => rfl⟩

/-- The entry writes of `CreateAndGetEntryIndex` keep the index and the counters that
`GetNextCreationBucketAndIndex` hands out. -/
theorem CreateAndGetEntryIndex_fields {A : Type} {m : HashMap K V} {hash : Nat} {key : K}
    {ctor : A → V} {args : A} {c : Int × HashMap K V}
    (h : CreateAndGetEntryIndex m hash key ctor args = some c) :
    ∃ r, GetNextCreationBucketAndIndex m hash = some r ∧ c.1 = r.2.1 ∧
      c.2.capacity = r.2.2.capacity ∧ c.2.usedEntriesAmount = r.2.2.usedEntriesAmount ∧
      c.2.deletedEntriesAmount = r.2.2.deletedEntriesAmount ∧
      c.2.deletedList = r.2.2.deletedList := by
  unfold CreateAndGetEntryIndex at h
  cases hg : GetNextCreationBucketAndIndex m hash with
  | none => simp [hg] at h
  | some r =>
    simp only [hg, Option.bind_eq_bind, Option.some_bind, Option.some.injEq] at h
    subst h
    exact ⟨r, rfl, rfl, rfl, rfl, rfl, rfl⟩

/-- The lookup finds an entry only in a table that has been allocated. -/
theorem TryFindEntryIndex_capacity {m : HashMap K V} {key : K} {hash : Nat} {i : Int}
    (h : TryFindEntryIndex eq m key hash = some i) (hi : i ≠ -1) : m.capacity ≠ 0 := by
  intro hc
  unfold TryFindEntryIndex at h
  rw [if_pos hc] at h
  cases h
  exact hi rfl

/-- The table left by `try_emplace` is the old one, or the one built by
`CreateAndGetEntryIndex`. -/
theorem try_emplace_table {A : Type} {m : HashMap K V} {key : K} {ctor : A → V} {args : A}
    {r : Bool × Iterator × HashMap K V}
    (h : try_emplace hasher eq m key ctor args = some r) :
    (r.1 = false ∧ r.2.2 = m ∧ m.capacity ≠ 0) ∨
    (r.1 = true ∧ ∃ c, CreateAndGetEntryIndex m (hasher key) key ctor args = some c ∧
      r.2.2 = c.2 ∧ r.2.1 = mkIterator c.2 c.1) := by
  unfold try_emplace at h
  cases hT : TryFindEntryIndex eq m key (hasher key) with
  | none => simp [hT] at h
  | some i =>
    by_cases hi : i ≠ -1
    · simp only [hT, hi, ne_eq, not_false_eq_true, if_true, Option.bind_eq_bind,
        Option.some_bind, Option.some.injEq] at h
      subst h
      exact Or.inl ⟨rfl, rfl, TryFindEntryIndex_capacity hT hi⟩
    · simp only [hT, hi, if_false, Option.bind_eq_bind, Option.some_bind] at h
      cases hC : CreateAndGetEntryIndex m (hasher key) key ctor args with
      | none => simp [hC] at h
      | some c =>
        simp only [hC, Option.some_bind, Option.some.injEq] at h
        subst h
        exact Or.inr ⟨rfl, c, rfl, rfl, rfl⟩

/-- The table left by `operator[]` is the old one, or the one built by
`CreateAndGetEntryIndex`. -/
theorem operatorIndex_table [Inhabited V] {m : HashMap K V} {key : K} {r : V × HashMap K V}
    (h : operatorIndex hasher eq m key = some r) :
    (r.2 = m ∧ m.capacity ≠ 0) ∨
    ∃ c, CreateAndGetEntryIndex m (hasher key) key (fun (_ : Unit) => (default : V)) () =
      some c ∧ r.2 = c.2 := by
  unfold operatorIndex at h
  cases hT : TryFindEntryIndex eq m key (hasher key) with
  | none => simp [hT] at h
  | some i =>
    by_cases hi : i ≠ -1
    · simp only [hT, hi, ne_eq, not_false_eq_true, if_true, Option.bind_eq_bind,
        Option.some_bind] at h
      cases hkv : (entryAt m.entries i.toNat).kvp with
      | none => simp [hkv] at h
      | some kv =>
        simp only [hkv, Option.some_bind, Option.some.injEq] at h
        subst h
        exact Or.inl ⟨rfl, TryFindEntryIndex_capacity hT hi⟩
    · simp only [hT, hi, if_false, Option.bind_eq_bind, Option.some_bind] at h
      cases hC : CreateAndGetEntryIndex m (hasher key) key
          (fun (_ : Unit) => (default : V)) () with
      | none => simp [hC] at h
      | some c =>
        simp only [hC, Option.some_bind] at h
        cases hkv : (entryAt c.2.entries c.1.toNat).kvp with
        | none => simp [hkv] at h
        | some kv =>
          simp only [hkv, Option.some_bind, Option.some.injEq] at h
          subst h
          exact Or.inr ⟨c, rfl, rfl⟩

end HashMap

/-! ## The capacity along the reachable states -/

namespace HashMap

variable {K V : Type} {hasher : K → Nat} {eq : K → K → Bool}

theorem PolicyCapacity_three : PolicyCapacity 3 :=
  ⟨Nat.le_refl 3, by norm_num, by decide, Or.inl ⟨0, PrimesHelper.GetPrime_zero⟩⟩

/-- Creating an entry hands the table a capacity of the sizing policy and never lowers
the capacity. -/
theorem CreateAndGetEntryIndex_capacity {A : Type} {m : HashMap K V}
    (hwf : WF hasher eq m) (hr : InRange m)
    (hcap : m.capacity = 0 ∨ PolicyCapacity m.capacity) {hash : Nat} {key : K}
    {ctor : A → V} {args : A} {c : Int × HashMap K V}
    (h : CreateAndGetEntryIndex m hash key ctor args = some c) :
    PolicyCapacity c.2.capacity ∧ m.capacity ≤ c.2.capacity ∧
      (m.capacity = 0 → c.2.capacity = 3) := by
  obtain ⟨r, hget, _, hc, _⟩ := CreateAndGetEntryIndex_fields h
  obtain ⟨_, _, hgrow, hkeep⟩ := GetNextCreationBucketAndIndex_policy hwf hr hash hget
  rw [hc]
  by_cases hcond : m.deletedEntriesAmount = 0 ∧ m.usedEntriesAmount = m.capacity
  · obtain ⟨hlt, hcase⟩ := hgrow hcond
    rcases hcase with ⟨h0, h3⟩ | ⟨hne, hexp⟩
    · rw [h3]
      exact ⟨PolicyCapacity_three, by omega, fun _ => rfl⟩
    · rcases hcap with h0 | hpol
      · exact absurd h0 hne
      · have hlt' : m.capacity < PrimesHelper.MaxPrime := by
          have : m.usedEntriesAmount < PrimesHelper.MaxPrime := hr
          omega
        refine ⟨⟨by have := hpol.1; omega, PrimesHelper.ExpandPrime_prime hexp,
          PrimesHelper.ExpandPrime_le_MaxPrime hlt' hexp, Or.inr ⟨_, hexp⟩⟩, by omega,
          fun h0 => absurd h0 hne⟩
  · rw [hkeep hcond]
    rcases hcap with h0 | hpol
    · have hm := hwf.eq_empty_of_capacity_zero h0
      subst hm
      exact absurd ⟨rfl, rfl⟩ hcond
    · exact ⟨hpol, Nat.le_refl _, fun h0 => by have := hpol.1; omega⟩

/-- The capacity after `try_emplace`. -/
theorem try_emplace_capacity {A : Type} {m : HashMap K V} (hwf : WF hasher eq m)
    (hr : InRange m) (hcap : m.capacity = 0 ∨ PolicyCapacity m.capacity) {key : K}
    {ctor : A → V} {args : A} {r : Bool × Iterator × HashMap K V}
    (h : try_emplace hasher eq m key ctor args = some r) :
    PolicyCapacity r.2.2.capacity ∧ m.capacity ≤ r.2.2.capacity ∧
      (m.capacity = 0 → r.2.2.capacity = 3) := by
  rcases try_emplace_table h with ⟨_, hm, hne⟩ | ⟨_, c, hc, hm, _⟩
  · rw [hm]
    rcases hcap with h0 | hpol
    · exact absurd h0 hne
    · exact ⟨hpol, Nat.le_refl _, fun h0 => absurd h0 hne⟩
  · rw [hm]
    exact CreateAndGetEntryIndex_capacity hwf hr hcap hc

/-- The capacity after `operator[]`. -/
theorem operatorIndex_capacity [Inhabited V] {m : HashMap K V} (hwf : WF hasher eq m)
    (hr : InRange m) (hcap : m.capacity = 0 ∨ PolicyCapacity m.capacity) {key : K}
    {r : V × HashMap K V} (h : operatorIndex hasher eq m key = some r) :
    PolicyCapacity r.2.capacity ∧ m.capacity ≤ r.2.capacity ∧
      (m.capacity = 0 → r.2.capacity = 3) := by
  rcases operatorIndex_table h with ⟨hm, hne⟩ | ⟨c, hc, hm⟩
  · rw [hm]
    rcases hcap with h0 | hpol
    · exact absurd h0 hne
    · exact ⟨hpol, Nat.le_refl _, fun h0 => absurd h0 hne⟩
  · rw [hm]
    exact CreateAndGetEntryIndex_capacity hwf hr hcap hc

/-- The counters after erasing a stored pair: the erased slot is the new free-list
head. -/
theorem erase_fields (hk : LawfulKeys hasher eq) {m : HashMap K V} (hwf : WF hasher eq m)
    (position : Iterator) (hpos : 0 ≤ position.currentEntryIndex)
    (hd : deref m position ≠ none) {r : Iterator × HashMap K V}
    (h : erase eq m position = some r) :
    WF hasher eq r.2 ∧ r.2.capacity = m.capacity ∧
      r.2.usedEntriesAmount = m.usedEntriesAmount ∧
      r.2.deletedEntriesAmount = m.deletedEntriesAmount + 1 ∧
      r.2.deletedList = position.currentEntryIndex ∧
      (entryAt r.2.entries position.currentEntryIndex.toNat).kvp = none ∧
      (∀ i, i ≠ position.currentEntryIndex.toNat →
        (entryAt r.2.entries i).kvp = (entryAt m.entries i).kvp) := by
  obtain ⟨x, hx⟩ : ∃ x : Nat, position.currentEntryIndex = (x : Int) :=
    ⟨position.currentEntryIndex.toNat, (Int.toNat_of_nonneg hpos).symm⟩
  have hocc : (entryAt m.entries x).kvp ≠ none := by
    unfold deref at hd
    rw [hx, Int.toNat_ofNat] at hd
    exact hd
  obtain ⟨kv, hkv⟩ := Option.ne_none_iff_exists'.1 hocc
  obtain ⟨chain, hch⟩ := hwf.chains
  have hcap : 0 < m.capacity := hwf.capacity_pos hocc
  have hbx : (entryAt m.entries x).hash % m.capacity < m.capacity := Nat.mod_lt _ hcap
  have hmem : x ∈ chain ((entryAt m.entries x).hash % m.capacity) :=
    ((hch _ hbx).2.2 x).2 ⟨hocc, rfl⟩
  obtain ⟨pre, post, hsplit⟩ := List.append_of_mem hmem
  obtain ⟨r', m', he, hwf', _, hc, hused, hdel, hdl, hnone, hsame, _⟩ :=
    erase_spec hk hwf hch hkv hsplit position hx
  rw [he] at h
  cases h
  rw [hx, Int.toNat_ofNat]
  exact ⟨hwf', hc, hused, hdel, hdl, hnone, fun i hi => (hsame i hi).1⟩

/-- Every reachable state has capacity 0 or a capacity of the sizing policy. -/
theorem Reachable.capacity_inv (hk : LawfulKeys hasher eq) {m : HashMap K V}
    (h : Reachable hasher eq m) : m.capacity = 0 ∨ PolicyCapacity m.capacity := by
  induction h with
  | start => exact Or.inl rfl
  | insertPair item hprev hr hop ih =>
    rw [insertPair_eq_insert, insert_eq_try_emplace] at hop
    exact Or.inr (try_emplace_capacity (Reachable.inv hk hprev).1 hr ih hop).1
  | insert key value hprev hr hop ih =>
    rw [insert_eq_try_emplace] at hop
    exact Or.inr (try_emplace_capacity (Reachable.inv hk hprev).1 hr ih hop).1
  | try_emplace key ctor args hprev hr hop ih =>
    exact Or.inr (try_emplace_capacity (Reachable.inv hk hprev).1 hr ih hop).1
  | operatorIndex key hprev hr hop ih =>
    exact Or.inr (operatorIndex_capacity (Reachable.inv hk hprev).1 hr ih hop).1
  | erase position hprev hpos hd hop ih =>
    rw [(erase_fields hk (Reachable.inv hk hprev).1 position hpos hd hop).2.1]
    exact ih
  | @growth m0 m1 hprev hr hfull hfree hop ih =>
    have hlt' : m0.capacity < PrimesHelper.MaxPrime := by
      have : m0.usedEntriesAmount < PrimesHelper.MaxPrime := hr
      omega
    obtain ⟨c, hc, hlt⟩ := PrimesHelper.ExpandPrime_gt (le_of_lt hlt')
    obtain ⟨me, hme, _, hcape, _⟩ := Enlarge_spec (Reachable.inv hk hprev).1 hfull hfree hc hlt
    rw [hme] at hop
    cases hop
    rw [hcape]
    right
    refine ⟨?_, PrimesHelper.ExpandPrime_prime hc, PrimesHelper.ExpandPrime_le_MaxPrime hlt' hc,
      Or.inr ⟨_, hc⟩⟩
    rcases ih with h0 | hpol
    · have h3 : PrimesHelper.ExpandPrime 0 = some 3 := by decide
      rw [h0, h3] at hc
      cases hc
      exact Nat.le_refl 3
    · have := hpol.1
      omega

end HashMap

/-! ## Slot allocation, growth and capacity: the claims -/

namespace HashMap

variable {K V : Type} {hasher : K → Nat} {eq : K → K → Bool}

/-- Where an insertion of an absent key puts the new entry, and what happens to the
counters and the capacity. -/
theorem insert_slot (hk : LawfulKeys hasher eq) {m : HashMap K V} (hwf : WF hasher eq m)
    (hr : InRange m) (key : K) (value : V) (habs : find hasher eq m key = some (end_ m)) :
    ∃ (x : Nat) (m' : HashMap K V),
      insert hasher eq m key value = some (true, mkIterator m' (x : Int), m') ∧
      (entryAt m.entries x).kvp = none ∧ (entryAt m'.entries x).kvp = some (key, value) ∧
      (0 < m.deletedEntriesAmount →
        m.deletedList = (x : Int) ∧ m'.deletedEntriesAmount = m.deletedEntriesAmount - 1 ∧
        m'.usedEntriesAmount = m.usedEntriesAmount ∧ m'.capacity = m.capacity ∧
        m'.deletedList = (entryAt m.entries x).next) ∧
      (m.deletedEntriesAmount = 0 →
        x = m.usedEntriesAmount ∧ m'.usedEntriesAmount = m.usedEntriesAmount + 1 ∧
        m'.deletedEntriesAmount = 0) ∧
      (m.capacity < m'.capacity ↔
        (m.deletedEntriesAmount = 0 ∧ m.usedEntriesAmount = m.capacity)) ∧
      (¬ (m.deletedEntriesAmount = 0 ∧ m.usedEntriesAmount = m.capacity) →
        m'.capacity = m.capacity) ∧
      (m.capacity ≠ 0 → m.capacity < m'.capacity →
        ∃ me, Enlarge m = some me ∧ m'.capacity = me.capacity) ∧
      (m.capacity = 0 → m'.capacity = 3) := by
  have habs' := (find_eq_end_iff hk hwf key).1 habs
  obtain ⟨x, m', hc, _, hfree, hnew, _⟩ :=
    CreateAndGetEntryIndex_spec hk hwf hr key id value habs'
  have hins : insert hasher eq m key value = some (true, mkIterator m' (x : Int), m') := by
    unfold insert
    simp only [TryFindEntryIndex_absent hwf habs', Option.bind_eq_bind, Option.some_bind,
      ne_eq, not_true_eq_false, if_false, hc]
  obtain ⟨r, hget, hidx, hcapf, husedf, hdelf, hdlf⟩ := CreateAndGetEntryIndex_fields hc
  obtain ⟨hrec, hfresh, hgrow, hkeep⟩ :=
    GetNextCreationBucketAndIndex_policy hwf hr (hasher key) hget
  have hidx' : (x : Int) = r.2.1 := hidx
  have hcapf' : m'.capacity = r.2.2.capacity := hcapf
  have husedf' : m'.usedEntriesAmount = r.2.2.usedEntriesAmount := husedf
  have hdelf' : m'.deletedEntriesAmount = r.2.2.deletedEntriesAmount := hdelf
  have hdlf' : m'.deletedList = r.2.2.deletedList := hdlf
  refine ⟨x, m', hins, hfree, hnew, ?_, ?_, ?_, ?_, ?_, ?_⟩
  · intro hd
    obtain ⟨h1, h2, h3, h4, h5⟩ := hrec hd
    have hx : m.deletedList = (x : Int) := by rw [hidx', h1]
    refine ⟨hx, by rw [hdelf', h2], by rw [husedf', h3], by rw [hcapf', h4], ?_⟩
    rw [hdlf', h5, hx, Int.toNat_ofNat]
  · intro hd
    obtain ⟨h1, h2, h3, _⟩ := hfresh hd
    refine ⟨?_, by rw [husedf', h2], by rw [hdelf', h3]⟩
    have : (x : Int) = (m.usedEntriesAmount : Int) := by rw [hidx', h1]
    exact_mod_cast this
  · constructor
    · intro hlt
      by_contra hcond
      have := hkeep hcond
      omega
    · intro hcond
      have := (hgrow hcond).1
      omega
  · intro hcond
    rw [hcapf', hkeep hcond]
  · intro hne hlt
    have hcond : m.deletedEntriesAmount = 0 ∧ m.usedEntriesAmount = m.capacity := by
      by_contra hcond
      have := hkeep hcond
      omega
    rcases (hgrow hcond).2 with ⟨h0, _⟩ | ⟨_, hexp⟩
    · exact absurd h0 hne
    · obtain ⟨me, hme, _, hcape, _⟩ :=
        Enlarge_spec hwf hcond.2 hcond.1 hexp (by omega)
      exact ⟨me, hme, by rw [hcapf', hcape]⟩
  · intro h0
    have hm := hwf.eq_empty_of_capacity_zero h0
    subst hm
    rcases (hgrow ⟨rfl, rfl⟩).2 with ⟨_, h3⟩ | ⟨hne, _⟩
    · rw [hcapf', h3]
    · exact absurd rfl hne

/-- C21: for every well-formed table (fewer than `MaxPrime` slots in use) and absent key,
an insertion with `deletedEntriesAmount > 0` stores the new entry in the slot at the
head of the free list, lowers `deletedEntriesAmount` by one and keeps
`usedEntriesAmount` and the capacity; with `deletedEntriesAmount == 0` it stores the
entry at index `usedEntriesAmount` and raises `usedEntriesAmount` by one; and the
capacity grows exactly when `deletedEntriesAmount == 0` and `usedEntriesAmount ==
capacity`, by `Enlarge` on an allocated table and by the lazy `Initialize(0)` on the
table of capacity 0 (for which the test that guards `Enlarge` then fails).  The head of
the free list is the most recently erased slot: an insertion right after an `erase`
reuses the erased slot. -/
theorem slot_allocation_policy (hk : LawfulKeys hasher eq) {m : HashMap K V}
    (hwf : WF hasher eq m) (hr : InRange m) :
    (∀ key value, find hasher eq m key = some (end_ m) →
      ∃ (x : Nat) (m' : HashMap K V),
        insert hasher eq m key value = some (true, mkIterator m' (x : Int), m') ∧
        insertPair hasher eq m (key, value) = some (true, mkIterator m' (x : Int), m') ∧
        try_emplace hasher eq m key id value = some (true, mkIterator m' (x : Int), m') ∧
        (entryAt m.entries x).kvp = none ∧ (entryAt m'.entries x).kvp = some (key, value) ∧
        (0 < m.deletedEntriesAmount →
          m.deletedList = (x : Int) ∧ m'.deletedEntriesAmount = m.deletedEntriesAmount - 1 ∧
          m'.usedEntriesAmount = m.usedEntriesAmount ∧ m'.capacity = m.capacity ∧
          m'.deletedList = (entryAt m.entries x).next) ∧
        (m.deletedEntriesAmount = 0 →
          x = m.usedEntriesAmount ∧ m'.usedEntriesAmount = m.usedEntriesAmount + 1 ∧
          m'.deletedEntriesAmount = 0) ∧
        (m.capacity < m'.capacity ↔
          (m.deletedEntriesAmount = 0 ∧ m.usedEntriesAmount = m.capacity)) ∧
        (¬ (m.deletedEntriesAmount = 0 ∧ m.usedEntriesAmount = m.capacity) →
          m'.capacity = m.capacity) ∧
        (m.capacity ≠ 0 → m.capacity < m'.capacity →
          ∃ me, Enlarge m = some me ∧ m'.capacity = me.capacity) ∧
        (∃ m0, (if m.capacity = 0 then Initialize m 0 else some m) = some m0 ∧
          (m0.capacity < m'.capacity ↔
            (m0.deletedEntriesAmount = 0 ∧ m0.usedEntriesAmount = m0.capacity)))) ∧
    (∀ (position : Iterator) (r : Iterator × HashMap K V) key value,
      0 ≤ position.currentEntryIndex → deref m position ≠ none →
      erase eq m position = some r → find hasher eq r.2 key = some (end_ r.2) →
      ∃ m'', insert hasher eq r.2 key value =
          some (true, mkIterator m'' position.currentEntryIndex, m'') ∧
        (entryAt m''.entries position.currentEntryIndex.toNat).kvp = some (key, value) ∧
        m''.deletedEntriesAmount = m.deletedEntriesAmount ∧
        m''.usedEntriesAmount = m.usedEntriesAmount ∧ m''.capacity = m.capacity) := by
  constructor
  · intro key value habs
    obtain ⟨x, m', hins, hfree, hnew, hrec, hfresh, hiff, hkeep, henl, hzero⟩ :=
      insert_slot hk hwf hr key value habs
    refine ⟨x, m', hins, ?_, ?_, hfree, hnew, hrec, hfresh, hiff, hkeep, henl, ?_⟩
    · rw [insertPair_eq_insert]
      exact hins
    · rw [← insert_eq_try_emplace]
      exact hins
    · by_cases h0 : m.capacity = 0
      · have hm := hwf.eq_empty_of_capacity_zero h0
        subst hm
        refine ⟨_, by rw [if_pos h0]; exact Initialize_empty, ?_⟩
        rw [hzero h0]
        constructor
        · intro hlt
          exact absurd hlt (Nat.lt_irrefl 3)
        · rintro ⟨_, h3⟩
          cases h3
      · exact ⟨m, by rw [if_neg h0], hiff⟩
  · intro position r key value hpos hd he habs
    obtain ⟨hwf', hc, hused, hdel, hdl, _, _⟩ := erase_fields hk hwf position hpos hd he
    have hr' : InRange r.2 := by
      unfold InRange
      rw [hused]
      exact hr
    obtain ⟨x, m'', hins, _, hnew, hrec, _⟩ := insert_slot hk hwf' hr' key value habs
    obtain ⟨h1, h2, h3, h4, _⟩ := hrec (by omega)
    have hx : position.currentEntryIndex = (x : Int) := by rw [← hdl, h1]
    refine ⟨m'', ?_, ?_, by omega, by omega, by omega⟩
    · rw [hx]
      exact hins
    · rw [hx, Int.toNat_ofNat]
      exact hnew

theorem slot_allocation_policy_witness :
    (∃ (x : Nat) (m' : HashMap Nat Nat),
      insert natHash natEq sampleErased 10 11 = some (true, mkIterator m' (x : Int), m') ∧
      sampleErased.deletedList = (x : Int) ∧ m'.deletedEntriesAmount = 0 ∧
      m'.capacity = sampleErased.capacity) ∧
    (∃ (x : Nat) (m' : HashMap Nat Nat),
      insert natHash natEq sampleFull 10 11 = some (true, mkIterator m' (x : Int), m') ∧
      x = 3 ∧ sampleFull.capacity < m'.capacity) := by
  constructor
  · obtain ⟨x, m', h1, _, _, _, _, hrec, _⟩ :=
      (slot_allocation_policy lawfulKeys_nat
        (Reachable.inv lawfulKeys_nat Reachable_sampleErased).1
        (by unfold InRange; decide)).1 10 11 (by decide)
    obtain ⟨h2, h3, _, h4, _⟩ := hrec (by decide)
    exact ⟨x, m', h1, h2, h3, h4⟩
  · obtain ⟨x, m', h1, _, _, _, _, _, hfresh, hiff, _⟩ :=
      (slot_allocation_policy lawfulKeys_nat WF_sampleFull InRange_sampleFull).1 10 11
        (by decide)
    exact ⟨x, m', h1, (hfresh (by decide)).1, hiff.2 ⟨by decide, by decide⟩⟩

/-- C22: for every `n <= 2146435069`, `ExpandPrime(n)` returns, and every value it
returns is strictly greater than `n`; hence `Enlarge` on a table of such a capacity
never takes the branch `capacity <= oldCapacity`: it returns a table of strictly larger
capacity with both arrays reallocated at that capacity; and every reachable state has
a capacity of at most 2146435069. -/
theorem ExpandPrime_strictly_grows (n : Nat) (hn : n ≤ 2146435069) :
    (∃ c, PrimesHelper.ExpandPrime n = some c) ∧
    (∀ c, PrimesHelper.ExpandPrime n = some c → n < c ∧ ¬ (c ≤ n)) ∧
    (∀ (m m' : HashMap K V), m.capacity = n → Enlarge m = some m' →
      m.capacity < m'.capacity ∧ PrimesHelper.ExpandPrime n = some m'.capacity ∧
      m'.buckets.length = m'.capacity ∧ m'.entries.length = m'.capacity) ∧
    (LawfulKeys hasher eq → ∀ m : HashMap K V, Reachable hasher eq m →
      m.capacity ≤ 2146435069) := by
  have hM : PrimesHelper.MaxPrime = 2146435069 := rfl
  obtain ⟨c, hc, hlt⟩ := PrimesHelper.ExpandPrime_gt (by rw [hM]; exact hn : n ≤ _)
  refine ⟨⟨c, hc⟩, ?_, ?_, ?_⟩
  · intro c' hc'
    rw [hc] at hc'
    cases hc'
    exact ⟨hlt, by omega⟩
  · intro m m' hcap hE
    subst hcap
    have hinv := Enlarge.fold_inv m.entries c m.capacity (le_of_lt hlt)
    have hE' : Enlarge m = some (HashMap.mk
        ((List.range m.capacity).foldl (Enlarge.step c m.entries)
          (List.replicate c (-1), List.replicate c emptyEntry)).1
        ((List.range m.capacity).foldl (Enlarge.step c m.entries)
          (List.replicate c (-1), List.replicate c emptyEntry)).2
        c m.usedEntriesAmount m.deletedEntriesAmount m.deletedList) := by
      unfold Enlarge
      simp only [hc, Option.bind_eq_bind, Option.some_bind]
      rw [if_neg (by omega)]
    rw [hE'] at hE
    cases hE
    exact ⟨hlt, hc, hinv.1, hinv.2.1⟩
  · intro hk m hreach
    rcases Reachable.capacity_inv hk hreach with h0 | hpol
    · omega
    · have := hpol.2.2.1
      omega

theorem ExpandPrime_strictly_grows_witness :
    (∃ c, PrimesHelper.ExpandPrime 3 = some c) ∧ (3 < 7 ∧ ¬ (7 ≤ 3)) ∧
    sampleFull.capacity ≤ 2146435069 :=
  ⟨(@ExpandPrime_strictly_grows Nat Nat natHash natEq 3 (by decide)).1,
   (@ExpandPrime_strictly_grows Nat Nat natHash natEq 3 (by decide)).2.1 7 (by decide),
   (@ExpandPrime_strictly_grows Nat Nat natHash natEq 3 (by decide)).2.2.2 lawfulKeys_nat
     sampleFull Reachable_sampleFull⟩

/-- C23: the freshly constructed table has capacity 0; `GetPrime(0)` is 3, the smallest
value that `GetPrime` returns, and a first
`insert`, `try_emplace` or `operator[]` on the empty table returns and sets the capacity
to 3; in every reachable state the capacity is 0 only for the empty table, and is
otherwise a prime of at least 3 returned by `GetPrime` or `ExpandPrime`; and every
`insert`, `try_emplace`, `operator[]` and `erase` on a reachable state leaves a capacity
that is not smaller than before, and every insertion call leaves a capacity different
from 0. -/
theorem capacity_invariant [Inhabited V] (hk : LawfulKeys hasher eq) :
    (empty : HashMap K V).capacity = 0 ∧ PrimesHelper.GetPrime 0 = some 3 ∧
    (∀ n p, PrimesHelper.GetPrime n = some p → 3 ≤ p) ∧
    (∀ (key : K) (value : V),
      (∃ r, insert hasher eq empty key value = some r ∧ r.1 = true ∧ r.2.2.capacity = 3) ∧
      (∃ r, insertPair hasher eq empty (key, value) = some r ∧ r.1 = true ∧
        r.2.2.capacity = 3) ∧
      (∃ r, try_emplace hasher eq empty key id value = some r ∧ r.1 = true ∧
        r.2.2.capacity = 3) ∧
      (∃ r, operatorIndex hasher eq (empty : HashMap K V) key = some r ∧
        r.2.capacity = 3)) ∧
    (∀ m : HashMap K V, Reachable hasher eq m →
      (m.capacity = 0 → m = empty) ∧
      (m.capacity ≠ 0 → 3 ≤ m.capacity ∧ Nat.Prime m.capacity ∧
        ((∃ n, PrimesHelper.GetPrime n = some m.capacity) ∨
          ∃ n, PrimesHelper.ExpandPrime n = some m.capacity)) ∧
      (InRange m → ∀ key value r, insert hasher eq m key value = some r →
        m.capacity ≤ r.2.2.capacity ∧ r.2.2.capacity ≠ 0) ∧
      (InRange m → ∀ item r, insertPair hasher eq m item = some r →
        m.capacity ≤ r.2.2.capacity ∧ r.2.2.capacity ≠ 0) ∧
      (InRange m → ∀ (A : Type) key (ctor : A → V) args r,
        try_emplace hasher eq m key ctor args = some r →
        m.capacity ≤ r.2.2.capacity ∧ r.2.2.capacity ≠ 0) ∧
      (InRange m → ∀ key r, operatorIndex hasher eq m key = some r →
        m.capacity ≤ r.2.capacity ∧ r.2.capacity ≠ 0) ∧
      (∀ position r, 0 ≤ position.currentEntryIndex → deref m position ≠ none →
        erase eq m position = some r → r.2.capacity = m.capacity)) := by
  refine ⟨rfl, PrimesHelper.GetPrime_zero, fun _ _ h => PrimesHelper.GetPrime_ge_three h,
    ?_, ?_⟩
  · intro key value
    have habs : ∀ i kv, (entryAt (empty : HashMap K V).entries i).kvp = some kv →
        eq key kv.1 = false := by
      intro i kv h
      simp [empty, entryAt_nil, emptyEntry] at h
    obtain ⟨x, m', ht, _⟩ :=
      try_emplace_absent hk (WF_empty : WF hasher eq (empty : HashMap K V)) InRange_empty
        key id value habs
    have h3 := (try_emplace_capacity (WF_empty : WF hasher eq (empty : HashMap K V))
      InRange_empty (Or.inl rfl) ht).2.2 rfl
    obtain ⟨y, md, hc, _, _, hnew, _⟩ :=
      CreateAndGetEntryIndex_spec hk (WF_empty : WF hasher eq (empty : HashMap K V))
        InRange_empty key (fun (_ : Unit) => (default : V)) () habs
    have hop : operatorIndex hasher eq (empty : HashMap K V) key = some (default, md) := by
      unfold operatorIndex
      simp only [TryFindEntryIndex_absent WF_empty habs, Option.bind_eq_bind,
        Option.some_bind, ne_eq, not_true_eq_false, if_false, hc, Int.toNat_ofNat, hnew]
    refine ⟨⟨_, ?_, rfl, h3⟩, ⟨_, ?_, rfl, h3⟩, ⟨_, ht, rfl, h3⟩, ⟨_, hop, ?_⟩⟩
    · rw [insert_eq_try_emplace]
      exact ht
    · rw [insertPair_eq_insert, insert_eq_try_emplace]
      exact ht
    · exact (operatorIndex_capacity (WF_empty : WF hasher eq (empty : HashMap K V))
        InRange_empty (Or.inl rfl) hop).2.2 rfl
  · intro m hreach
    have hwf := (Reachable.inv hk hreach).1
    have hcap := Reachable.capacity_inv hk hreach
    refine ⟨hwf.eq_empty_of_capacity_zero, ?_, ?_, ?_, ?_, ?_, ?_⟩
    · intro hne
      rcases hcap with h0 | hpol
      · exact absurd h0 hne
      · exact ⟨hpol.1, hpol.2.1, hpol.2.2.2⟩
    · intro hr key value r hop
      rw [insert_eq_try_emplace] at hop
      obtain ⟨h1, h2, _⟩ := try_emplace_capacity hwf hr hcap hop
      exact ⟨h2, by have := h1.1; omega⟩
    · intro hr item r hop
      rw [insertPair_eq_insert, insert_eq_try_emplace] at hop
      obtain ⟨h1, h2, _⟩ := try_emplace_capacity hwf hr hcap hop
      exact ⟨h2, by have := h1.1; omega⟩
    · intro hr A key ctor args r hop
      obtain ⟨h1, h2, _⟩ := try_emplace_capacity hwf hr hcap hop
      exact ⟨h2, by have := h1.1; omega⟩
    · intro hr key r hop
      obtain ⟨h1, h2, _⟩ := operatorIndex_capacity hwf hr hcap hop
      exact ⟨h2, by have := h1.1; omega⟩
    · intro position r hpos hd hop
      exact (erase_fields hk hwf position hpos hd hop).2.1

theorem capacity_invariant_witness :
    (empty : HashMap Nat Nat).capacity = 0 ∧
    (∃ r, insert natHash natEq empty 1 4 = some r ∧ r.1 = true ∧ r.2.2.capacity = 3) ∧
    (3 ≤ sampleErased.capacity ∧ Nat.Prime sampleErased.capacity ∧
      ((∃ n, PrimesHelper.GetPrime n = some sampleErased.capacity) ∨
        ∃ n, PrimesHelper.ExpandPrime n = some sampleErased.capacity)) :=
  ⟨(capacity_invariant lawfulKeys_nat).1,
   ((capacity_invariant lawfulKeys_nat).2.2.2.1 1 4).1,
   ((capacity_invariant lawfulKeys_nat).2.2.2.2 sampleErased Reachable_sampleErased).2.1
     (by decide)⟩

end HashMap

/-! ## Erasing keeps the iteration order -/

namespace HashMap

variable {K V : Type} {hasher : K → Nat} {eq : K → K → Bool}

/-- In a traversal `L1, it, L2` no other iterator shares the entry index of `it`. -/
theorem order_index_ne {m : HashMap K V} {chain : Nat → List Nat} (hch : ChainsOk m chain)
    {L1 L2 : List Iterator} {it : Iterator}
    (horder : orderFrom m.capacity chain 0 = L1 ++ it :: L2) {it' : Iterator}
    (hmem : it' ∈ L1 ++ L2) :
    it'.currentEntryIndex.toNat ≠ it.currentEntryIndex.toNat := by
  have hnd := nodup_order_entries hch
  rw [horder, List.map_append, List.map_cons, List.nodup_middle, List.nodup_cons] at hnd
  intro he
  apply hnd.1
  rw [← List.map_append, ← he]
  exact List.mem_map.2 ⟨it', hmem, rfl⟩

/-- An iterator of the traversal can be advanced: `++` yields the next iterator of the
traversal, or the end iterator after the last one. -/
theorem incr_in_order {m : HashMap K V} (hwf : WF hasher eq m) {chain : Nat → List Nat}
    (hch : ChainsOk m chain) {A B : List Iterator} {it : Iterator}
    (horder : orderFrom m.capacity chain 0 = A ++ it :: B) :
    ∃ r, incr m it = some r ∧
      ((B = [] ∧ r.currentEntryIndex = -1) ∨ ∃ rest, B = r :: rest) := by
  obtain ⟨x, kv, pre, post, hit, hkv, hsplit, hB⟩ := order_position hch horder
  have hocc : (entryAt m.entries x).kvp ≠ none := by rw [hkv]; simp
  have hcap : 0 < m.capacity := hwf.capacity_pos hocc
  have hbx : (entryAt m.entries x).hash % m.capacity < m.capacity := Nat.mod_lt _ hcap
  obtain ⟨r, hr, hcase⟩ := incr_spec hch hbx hsplit
  refine ⟨r, by rw [hit]; exact hr, ?_⟩
  rcases hcase with ⟨hnil, hend⟩ | ⟨_, _, _, _, _, _, _, hcons⟩
  · exact Or.inl ⟨by rw [hB]; exact hnil, hend⟩
  · exact Or.inr ⟨_, by rw [hB]; exact hcons⟩

/-- C24 (amended): for a comparer that is an equivalence relation and a hasher that gives
equal keys equal hashes, when the traversal of a well-formed table visits `L1`, then
`it`, then `L2`,
`erase(it)` returns a well-formed table whose traversal visits `L1`, then `L2`: the
other iterators are met in the same order with the same bucket and entry indices, they
reference the same pairs with the same cached hashes as before, each of them can still
be advanced by `++` to its successor in the new traversal, and the erased slot is
empty. -/
theorem erase_preserves_order (hk : LawfulKeys hasher eq) {m : HashMap K V}
    (hwf : WF hasher eq m) (L1 L2 : List Iterator) (it : Iterator)
    (htrav : iterate m = some (L1 ++ it :: L2)) :
    ∃ (r : Iterator) (m' : HashMap K V), erase eq m it = some (r, m') ∧
      WF hasher eq m' ∧ iterate m' = some (L1 ++ L2) ∧ deref m' it = none ∧
      (∀ it' ∈ L1 ++ L2,
        it'.currentEntryIndex ≠ it.currentEntryIndex ∧
        deref m' it' = deref m it' ∧ deref m' it' ≠ none ∧
        (entryAt m'.entries it'.currentEntryIndex.toNat).hash =
          (entryAt m.entries it'.currentEntryIndex.toNat).hash) ∧
      (∀ (A B : List Iterator) (it' : Iterator), L1 ++ L2 = A ++ it' :: B →
        ∃ r', incr m' it' = some r' ∧
          ((B = [] ∧ r'.currentEntryIndex = -1) ∨ ∃ rest, B = r' :: rest)) := by
  obtain ⟨chain, hch⟩ := hwf.chains
  have horder : orderFrom m.capacity chain 0 = L1 ++ it :: L2 := by
    have := iterate_spec hwf hch
    rw [this] at htrav
    exact Option.some.inj htrav
  obtain ⟨r, m', chain', x, kv, he, hwf', hch', hx, hkv, hcap, _, hnone, hsame, horder', _⟩ :=
    erase_in_order hk hwf hch horder
  refine ⟨r, m', he, hwf', ?_, ?_, ?_, ?_⟩
  · rw [iterate_spec hwf' hch', horder']
  · unfold deref
    rw [hx, Int.toNat_ofNat]
    exact hnone
  · intro it' hmem
    have hne := order_index_ne hch horder hmem
    have hne' : it'.currentEntryIndex.toNat ≠ x := by
      rw [hx, Int.toNat_ofNat] at hne
      exact hne
    have hocc : deref m it' ≠ none := by
      have hin : it' ∈ orderFrom m.capacity chain 0 := by
        rw [horder]
        rcases List.mem_append.1 hmem with h | h
        · exact List.mem_append_left _ h
        · exact List.mem_append_right _ (List.mem_cons_of_mem _ h)
      exact (mem_order_entries hwf hch it'.currentEntryIndex.toNat).1
        (List.mem_map.2 ⟨it', hin, rfl⟩)
    have hd : deref m' it' = deref m it' := (hsame _ hne').1
    refine ⟨?_, hd, by rw [hd]; exact hocc, (hsame _ hne').2⟩
    intro hidx
    apply hne
    rw [hidx]
  · intro A B it' hsplit
    exact incr_in_order hwf' hch' (by rw [horder', hsplit])

theorem erase_preserves_order_witness :
    ∃ (r : Iterator) (m' : HashMap Nat Nat),
      erase natEq sampleFull (Iterator.mk 1 1) = some (r, m') ∧
      WF natHash natEq m' ∧
      iterate m' = some ([Iterator.mk 1 2] ++ [Iterator.mk 1 0]) ∧
      deref m' (Iterator.mk 1 1) = none ∧
      (∀ it' ∈ [Iterator.mk 1 2] ++ [Iterator.mk 1 0],
        it'.currentEntryIndex ≠ (Iterator.mk 1 1).currentEntryIndex ∧
        deref m' it' = deref sampleFull it' ∧ deref m' it' ≠ none ∧
        (entryAt m'.entries it'.currentEntryIndex.toNat).hash =
          (entryAt sampleFull.entries it'.currentEntryIndex.toNat).hash) ∧
      (∀ (A B : List Iterator) (it' : Iterator),
        [Iterator.mk 1 2] ++ [Iterator.mk 1 0] = A ++ it' :: B →
        ∃ r', incr m' it' = some r' ∧
          ((B = [] ∧ r'.currentEntryIndex = -1) ∨ ∃ rest, B = r' :: rest)) :=
  erase_preserves_order lawfulKeys_nat WF_sampleFull [Iterator.mk 1 2] [Iterator.mk 1 0]
    (Iterator.mk 1 1) (by decide)

/-- The traversals of the sample table before and after erasing the entry in slot 1. -/
theorem test_erase_keeps_order :
    iterate sampleFull = some [Iterator.mk 1 2, Iterator.mk 1 1, Iterator.mk 1 0] ∧
    iterate sampleErased = some [Iterator.mk 1 2, Iterator.mk 1 0] := by
  decide

end HashMap

/-! ## A comparer that is not reflexive

`FindPreviousIndexOf` finds the entry to unlink by comparing keys.  With a comparer that
never reports equality it runs to the end of the chain, and `erase` relinks the last
entry of the chain instead of the predecessor of the erased one. -/

namespace HashMap

/-- Well-formedness asks nothing of the comparer beyond key uniqueness, which a comparer
that never reports equality satisfies on every table. -/
theorem WF_neverEq_sampleFull : WF natHash neverEq sampleFull :=
  ⟨WF_sampleFull.buckets_length, WF_sampleFull.entries_length, WF_sampleFull.used_le,
    WF_sampleFull.occupied_lt, WF_sampleFull.hash_cached,
    (fun _ _ _ _ _ _ h => by cases h),
    WF_sampleFull.chains, WF_sampleFull.free_list⟩

/-- Three insertions with the comparer `neverEq` build `sampleFull`. -/
theorem Reachable_neverEq_sampleFull : Reachable natHash neverEq sampleFull :=
  Reachable.insertPair (7, 6)
    (Reachable.insertPair (4, 3)
      (Reachable.insertPair (1, 2) Reachable.start (by unfold InRange; decide)
        (by decide : insertPair natHash neverEq empty (1, 2) =
          some (true, ⟨1, 0⟩,
            HashMap.mk [-1, 0, -1] [⟨1, some (1, 2), -1⟩, emptyEntry, emptyEntry] 3 1 0 (-1))))
      (by unfold InRange; decide)
      (by decide : insertPair natHash neverEq
          (HashMap.mk [-1, 0, -1] [⟨1, some (1, 2), -1⟩, emptyEntry, emptyEntry] 3 1 0 (-1))
          (4, 3) =
        some (true, ⟨1, 1⟩,
          HashMap.mk [-1, 1, -1] [⟨1, some (1, 2), -1⟩, ⟨4, some (4, 3), 0⟩, emptyEntry]
            3 2 0 (-1))))
    (by unfold InRange; decide)
    (by decide : insertPair natHash neverEq
        (HashMap.mk [-1, 1, -1] [⟨1, some (1, 2), -1⟩, ⟨4, some (4, 3), 0⟩, emptyEntry]
          3 2 0 (-1))
        (7, 6) = some (true, ⟨1, 2⟩, sampleFull))

theorem erase_neverEq_sampleFull :
    erase neverEq sampleFull ⟨1, 1⟩ = some (⟨1, 0⟩, sampleBroken) := by
  decide

theorem erase_neverEq_sampleBroken :
    erase neverEq sampleBroken ⟨1, 2⟩ = some (⟨1, 1⟩, sampleCyclic) := by
  decide

theorem Reachable_sampleBroken : Reachable natHash neverEq sampleBroken :=
  Reachable.erase ⟨1, 1⟩ Reachable_neverEq_sampleFull (by decide) (by decide)
    erase_neverEq_sampleFull

theorem Reachable_sampleCyclic : Reachable natHash neverEq sampleCyclic :=
  Reachable.erase ⟨1, 2⟩ Reachable_sampleBroken (by decide) (by decide)
    erase_neverEq_sampleBroken

/-- On the table whose `next` links form the cycle 2, 0, 1 the predecessor search for
the entry in slot 0 does not end, whatever the number of rounds. -/
theorem FindPreviousIndexOf_loop_cycles : ∀ (fuel : Nat) (current previous : Int),
    (current = 0 ∨ current = 1 ∨ current = 2) →
    FindPreviousIndexOf.loop neverEq sampleDrain2.entries 3 1 1 fuel current previous = none
  | 0, _, _, _ => rfl
  | fuel + 1, current, previous, h => by
    rcases h with rfl | rfl | rfl
    · unfold FindPreviousIndexOf.loop
      simp only [sampleDrain2, entryAt, neverEq]
      exact FindPreviousIndexOf_loop_cycles fuel 1 0 (Or.inr (Or.inl rfl))
    · unfold FindPreviousIndexOf.loop
      simp only [sampleDrain2, entryAt]
      exact FindPreviousIndexOf_loop_cycles fuel 2 1 (Or.inr (Or.inr rfl))
    · unfold FindPreviousIndexOf.loop
      simp only [sampleDrain2, entryAt]
      exact FindPreviousIndexOf_loop_cycles fuel 0 2 (Or.inl rfl)

/-- C6, as stated, fails for a comparer that never reports equality: `sampleFull` is
well formed with three entries, the drain loop erases slot 2 and slot 1 through ever
more damaged links, and its third erasure does not return, because the predecessor
search runs around a cycle of `next` links. -/
theorem eraseAll_neverEq_not_returning :
    WF natHash neverEq sampleFull ∧ size sampleFull = 3 ∧
    begin sampleFull = some ⟨1, 2⟩ ∧
    erase neverEq sampleFull ⟨1, 2⟩ = some (⟨1, 1⟩, sampleDrain1) ∧
    erase neverEq sampleDrain1 ⟨1, 1⟩ = some (⟨1, 0⟩, sampleDrain2) ∧
    size sampleDrain2 = 1 ∧
    (∀ fuel, FindPreviousIndexOf.loop neverEq sampleDrain2.entries 3 1 1 fuel
      (bucketAt sampleDrain2.buckets 1) (-1) = none) ∧
    erase neverEq sampleDrain2 ⟨1, 0⟩ = none ∧
    eraseAll neverEq sampleFull = none :=
  ⟨WF_neverEq_sampleFull, by decide, by decide, by decide, by decide, by decide,
    fun fuel => FindPreviousIndexOf_loop_cycles fuel 2 (-1) (Or.inr (Or.inr rfl)),
    by decide, by decide⟩

/-- C18, as stated, fails for a comparer that never reports equality: three insertions
and one `erase` reach `sampleBroken`, where the chain of bucket 1 is slot 2 followed by
the freed slot 1, and the occupied slot 0, whose hash selects bucket 1, is on no chain
and links to itself. -/
theorem chain_invariant_neverEq_fails :
    Reachable natHash neverEq sampleBroken ∧
    IsChain sampleBroken.entries (bucketAt sampleBroken.buckets 1) [2, 1] ∧
    (entryAt sampleBroken.entries 1).kvp = none ∧
    (entryAt sampleBroken.entries 0).kvp = some (1, 2) ∧
    (entryAt sampleBroken.entries 0).hash % sampleBroken.capacity = 1 ∧
    (entryAt sampleBroken.entries 0).next = 0 ∧
    ¬ ∃ chain : Nat → List Nat,
      (∀ b, b < sampleBroken.capacity →
        IsChain sampleBroken.entries (bucketAt sampleBroken.buckets b) (chain b) ∧
        (chain b).Nodup ∧ ∀ i ∈ chain b, (entryAt sampleBroken.entries i).kvp ≠ none) ∧
      (∀ i, (entryAt sampleBroken.entries i).kvp ≠ none →
        (entryAt sampleBroken.entries i).hash % sampleBroken.capacity <
          sampleBroken.capacity ∧
        (chain ((entryAt sampleBroken.entries i).hash % sampleBroken.capacity)).count i = 1 ∧
        ∀ b, b < sampleBroken.capacity →
          (i ∈ chain b ↔ b = (entryAt sampleBroken.entries i).hash % sampleBroken.capacity)) := by
  have hchain : IsChain sampleBroken.entries (bucketAt sampleBroken.buckets 1) [2, 1] :=
    ⟨rfl, rfl, rfl⟩
  refine ⟨Reachable_sampleBroken, hchain, rfl, rfl, rfl, rfl, ?_⟩
  rintro ⟨chain, h1, _⟩
  obtain ⟨hc, _, hocc⟩ := h1 1 (by decide)
  have he : chain 1 = [2, 1] := IsChain.unique _ _ _ hc hchain
  have := hocc 1 (by rw [he]; simp)
  exact this rfl

/-- C20, as stated, fails for a comparer that never reports equality: three insertions
and two calls of `erase` reach `sampleCyclic`, where `deletedEntriesAmount` is 2 and the
free list leads from slot 2 to slot 1 and from slot 1 to slot 1 again, so no list of
slots follows it to the sentinel. -/
theorem counting_invariant_neverEq_fails :
    Reachable natHash neverEq sampleCyclic ∧
    sampleCyclic.deletedEntriesAmount = 2 ∧ sampleCyclic.deletedList = 2 ∧
    (entryAt sampleCyclic.entries 2).next = 1 ∧ (entryAt sampleCyclic.entries 1).next = 1 ∧
    (¬ ∃ free : List Nat, IsChain sampleCyclic.entries sampleCyclic.deletedList free) ∧
    ¬ ∃ free : List Nat, IsChain sampleCyclic.entries sampleCyclic.deletedList free ∧
      free.Nodup ∧ free.length = sampleCyclic.deletedEntriesAmount ∧
      ∀ i, i ∈ free ↔
        (i < sampleCyclic.usedEntriesAmount ∧ (entryAt sampleCyclic.entries i).kvp = none) := by
  have hloop : ∀ (l : List Nat), ¬ IsChain sampleCyclic.entries 1 l := by
    intro l
    induction l with
    | nil =>
      intro h
      simp only [IsChain] at h
      omega
    | cons a l ih =>
      intro h
      simp only [IsChain] at h
      obtain ⟨ha, hrest⟩ := h
      have ha' : a = 1 := by omega
      subst ha'
      exact ih hrest
  have hno : ¬ ∃ free : List Nat, IsChain sampleCyclic.entries sampleCyclic.deletedList free := by
    rintro ⟨free, hc⟩
    cases free with
    | nil =>
      simp only [IsChain, sampleCyclic] at hc
      omega
    | cons a l =>
      simp only [IsChain] at hc
      obtain ⟨ha, hrest⟩ := hc
      have ha' : a = 2 := by
        have : sampleCyclic.deletedList = 2 := rfl
        omega
      subst ha'
      exact hloop l hrest
  refine ⟨Reachable_sampleCyclic, rfl, rfl, rfl, rfl, hno, ?_⟩
  rintro ⟨free, hc, _⟩
  exact hno ⟨free, hc⟩

/-- C24, as stated, fails for a comparer that never reports equality: the traversal of
the well-formed table `sampleFull` visits the slots 2, 1, 0; after `erase` on the
iterator at slot 1 the traversal visits slot 2 and then the erased slot 1, and it no
longer visits slot 0, which still holds its pair. -/
theorem erase_neverEq_breaks_order :
    WF natHash neverEq sampleFull ∧
    iterate sampleFull = some ([Iterator.mk 1 2] ++ Iterator.mk 1 1 :: [Iterator.mk 1 0]) ∧
    erase neverEq sampleFull (Iterator.mk 1 1) = some (Iterator.mk 1 0, sampleBroken) ∧
    iterate sampleBroken = some [Iterator.mk 1 2, Iterator.mk 1 1] ∧
    iterate sampleBroken ≠ some ([Iterator.mk 1 2] ++ [Iterator.mk 1 0]) ∧
    deref sampleBroken (Iterator.mk 1 1) = none ∧
    deref sampleBroken (Iterator.mk 1 0) = some (1, 2) :=
  ⟨WF_neverEq_sampleFull, by decide, by decide, by decide, by decide, by decide, by decide⟩

end HashMap
